import Mathlib

/-!
# Verification of the `ee-chinese-filtering` multi-pattern matching core

Shallow embedding of the repository's Python code into Lean 4.

Conventions used throughout:

* A Python `str` is modelled as `List Char` (Lean `Char` is exactly a
  Unicode scalar value, as in Python).
* A Python `bytes` value is modelled as `List Nat`, each element `< 256`.
* `str.encode("utf-8")` is modelled by `encodeStr`, `bytes.decode()` by
  `utf8DecodeCps` (returning `none` where Python raises
  `UnicodeDecodeError`).
* Fallible constructors are modelled with `Option` (`none` = the Python
  constructor raises).
* Python `while` loops are modelled by fuel-indexed recursion; the fuel
  supplied by the top-level entry points is proved sufficient for every
  state the Python code can actually reach.
-/

/-! ## UTF-8 byte encoding (model of Python `str.encode("utf-8")`) -/

/-- UTF-8 encoding of a single code point (given as a `Nat`). -/
def utf8Bytes (n : Nat) : List Nat :=
  if n < 0x80 then [n]
  else if n < 0x800 then [0xC0 + n / 0x40, 0x80 + n % 0x40]
  else if n < 0x10000 then
    [0xE0 + n / 0x1000, 0x80 + (n / 0x40) % 0x40, 0x80 + n % 0x40]
  else
    [0xF0 + n / 0x40000, 0x80 + (n / 0x1000) % 0x40,
      0x80 + (n / 0x40) % 0x40, 0x80 + n % 0x40]

/-- UTF-8 encoding of a character. -/
def encodeChar (c : Char) : List Nat := utf8Bytes c.toNat

/-- Model of Python `text.encode("utf-8")`. -/
def encodeStr (s : List Char) : List Nat := (s.map encodeChar).flatten

/-- A UTF-8 continuation byte. -/
def isCont (b : Nat) : Bool := 0x80 ≤ b && b < 0xC0

/-! ## UTF-8 decoding (model of Python `bytes.decode()`)

Python's strict UTF-8 decoder rejects continuation bytes in lead
position, truncated sequences, overlong encodings, surrogates and
code points above `0x10FFFF`; `decodeOne` mirrors those checks. -/

/-- Decode one code point from the front of a byte list. -/
def decodeOne : List Nat → Option (Nat × List Nat)
  | [] => none
  | b :: rest =>
    if b < 0x80 then some (b, rest)
    else if b < 0xC0 then none
    else if b < 0xE0 then
      match rest with
      | b1 :: r =>
        if isCont b1 then
          let n := (b - 0xC0) * 0x40 + (b1 - 0x80)
          if 0x80 ≤ n then some (n, r) else none
        else none
      | [] => none
    else if b < 0xF0 then
      match rest with
      | b1 :: b2 :: r =>
        if isCont b1 && isCont b2 then
          let n := (b - 0xE0) * 0x1000 + (b1 - 0x80) * 0x40 + (b2 - 0x80)
          if 0x800 ≤ n && ¬(0xD800 ≤ n && n < 0xE000) then some (n, r) else none
        else none
      | _ => none
    else if b < 0xF8 then
      match rest with
      | b1 :: b2 :: b3 :: r =>
        if isCont b1 && isCont b2 && isCont b3 then
          let n := (b - 0xF0) * 0x40000 + (b1 - 0x80) * 0x1000 +
            (b2 - 0x80) * 0x40 + (b3 - 0x80)
          if 0x10000 ≤ n && n < 0x110000 then some (n, r) else none
        else none
      | _ => none
    else none

set_option maxRecDepth 4000

theorem decodeOne_length {l r : List Nat} {n : Nat}
    (h : decodeOne l = some (n, r)) : r.length < l.length := by
  match l with
  | [] => simp [decodeOne] at h
  | b :: rest =>
    simp only [decodeOne] at h
    split at h
    · cases h; simp
    · split at h
      · exact absurd h (by simp)
      · split at h
        · match rest with
          | [] => simp at h
          | b1 :: r' =>
            simp only at h
            split at h
            · split at h
              · cases h; simp; omega
              · simp at h
            · simp at h
        · split at h
          · match rest with
            | [] => simp at h
            | [b1] => simp at h
            | b1 :: b2 :: r' =>
              simp only at h
              split at h
              · split at h
                · cases h; simp; omega
                · simp at h
              · simp at h
          · split at h
            · match rest with
              | [] => simp at h
              | [b1] => simp at h
              | [b1, b2] => simp at h
              | b1 :: b2 :: b3 :: r' =>
                simp only at h
                split at h
                · split at h
                  · cases h; simp; omega
                  · simp at h
                · simp at h
            · exact absurd h (by simp)

/-- Fuelled decoding loop (each step consumes at least one byte, so
`l.length` fuel always suffices; see `utf8DecodeAux_congr`). -/
def utf8DecodeAux : Nat → List Nat → Option (List Nat)
  | _, [] => some []
  | 0, _ :: _ => none
  | fuel + 1, b :: rest =>
    match decodeOne (b :: rest) with
    | none => none
    | some (n, r) => (utf8DecodeAux fuel r).map (n :: ·)

/-- Decode a whole byte list into its code points; `none` mirrors a
Python `UnicodeDecodeError`. -/
def utf8DecodeCps (l : List Nat) : Option (List Nat) := utf8DecodeAux l.length l

theorem utf8DecodeAux_congr :
    ∀ (f1 f2 : Nat) (l : List Nat), l.length ≤ f1 → l.length ≤ f2 →
    utf8DecodeAux f1 l = utf8DecodeAux f2 l := by
  intro f1
  induction f1 with
  | zero =>
    intro f2 l h1 _
    match l with
    | [] =>
      match f2 with
      | 0 => rfl
      | k + 1 => rfl
    | b :: rest => simp at h1
  | succ k1 ih =>
    intro f2 l h1 h2
    match l with
    | [] =>
      match f2 with
      | 0 => rfl
      | k + 1 => rfl
    | b :: rest =>
      match f2 with
      | 0 => simp at h2
      | k2 + 1 =>
        rw [utf8DecodeAux, utf8DecodeAux]
        match hd : decodeOne (b :: rest) with
        | none => rfl
        | some (n, r) =>
          have hr := decodeOne_length hd
          simp only
          rw [ih k2 r (by simp at h1 hr ⊢; omega) (by simp at h2 hr ⊢; omega)]

/-! ### Round-trip and self-synchronisation lemmas for UTF-8 -/

theorem char_valid (c : Char) :
    c.toNat < 0xD800 ∨ (0xDFFF < c.toNat ∧ c.toNat < 0x110000) := c.valid

theorem utf8Bytes_one {n : Nat} (h : n < 0x80) : utf8Bytes n = [n] := by
  simp [utf8Bytes, h]

theorem utf8Bytes_two {n : Nat} (h1 : ¬n < 0x80) (h2 : n < 0x800) :
    utf8Bytes n = [0xC0 + n / 0x40, 0x80 + n % 0x40] := by
  simp [utf8Bytes, h1, h2]

theorem utf8Bytes_three {n : Nat} (h1 : ¬n < 0x800) (h2 : n < 0x10000) :
    utf8Bytes n = [0xE0 + n / 0x1000, 0x80 + (n / 0x40) % 0x40, 0x80 + n % 0x40] := by
  have : ¬n < 0x80 := by omega
  simp [utf8Bytes, this, h1, h2]

theorem utf8Bytes_four {n : Nat} (h1 : ¬n < 0x10000) :
    utf8Bytes n = [0xF0 + n / 0x40000, 0x80 + (n / 0x1000) % 0x40,
      0x80 + (n / 0x40) % 0x40, 0x80 + n % 0x40] := by
  have h2 : ¬n < 0x80 := by omega
  have h3 : ¬n < 0x800 := by omega
  simp [utf8Bytes, h1, h2, h3]

theorem decodeOne_encodeChar (c : Char) (r : List Nat) :
    decodeOne (encodeChar c ++ r) = some (c.toNat, r) := by
  have hv := char_valid c
  rw [encodeChar]
  by_cases h1 : c.toNat < 0x80
  · rw [utf8Bytes_one h1]
    simp only [List.cons_append, List.nil_append, decodeOne]
    rw [if_pos h1]
  · by_cases h2 : c.toNat < 0x800
    · rw [utf8Bytes_two h1 h2]
      simp only [List.cons_append, List.nil_append, decodeOne]
      rw [if_neg (by omega), if_neg (by omega), if_pos (by omega)]
      simp only [isCont]
      rw [if_pos (by simp; omega), if_pos (by omega)]
      congr 2
      omega
    · by_cases h3 : c.toNat < 0x10000
      · rw [utf8Bytes_three h2 h3]
        simp only [List.cons_append, List.nil_append, decodeOne]
        rw [if_neg (by omega), if_neg (by omega), if_neg (by omega),
          if_pos (by omega)]
        simp only [isCont]
        rw [if_pos (by simp; omega)]
        have hval : (0xE0 + c.toNat / 0x1000 - 0xE0) * 0x1000 +
            (0x80 + (c.toNat / 0x40) % 0x40 - 0x80) * 0x40 +
            (0x80 + c.toNat % 0x40 - 0x80) = c.toNat := by omega
        rw [if_pos (by simp only [hval]; simp; omega)]
        congr 2
      · rw [utf8Bytes_four h3]
        simp only [List.cons_append, List.nil_append, decodeOne]
        rw [if_neg (by omega), if_neg (by omega), if_neg (by omega),
          if_neg (by omega), if_pos (by omega)]
        simp only [isCont]
        rw [if_pos (by simp; omega)]
        have hval : (0xF0 + c.toNat / 0x40000 - 0xF0) * 0x40000 +
            (0x80 + (c.toNat / 0x1000) % 0x40 - 0x80) * 0x1000 +
            (0x80 + (c.toNat / 0x40) % 0x40 - 0x80) * 0x40 +
            (0x80 + c.toNat % 0x40 - 0x80) = c.toNat := by omega
        rw [if_pos (by simp only [hval]; simp; omega)]
        congr 2

theorem utf8DecodeCps_step {l r : List Nat} {n : Nat}
    (h : decodeOne l = some (n, r)) :
    utf8DecodeCps l = (utf8DecodeCps r).map (n :: ·) := by
  match l with
  | [] => simp [decodeOne] at h
  | b :: rest =>
    have hr := decodeOne_length h
    rw [utf8DecodeCps]
    simp only [List.length_cons]
    rw [utf8DecodeAux, h]
    simp only
    rw [utf8DecodeCps, utf8DecodeAux_congr rest.length r.length r
      (by simp at hr ⊢; omega) (le_refl _)]

theorem encodeStr_cons (c : Char) (s : List Char) :
    encodeStr (c :: s) = encodeChar c ++ encodeStr s := by
  simp [encodeStr]

theorem encodeStr_append (s t : List Char) :
    encodeStr (s ++ t) = encodeStr s ++ encodeStr t := by
  simp [encodeStr]

theorem encodeStr_nil : encodeStr [] = [] := rfl

/-- Round trip: decoding the UTF-8 encoding of a string recovers its
code points (so Python's `.decode()` never fails on `text.encode("utf-8")`). -/
theorem utf8DecodeCps_encodeStr (s : List Char) :
    utf8DecodeCps (encodeStr s) = some (s.map Char.toNat) := by
  induction s with
  | nil => rfl
  | cons c cs ih =>
    rw [encodeStr_cons, utf8DecodeCps_step (decodeOne_encodeChar c (encodeStr cs)), ih]
    rfl

/-- Structure of a single character's encoding: a non-continuation lead
byte followed by continuation bytes. -/
theorem encodeChar_shape (c : Char) :
    ∃ b l, encodeChar c = b :: l ∧ isCont b = false ∧ ∀ x ∈ l, isCont x = true := by
  have hv := char_valid c
  rw [encodeChar]
  by_cases h1 : c.toNat < 0x80
  · exact ⟨c.toNat, [], utf8Bytes_one h1, by simp [isCont]; try omega, by simp⟩
  · by_cases h2 : c.toNat < 0x800
    · refine ⟨_, _, utf8Bytes_two h1 h2, by simp [isCont]; try omega, ?_⟩
      intro x hx
      simp at hx
      simp [isCont]; try omega
    · by_cases h3 : c.toNat < 0x10000
      · refine ⟨_, _, utf8Bytes_three h2 h3, by simp [isCont]; try omega, ?_⟩
        intro x hx
        simp at hx
        rcases hx with h | h <;> (subst h; simp [isCont]; try omega)
      · refine ⟨_, _, utf8Bytes_four h3, by simp [isCont]; try omega, ?_⟩
        intro x hx
        simp at hx
        rcases hx with h | h | h <;> (subst h; simp [isCont]; try omega)

theorem encodeChar_ne_nil (c : Char) : encodeChar c ≠ [] := by
  obtain ⟨b, l, he, -, -⟩ := encodeChar_shape c
  simp [he]

theorem encodeStr_eq_nil_iff (s : List Char) : encodeStr s = [] ↔ s = [] := by
  cases s with
  | nil => simp [encodeStr]
  | cons c cs =>
    rw [encodeStr_cons]
    simp [encodeChar_ne_nil c]

theorem char_toNat_inj {c c' : Char} (h : c.toNat = c'.toNat) : c = c' := by
  have h1 := Char.ofNat_toNat c
  rw [h, Char.ofNat_toNat] at h1
  exact h1.symm

/-- Injectivity of the single-character encoding. -/
theorem encodeChar_inj {c c' : Char} (h : encodeChar c = encodeChar c') : c = c' := by
  have h1 := decodeOne_encodeChar c ([] : List Nat)
  rw [h, decodeOne_encodeChar c' ([] : List Nat)] at h1
  simp only [Option.some_inj, Prod.mk.injEq] at h1
  exact (char_toNat_inj h1.1).symm

/-- Prefix determination: UTF-8 encodings can only be prefixes when the
underlying strings are. -/
theorem encodeStr_pref : ∀ {s1 s2 : List Char},
    encodeStr s1 <+: encodeStr s2 → s1 <+: s2 := by
  intro s1
  induction s1 with
  | nil => intro s2 _; exact List.nil_prefix
  | cons c t1 ih =>
    intro s2 h
    match s2 with
    | [] =>
      rw [encodeStr_nil, List.prefix_nil] at h
      exact absurd ((encodeStr_eq_nil_iff _).mp h) (by simp)
    | c' :: t2 =>
      obtain ⟨k, hk⟩ := h
      have e1 : decodeOne (encodeStr (c :: t1) ++ k) =
          some (c.toNat, encodeStr t1 ++ k) := by
        rw [encodeStr_cons, List.append_assoc]
        exact decodeOne_encodeChar c _
      have e2 : decodeOne (encodeStr (c' :: t2)) = some (c'.toNat, encodeStr t2) := by
        rw [encodeStr_cons]
        exact decodeOne_encodeChar c' _
      rw [hk] at e1
      rw [e1] at e2
      simp only [Option.some_inj, Prod.mk.injEq] at e2
      obtain ⟨hn, hr⟩ := e2
      have hc : c = c' := char_toNat_inj hn
      subst hc
      exact List.cons_prefix_cons.mpr ⟨rfl, ih ⟨k, hr⟩⟩

theorem encodeStr_inj {s1 s2 : List Char} (h : encodeStr s1 = encodeStr s2) :
    s1 = s2 := by
  have h1 : s1 <+: s2 := encodeStr_pref (h ▸ List.prefix_refl _)
  have h2 : s2 <+: s1 := encodeStr_pref (h ▸ List.prefix_refl _)
  exact h1.eq_of_length (le_antisymm h1.length_le h2.length_le)

/-- Self-synchronisation: a split of an encoded string whose right part
does not start with a continuation byte is a character boundary. -/
theorem encodeStr_boundary : ∀ (t : List Char) (u w : List Nat),
    encodeStr t = u ++ w → (∀ b w', w = b :: w' → isCont b = false) →
    ∃ pre suf, t = pre ++ suf ∧ encodeStr pre = u := by
  intro t
  induction t with
  | nil =>
    intro u w he _
    rw [encodeStr_nil] at he
    have := List.append_eq_nil.mp he.symm
    exact ⟨[], [], rfl, by simp [encodeStr_nil, this.1]⟩
  | cons c t' ih =>
    intro u w he hw
    match u with
    | [] => exact ⟨[], c :: t', rfl, rfl⟩
    | x :: u0 =>
      rw [encodeStr_cons] at he
      obtain ⟨b, l, hshape, hlead, hcont⟩ := encodeChar_shape c
      by_cases hlen : (encodeChar c).length ≤ (x :: u0).length
      · have htake : encodeChar c = (x :: u0).take (encodeChar c).length := by
          have := congrArg (List.take (encodeChar c).length) he
          rwa [List.take_append_of_le_length (le_refl _) , List.take_length,
            List.take_append_of_le_length hlen] at this
        obtain ⟨u1, hu1⟩ : ∃ u1, (x :: u0) = encodeChar c ++ u1 := by
          refine ⟨(x :: u0).drop (encodeChar c).length, ?_⟩
          conv_lhs => rw [← List.take_append_drop (encodeChar c).length (x :: u0)]
          rw [← htake]
        rw [hu1, List.append_assoc] at he
        have he' : encodeStr t' = u1 ++ w := List.append_cancel_left he
        obtain ⟨pre', suf, hsplit, henc⟩ := ih u1 w he' hw
        exact ⟨c :: pre', suf, by rw [hsplit]; simp, by rw [encodeStr_cons, henc, hu1]⟩
      · exfalso
        push_neg at hlen
        have hwd : w = (encodeChar c).drop (x :: u0).length ++ encodeStr t' := by
          have h5 := congrArg (List.drop (x :: u0).length) he
          rw [List.drop_append_of_le_length (le_of_lt hlen), List.drop_left] at h5
          exact h5.symm
        have hne : (encodeChar c).drop (x :: u0).length ≠ [] := by
          intro hnil
          have hlen2 := congrArg List.length hnil
          rw [List.length_drop] at hlen2
          simp only [List.length_nil] at hlen2
          omega
        match hd : (encodeChar c).drop (x :: u0).length with
        | [] => exact hne hd
        | y :: ys =>
          have hy : y ∈ l := by
            have hmem : y ∈ (encodeChar c).drop (x :: u0).length := by
              rw [hd]; simp
            have hmem2 : y ∈ (encodeChar c).drop 1 := by
              have : (encodeChar c).drop (x :: u0).length =
                  ((encodeChar c).drop 1).drop ((x :: u0).length - 1) := by
                rw [List.drop_drop]
                congr 1
                simp only [List.length_cons]
                omega
              rw [this] at hmem
              exact List.mem_of_mem_drop hmem
            rwa [hshape, List.drop_one, List.tail_cons] at hmem2
          have : isCont y = false := by
            apply hw y (ys ++ encodeStr t')
            rw [hwd, hd]
            simp
          rw [hcont y hy] at this
          cases this

/-- A byte-level occurrence of the encoding of a non-empty string inside
an encoded text is a character-level occurrence at a boundary. -/
theorem encodeStr_occurrence {t p : List Char} {b1 b2 : List Nat}
    (hp : p ≠ []) (he : encodeStr t = b1 ++ (encodeStr p ++ b2)) :
    ∃ pre suf, t = pre ++ p ++ suf ∧ encodeStr pre = b1 ∧ encodeStr suf = b2 := by
  obtain ⟨c, p', hpc⟩ : ∃ c p', p = c :: p' := by
    match p with
    | [] => exact absurd rfl hp
    | c :: p' => exact ⟨c, p', rfl⟩
  obtain ⟨b, l, hshape, hlead, -⟩ := encodeChar_shape c
  have hbd : ∃ pre suf, t = pre ++ suf ∧ encodeStr pre = b1 := by
    apply encodeStr_boundary t b1 (encodeStr p ++ b2) he
    intro x w' hx
    rw [hpc, encodeStr_cons, hshape] at hx
    simp only [List.cons_append, List.cons.injEq] at hx
    rw [← hx.1]
    exact hlead
  obtain ⟨pre, suf, hsplit, henc⟩ := hbd
  have hsuf : encodeStr suf = encodeStr p ++ b2 := by
    rw [hsplit, encodeStr_append, henc] at he
    exact List.append_cancel_left he
  have hpref : p <+: suf := encodeStr_pref ⟨b2, hsuf.symm⟩
  obtain ⟨suf', hsuf'⟩ := hpref
  refine ⟨pre, suf', ?_, henc, ?_⟩
  · rw [hsplit, ← hsuf', List.append_assoc]
  · rw [← hsuf', encodeStr_append] at hsuf
    exact List.append_cancel_left hsuf

/-! ## Position mapper (model of `byte_pos_to_char_pos` in `_common.py`)

```python
def byte_pos_to_char_pos(end_pos, text_bytes, pattern_bytes):
    start_pos = end_pos - len(pattern_bytes) + 1
    return len(text_bytes[:start_pos].decode())
```

The Python subtraction is over `int`, so `start_pos` is modelled as an
`Int`; a negative value slices from the end of the buffer exactly as
Python does, and a decoding error is `none`. -/

/-- Python `l[:i]` for an arbitrary (possibly negative) `i`. -/
def pySliceTo (l : List Nat) (i : Int) : List Nat :=
  if 0 ≤ i then l.take i.toNat else l.take (l.length - i.natAbs)

/-- Model of `byte_pos_to_char_pos`. -/
def byte_pos_to_char_pos (end_pos : Int) (text_bytes pattern_bytes : List Nat) :
    Option Nat :=
  (utf8DecodeCps (pySliceTo text_bytes (end_pos - pattern_bytes.length + 1))).map
    List.length

/-- Core correctness of the position mapper: if `end_pos` is the index of
the last byte of an occurrence of the pattern's UTF-8 encoding inside the
text's UTF-8 encoding, `byte_pos_to_char_pos` returns `some` of the number
of characters encoded strictly before the occurrence. -/
theorem byte_pos_correct (t p : List Char) (b1 b2 : List Nat)
    (end_pos : Int) (hp : p ≠ [])
    (he : encodeStr t = b1 ++ (encodeStr p ++ b2))
    (hend : end_pos = b1.length + (encodeStr p).length - 1) :
    ∃ pre suf, t = pre ++ p ++ suf ∧ encodeStr pre = b1 ∧
      byte_pos_to_char_pos end_pos (encodeStr t) (encodeStr p) = some pre.length := by
  obtain ⟨pre, suf, hsplit, henc, hsuf⟩ := encodeStr_occurrence hp he
  refine ⟨pre, suf, hsplit, henc, ?_⟩
  have hplen : 1 ≤ (encodeStr p).length := by
    match p with
    | [] => exact absurd rfl hp
    | c :: p' =>
      rw [encodeStr_cons]
      obtain ⟨b, l, hshape, -, -⟩ := encodeChar_shape c
      rw [hshape]
      simp
  have hidx : end_pos - (encodeStr p).length + 1 = (b1.length : Int) := by omega
  rw [byte_pos_to_char_pos, hidx]
  have hslice : pySliceTo (encodeStr t) ((b1.length : Int)) = b1 := by
    rw [pySliceTo, if_pos (by omega)]
    rw [he]
    simp [List.take_append_of_le_length]
  rw [hslice, ← henc, utf8DecodeCps_encodeStr]
  simp

/-- C4 (claim statement): if `end_pos` is the index of the last byte of an
occurrence of the pattern's UTF-8 encoding inside the text's UTF-8
encoding, `byte_pos_to_char_pos` returns `some` of the number of
characters encoded strictly before the occurrence (the decode cannot
fail). -/
theorem C4_byte_pos_to_char_pos_correct (t p : List Char) (b1 b2 : List Nat)
    (end_pos : Int) (hp : p ≠ [])
    (he : encodeStr t = b1 ++ (encodeStr p ++ b2))
    (hend : end_pos = b1.length + (encodeStr p).length - 1) :
    ∃ pre suf, t = pre ++ p ++ suf ∧ encodeStr pre = b1 ∧
      byte_pos_to_char_pos end_pos (encodeStr t) (encodeStr p) = some pre.length :=
  byte_pos_correct t p b1 b2 end_pos hp he hend

/-- Witness for `C4_byte_pos_to_char_pos_correct` at a concrete input:
text "a它b", pattern "它", occurrence ending at byte 3. -/
theorem C4_witness :
    ∃ pre suf, (['a', '它', 'b'] : List Char) = pre ++ ['它'] ++ suf ∧
      encodeStr pre = [97] ∧
      byte_pos_to_char_pos 3 (encodeStr ['a', '它', 'b']) (encodeStr ['它']) =
        some pre.length :=
  C4_byte_pos_to_char_pos_correct ['a', '它', 'b'] ['它'] [97] [98] 3
    (by decide) (by decide) (by decide)

/-! ## Baseline matchers (models of `brute_force.py` and `native.py`)

Patterns and texts are `List Char`; these two matchers work directly on
characters (no byte translation), exactly as the Python code does.
`BaseAlgo.match` returns a sentinel for empty text, which every matcher
turns into an empty result; so each model starts with `if t = []`. -/

/-- `p` occurs in `t` at character offset `i`. -/
def occursAt (t p : List Char) (i : Nat) : Prop :=
  i + p.length ≤ t.length ∧ (t.drop i).take p.length = p

instance (t p : List Char) (i : Nat) : Decidable (occursAt t p i) := by
  unfold occursAt; infer_instance

theorem occursAt_iff (t p : List Char) (i : Nat) :
    occursAt t p i ↔ ∃ pre suf, t = pre ++ p ++ suf ∧ pre.length = i := by
  constructor
  · rintro ⟨hlen, hsub⟩
    refine ⟨t.take i, t.drop (i + p.length), ?_, ?_⟩
    · conv_lhs => rw [← List.take_append_drop i t]
      rw [List.append_assoc]
      congr 1
      conv_lhs => rw [← List.take_append_drop p.length (t.drop i)]
      rw [hsub, List.drop_drop]
      try (congr 1; omega)
    · rw [List.length_take]
      omega
  · rintro ⟨pre, suf, hsplit, hlen⟩
    subst hsplit
    constructor
    · simp
      omega
    · subst hlen
      rw [List.append_assoc, List.drop_append_of_le_length (le_refl _),
        List.drop_length, List.nil_append,
        List.take_append_of_le_length (by simp), List.take_length]

/-- One pattern's scan in `BruteForce.match` (`for i in range(len(text))`
with the early `break` once `i + len(pattern) > len(text)`). -/
def bruteForceOne (t p : List Char) : List (Nat × List Char) :=
  (List.range t.length).filterMap
    (fun i => if occursAt t p i then some (i, p) else none)

/-- Model of `BruteForce.match`. -/
def bruteForce_match (patterns : List (List Char)) (t : List Char) :
    List (Nat × List Char) :=
  if t = [] then [] else (patterns.map (bruteForceOne t)).flatten

/-- Model of Python `text.find(pattern, start)`: least index `≥ start` of
an occurrence, `none` for Python's `-1`. -/
def strFind (t p : List Char) (start : Nat) : Option Nat :=
  ((List.range (t.length + 1)).filter
    (fun i => start ≤ i && decide (occursAt t p i))).head?

/-- The `while idx < len(text)` loop of `Native.match` for one pattern.
The Python loop advances `idx` past each found match (`idx += len(pattern)`),
so with non-empty patterns it terminates within `len(text) + 1` rounds;
the fuel below is that bound. -/
def nativeLoop (t p : List Char) : Nat → Nat → List (Nat × List Char)
  | 0, _ => []
  | fuel + 1, idx =>
    if idx < t.length then
      match strFind t p idx with
      | none => []
      | some i => (i, p) :: nativeLoop t p fuel (i + p.length)
    else []

/-- Model of `Native.match`. -/
def native_match (patterns : List (List Char)) (t : List Char) :
    List (Nat × List Char) :=
  if t = [] then []
  else (patterns.map (fun p => nativeLoop t p (t.length + 1) 0)).flatten

/-- Membership in `BruteForce.match` is exactly occurrence. -/
theorem bruteForce_match_mem (patterns : List (List Char)) (t : List Char)
    (ht : t ≠ []) (i : Nat) (p : List Char) :
    (i, p) ∈ bruteForce_match patterns t ↔
      p ∈ patterns ∧ i < t.length ∧ occursAt t p i := by
  rw [bruteForce_match, if_neg ht]
  simp only [List.mem_flatten, List.mem_map]
  constructor
  · rintro ⟨l, ⟨q, hq, rfl⟩, hmem⟩
    rw [bruteForceOne] at hmem
    simp only [List.mem_filterMap, List.mem_range] at hmem
    obtain ⟨j, hj, hif⟩ := hmem
    by_cases hocc : occursAt t q j
    · rw [if_pos hocc] at hif
      cases hif
      exact ⟨hq, hj, hocc⟩
    · rw [if_neg hocc] at hif
      cases hif
  · rintro ⟨hp, hi, hocc⟩
    refine ⟨bruteForceOne t p, ⟨p, hp, rfl⟩, ?_⟩
    rw [bruteForceOne]
    simp only [List.mem_filterMap, List.mem_range]
    exact ⟨i, hi, by rw [if_pos hocc]⟩

theorem mem_of_head_some {α : Type} {l : List α} {a : α} (h : l.head? = some a) :
    a ∈ l := by
  match l with
  | [] => simp at h
  | x :: xs =>
    simp only [List.head?_cons, Option.some_inj] at h
    subst h
    simp

theorem strFind_sound {t p : List Char} {start i : Nat}
    (h : strFind t p start = some i) : start ≤ i ∧ occursAt t p i := by
  have hmem := mem_of_head_some h
  simp only [List.mem_filter, List.mem_range, Bool.and_eq_true, decide_eq_true_eq]
  at hmem
  exact ⟨hmem.2.1, hmem.2.2⟩

theorem nativeLoop_sound {t p : List Char} :
    ∀ (fuel idx : Nat) (i : Nat) (q : List Char),
    (i, q) ∈ nativeLoop t p fuel idx → q = p ∧ occursAt t p i := by
  intro fuel
  induction fuel with
  | zero => intro idx i q h; simp [nativeLoop] at h
  | succ f ih =>
    intro idx i q h
    rw [nativeLoop] at h
    split at h
    · match hf : strFind t p idx with
      | none => rw [hf] at h; simp at h
      | some j =>
        rw [hf] at h
        simp only [List.mem_cons] at h
        rcases h with h | h
        · cases h
          exact ⟨rfl, (strFind_sound hf).2⟩
        · exact ih _ i q h
    · simp at h

/-- Every pair reported by `Native.match` is a true occurrence of a
pattern of the list (Native is sound). -/
theorem native_match_sound {patterns : List (List Char)} {t : List Char}
    {i : Nat} {p : List Char} (h : (i, p) ∈ native_match patterns t) :
    p ∈ patterns ∧ occursAt t p i := by
  rw [native_match] at h
  split at h
  · simp at h
  · simp only [List.mem_flatten, List.mem_map] at h
    obtain ⟨l, ⟨q, hq, rfl⟩, hmem⟩ := h
    obtain ⟨rfl, hocc⟩ := nativeLoop_sound _ _ _ _ hmem
    exact ⟨hq, hocc⟩

/-- C1 (counterexample): with pattern set `["aa"]` and text `"aaa"`,
`BruteForce.match` reports the occurrence of `"aa"` at offset 1 but
`Native.match` does not (its scan jumps past overlapping occurrences of
the same pattern); the four matchers therefore do not agree as sets. -/
theorem C1_counterexample :
    (1, ['a', 'a']) ∈ bruteForce_match [['a', 'a']] ['a', 'a', 'a'] ∧
      (1, ['a', 'a']) ∉ native_match [['a', 'a']] ['a', 'a', 'a'] := by
  constructor
  · decide
  · decide

/-! ## Wu-Manber matcher (model of `wm.py`)

The three tables are modelled as functions built by successive updates,
mirroring the Python dicts; `hash`/`prefix` values are Python sets and
are modelled as duplicate-free insertion-ordered lists (claims about the
matcher compare results as sets, so the Python set iteration order is
irrelevant).  The `prefix` table is called `prefixTable` here. -/

/-- `min(len(p.encode("utf-8")) for p in patterns)` (0 only for an empty
list, where Python raises `ValueError`; `wm_init` returns `none` there). -/
def minPtnLen (patterns : List (List Char)) : Nat :=
  match patterns.map (fun p => (encodeStr p).length) with
  | [] => 0
  | x :: xs => xs.foldl min x

structure WMData where
  block_size : Nat
  min_ptn_len : Nat
  shift : List Nat → Option Nat
  hashT : List Nat → List (List Char)
  prefixTable : List Nat → List (List Char)

/-- The first `min_ptn_len - block_size + 1` block keys of a pattern. -/
def wmBlock (pb : List Nat) (B i : Nat) : List Nat := (pb.drop i).take B

/-- One `self.shift[block] = min(...)` update. -/
def wmShiftUpd (minL B : Nat) (pb : List Nat) (sh : List Nat → Option Nat)
    (i : Nat) : List Nat → Option Nat :=
  fun b => if b = wmBlock pb B i then
    some (min ((sh (wmBlock pb B i)).getD minL) (minL - i - B))
  else sh b

/-- `table.setdefault(key, set()).add(p)`. -/
def wmAdd (tb : List Nat → List (List Char)) (key : List Nat) (p : List Char) :
    List Nat → List (List Char) :=
  fun b => if b = key then (if p ∈ tb key then tb key else tb key ++ [p]) else tb b

/-- Model of `WM.insert` for one pattern. -/
def wm_insert (minL B : Nat) (w : WMData) (p : List Char) : WMData :=
  let pb := encodeStr p
  let sh := (List.range (minL - B + 1)).foldl (wmShiftUpd minL B pb) w.shift
  let suffixKey := (pb.drop (minL - B)).take B
  let prefixKey := pb.take B
  { w with
    shift := sh
    hashT := wmAdd w.hashT suffixKey p
    prefixTable := wmAdd w.prefixTable prefixKey p }

/-- Model of `WM.__init__`; `none` models the `ValueError` raised for an
empty pattern list (Python `min()` on an empty sequence) or patterns
shorter than the block size. -/
def wm_init (patterns : List (List Char)) (block_size : Nat) : Option WMData :=
  match patterns with
  | [] => none
  | _ :: _ =>
    let minL := minPtnLen patterns
    if minL < block_size then none
    else some (patterns.foldl (wm_insert minL block_size)
      { block_size := block_size, min_ptn_len := minL,
        shift := fun _ => none, hashT := fun _ => [], prefixTable := fun _ => [] })

/-- The `while end_pos < len(text_bytes)` loop of `WM.match`.  The loop
variable strictly increases each round, so `len(text_bytes) + 1` rounds
of fuel always suffice.  Emitted offsets carry the `Option` result of
`byte_pos_to_char_pos` (`none` would be a Python decode exception; the
soundness theorem shows it is always `some`). -/
def wmLoop (w : WMData) (tb : List Nat) : Nat → Nat → List (Option Nat × List Char)
  | 0, _ => []
  | fuel + 1, e =>
    if e < tb.length then
      let endBlock := (tb.drop (e + 1 - w.block_size)).take w.block_size
      let sv := (w.shift endBlock).getD (w.min_ptn_len - w.block_size + 1)
      if sv ≠ 0 then wmLoop w tb fuel (e + sv)
      else
        let s := e + 1 - w.min_ptn_len
        let startBlock := (tb.drop s).take w.block_size
        let cands := (w.hashT endBlock).filter (fun p => p ∈ w.prefixTable startBlock)
        let emits := cands.filterMap (fun p =>
          let pb := encodeStr p
          if (tb.drop s).take pb.length = pb then
            some (byte_pos_to_char_pos ((s : Int) + pb.length - 1) tb pb, p)
          else none)
        emits ++ wmLoop w tb fuel (e + 1)
    else []

/-- Model of `WM.match`. -/
def wm_match (w : WMData) (t : List Char) : List (Option Nat × List Char) :=
  if t = [] then []
  else wmLoop w (encodeStr t) ((encodeStr t).length + 1) (w.min_ptn_len - 1)

/-! ### Wu-Manber construction invariants -/

theorem foldl_min_le_init (a : Nat) (l : List Nat) : l.foldl min a ≤ a := by
  induction l generalizing a with
  | nil => simp
  | cons x xs ih =>
    rw [List.foldl_cons]
    exact le_trans (ih (min a x)) (min_le_left a x)

theorem foldl_min_le {a x : Nat} {l : List Nat} (h : x ∈ l) : l.foldl min a ≤ x := by
  induction l generalizing a with
  | nil => simp at h
  | cons y ys ih =>
    rw [List.foldl_cons]
    rcases List.mem_cons.mp h with rfl | h'
    · exact le_trans (foldl_min_le_init _ _) (min_le_right a x)
    · exact ih h'

theorem minPtnLen_le {patterns : List (List Char)} {p : List Char}
    (h : p ∈ patterns) : minPtnLen patterns ≤ (encodeStr p).length := by
  match patterns with
  | [] => simp at h
  | q :: qs =>
    rw [minPtnLen]
    simp only [List.map_cons]
    have hmem : (encodeStr p).length ∈
        (encodeStr q).length :: qs.map (fun p => (encodeStr p).length) := by
      rcases List.mem_cons.mp h with rfl | h'
      · simp
      · exact List.mem_cons_of_mem _ (List.mem_map_of_mem _ h')
    rcases List.mem_cons.mp hmem with he | hmem'
    · rw [he]
      exact foldl_min_le_init _ _
    · exact foldl_min_le hmem'

theorem wmShiftUpd_preserve {minL B : Nat} {pb : List Nat}
    {sh : List Nat → Option Nat} {i : Nat} {b : List Nat} {v k : Nat}
    (hv : sh b = some v) (hk : v ≤ k) :
    ∃ v', wmShiftUpd minL B pb sh i b = some v' ∧ v' ≤ k := by
  rw [wmShiftUpd]
  by_cases hb : b = wmBlock pb B i
  · subst hb
    rw [if_pos rfl, hv]
    exact ⟨_, rfl, le_trans (le_trans (min_le_left _ _) (le_refl _))
      (by simp [Option.getD]; omega)⟩
  · rw [if_neg hb]
    exact ⟨v, hv, hk⟩

theorem wmShiftFold_preserve {minL B : Nat} {pb : List Nat} :
    ∀ (l : List Nat) (sh : List Nat → Option Nat) (b : List Nat) (v k : Nat),
    sh b = some v → v ≤ k →
    ∃ v', (l.foldl (wmShiftUpd minL B pb) sh) b = some v' ∧ v' ≤ k := by
  intro l
  induction l with
  | nil => intro sh b v k hv hk; exact ⟨v, hv, hk⟩
  | cons j l' ih =>
    intro sh b v k hv hk
    rw [List.foldl_cons]
    obtain ⟨v', hv', hk'⟩ := @wmShiftUpd_preserve minL B pb sh j b v k hv hk
    exact ih _ b v' k hv' hk'

theorem wmShiftUpd_establish {minL B : Nat} {pb : List Nat}
    {sh : List Nat → Option Nat} {i : Nat} :
    ∃ v, wmShiftUpd minL B pb sh i (wmBlock pb B i) = some v ∧ v ≤ minL - i - B := by
  rw [wmShiftUpd, if_pos rfl]
  exact ⟨_, rfl, min_le_right _ _⟩

theorem wmShiftFold_bound {minL B : Nat} {pb : List Nat} :
    ∀ (l : List Nat) (sh : List Nat → Option Nat) (i : Nat), i ∈ l →
    ∃ v, (l.foldl (wmShiftUpd minL B pb) sh) (wmBlock pb B i) = some v ∧
      v ≤ minL - i - B := by
  intro l
  induction l with
  | nil => intro sh i h; simp at h
  | cons j l' ih =>
    intro sh i h
    rw [List.foldl_cons]
    rcases List.mem_cons.mp h with rfl | h'
    · obtain ⟨v, hv, hk⟩ := @wmShiftUpd_establish minL B pb sh i
      exact wmShiftFold_preserve l' _ _ v _ hv hk
    · exact ih _ i h'

theorem wmShiftUpd_range {minL B : Nat} {pb : List Nat}
    {sh : List Nat → Option Nat} {i : Nat}
    (h : ∀ b v, sh b = some v → v ≤ minL - B) :
    ∀ b v, wmShiftUpd minL B pb sh i b = some v → v ≤ minL - B := by
  intro b v hb
  rw [wmShiftUpd] at hb
  by_cases hbe : b = wmBlock pb B i
  · rw [if_pos hbe] at hb
    cases hb
    exact le_trans (min_le_right _ _) (by omega)
  · rw [if_neg hbe] at hb
    exact h b v hb

theorem wmShiftFold_range {minL B : Nat} {pb : List Nat} :
    ∀ (l : List Nat) (sh : List Nat → Option Nat),
    (∀ b v, sh b = some v → v ≤ minL - B) →
    ∀ b v, (l.foldl (wmShiftUpd minL B pb) sh) b = some v → v ≤ minL - B := by
  intro l
  induction l with
  | nil => intro sh h; exact h
  | cons j l' ih =>
    intro sh h
    rw [List.foldl_cons]
    exact ih _ (wmShiftUpd_range h)

theorem wmAdd_mem_self (tb : List Nat → List (List Char)) (key : List Nat)
    (p : List Char) : p ∈ wmAdd tb key p key := by
  rw [wmAdd, if_pos rfl]
  by_cases h : p ∈ tb key
  · rw [if_pos h]; exact h
  · rw [if_neg h]; simp

theorem wmAdd_preserve {tb : List Nat → List (List Char)} {key : List Nat}
    {p : List Char} {b : List Nat} {q : List Char} (h : q ∈ tb b) :
    q ∈ wmAdd tb key p b := by
  rw [wmAdd]
  by_cases hb : b = key
  · subst hb
    rw [if_pos rfl]
    by_cases hp : p ∈ tb b
    · rw [if_pos hp]; exact h
    · rw [if_neg hp]; exact List.mem_append_left _ h
  · rw [if_neg hb]; exact h

theorem wmAdd_subset {tb : List Nat → List (List Char)} {key : List Nat}
    {p : List Char} {b : List Nat} {q : List Char} (h : q ∈ wmAdd tb key p b) :
    q ∈ tb b ∨ q = p := by
  rw [wmAdd] at h
  by_cases hb : b = key
  · subst hb
    rw [if_pos rfl] at h
    by_cases hp : p ∈ tb b
    · rw [if_pos hp] at h; exact Or.inl h
    · rw [if_neg hp] at h
      rcases List.mem_append.mp h with h' | h'
      · exact Or.inl h'
      · simp at h'; exact Or.inr h'
  · rw [if_neg hb] at h; exact Or.inl h

/-- Invariants of a successfully constructed `WM` instance. -/
structure WMInv (ps : List (List Char)) (B : Nat) (w : WMData) : Prop where
  bs : w.block_size = B
  mlB : B ≤ w.min_ptn_len
  len : ∀ p ∈ ps, w.min_ptn_len ≤ (encodeStr p).length
  shiftRange : ∀ b v, w.shift b = some v → v ≤ w.min_ptn_len - B
  shiftBound : ∀ p ∈ ps, ∀ i, i ≤ w.min_ptn_len - B →
    ∃ v, w.shift (wmBlock (encodeStr p) B i) = some v ∧ v ≤ w.min_ptn_len - i - B
  hashMem : ∀ p ∈ ps,
    p ∈ w.hashT (((encodeStr p).drop (w.min_ptn_len - B)).take B)
  hashSub : ∀ b q, q ∈ w.hashT b → q ∈ ps
  prefMem : ∀ p ∈ ps, p ∈ w.prefixTable ((encodeStr p).take B)
  prefSub : ∀ b q, q ∈ w.prefixTable b → q ∈ ps

theorem wm_insert_const (minL B : Nat) (w : WMData) (p : List Char) :
    (wm_insert minL B w p).block_size = w.block_size ∧
      (wm_insert minL B w p).min_ptn_len = w.min_ptn_len := ⟨rfl, rfl⟩

theorem wm_foldl_const (minL B : Nat) :
    ∀ (l : List (List Char)) (w : WMData),
    (l.foldl (wm_insert minL B) w).block_size = w.block_size ∧
      (l.foldl (wm_insert minL B) w).min_ptn_len = w.min_ptn_len := by
  intro l
  induction l with
  | nil => intro w; exact ⟨rfl, rfl⟩
  | cons q l' ih => intro w; rw [List.foldl_cons]; exact ih _

theorem wm_insert_shiftRange {minL B : Nat} {w : WMData} {p : List Char}
    (h : ∀ b v, w.shift b = some v → v ≤ minL - B) :
    ∀ b v, (wm_insert minL B w p).shift b = some v → v ≤ minL - B := by
  intro b v hb
  exact wmShiftFold_range _ _ h b v hb

theorem wm_foldl_shiftRange {minL B : Nat} :
    ∀ (l : List (List Char)) (w : WMData),
    (∀ b v, w.shift b = some v → v ≤ minL - B) →
    ∀ b v, (l.foldl (wm_insert minL B) w).shift b = some v → v ≤ minL - B := by
  intro l
  induction l with
  | nil => intro w h; exact h
  | cons q l' ih =>
    intro w h
    rw [List.foldl_cons]
    exact ih _ (wm_insert_shiftRange h)

theorem wm_insert_shift_preserve {minL B : Nat} {w : WMData} {q : List Char}
    {b : List Nat} {v k : Nat} (hv : w.shift b = some v) (hk : v ≤ k) :
    ∃ v', (wm_insert minL B w q).shift b = some v' ∧ v' ≤ k :=
  wmShiftFold_preserve _ _ _ _ _ hv hk

theorem wm_foldl_shift_preserve {minL B : Nat} :
    ∀ (l : List (List Char)) (w : WMData) (b : List Nat) (v k : Nat),
    w.shift b = some v → v ≤ k →
    ∃ v', (l.foldl (wm_insert minL B) w).shift b = some v' ∧ v' ≤ k := by
  intro l
  induction l with
  | nil => intro w b v k hv hk; exact ⟨v, hv, hk⟩
  | cons q l' ih =>
    intro w b v k hv hk
    rw [List.foldl_cons]
    obtain ⟨v', hv', hk'⟩ := wm_insert_shift_preserve hv hk
    exact ih _ b v' k hv' hk'

theorem wm_foldl_shiftBound {minL B : Nat} :
    ∀ (l : List (List Char)) (w : WMData) (p : List Char), p ∈ l →
    ∀ i, i ≤ minL - B →
    ∃ v, (l.foldl (wm_insert minL B) w).shift (wmBlock (encodeStr p) B i) =
      some v ∧ v ≤ minL - i - B := by
  intro l
  induction l with
  | nil => intro w p h; simp at h
  | cons q l' ih =>
    intro w p h i hi
    rw [List.foldl_cons]
    rcases List.mem_cons.mp h with rfl | h'
    · have hmem : i ∈ List.range (minL - B + 1) := by
        rw [List.mem_range]; omega
      obtain ⟨v, hv, hk⟩ := wmShiftFold_bound _ w.shift i hmem
      exact wm_foldl_shift_preserve l' _ _ v _ hv hk
    · exact ih _ p h' i hi

theorem wm_insert_hash_preserve {minL B : Nat} {w : WMData} {q p : List Char}
    {b : List Nat} (h : p ∈ w.hashT b) : p ∈ (wm_insert minL B w q).hashT b :=
  wmAdd_preserve h

theorem wm_foldl_hash_preserve {minL B : Nat} :
    ∀ (l : List (List Char)) (w : WMData) (p : List Char) (b : List Nat),
    p ∈ w.hashT b → p ∈ (l.foldl (wm_insert minL B) w).hashT b := by
  intro l
  induction l with
  | nil => intro w p b h; exact h
  | cons q l' ih =>
    intro w p b h
    rw [List.foldl_cons]
    exact ih _ p b (wm_insert_hash_preserve h)

theorem wm_foldl_hashMem {minL B : Nat} :
    ∀ (l : List (List Char)) (w : WMData) (p : List Char), p ∈ l →
    p ∈ (l.foldl (wm_insert minL B) w).hashT
      (((encodeStr p).drop (minL - B)).take B) := by
  intro l
  induction l with
  | nil => intro w p h; simp at h
  | cons q l' ih =>
    intro w p h
    rw [List.foldl_cons]
    rcases List.mem_cons.mp h with rfl | h'
    · exact wm_foldl_hash_preserve l' _ p _ (wmAdd_mem_self _ _ _)
    · exact ih _ p h'

theorem wm_foldl_hashSub {minL B : Nat} :
    ∀ (l : List (List Char)) (w : WMData) (b : List Nat) (q : List Char),
    q ∈ (l.foldl (wm_insert minL B) w).hashT b → q ∈ w.hashT b ∨ q ∈ l := by
  intro l
  induction l with
  | nil => intro w b q h; exact Or.inl h
  | cons r l' ih =>
    intro w b q h
    rw [List.foldl_cons] at h
    rcases ih _ b q h with h' | h'
    · rcases wmAdd_subset h' with h'' | h''
      · exact Or.inl h''
      · exact Or.inr (by simp [h''])
    · exact Or.inr (List.mem_cons_of_mem _ h')

theorem wm_insert_pref_preserve {minL B : Nat} {w : WMData} {q p : List Char}
    {b : List Nat} (h : p ∈ w.prefixTable b) :
    p ∈ (wm_insert minL B w q).prefixTable b :=
  wmAdd_preserve h

theorem wm_foldl_pref_preserve {minL B : Nat} :
    ∀ (l : List (List Char)) (w : WMData) (p : List Char) (b : List Nat),
    p ∈ w.prefixTable b → p ∈ (l.foldl (wm_insert minL B) w).prefixTable b := by
  intro l
  induction l with
  | nil => intro w p b h; exact h
  | cons q l' ih =>
    intro w p b h
    rw [List.foldl_cons]
    exact ih _ p b (wm_insert_pref_preserve h)

theorem wm_foldl_prefMem {minL B : Nat} :
    ∀ (l : List (List Char)) (w : WMData) (p : List Char), p ∈ l →
    p ∈ (l.foldl (wm_insert minL B) w).prefixTable ((encodeStr p).take B) := by
  intro l
  induction l with
  | nil => intro w p h; simp at h
  | cons q l' ih =>
    intro w p h
    rw [List.foldl_cons]
    rcases List.mem_cons.mp h with rfl | h'
    · exact wm_foldl_pref_preserve l' _ p _ (wmAdd_mem_self _ _ _)
    · exact ih _ p h'

theorem wm_foldl_prefSub {minL B : Nat} :
    ∀ (l : List (List Char)) (w : WMData) (b : List Nat) (q : List Char),
    q ∈ (l.foldl (wm_insert minL B) w).prefixTable b →
      q ∈ w.prefixTable b ∨ q ∈ l := by
  intro l
  induction l with
  | nil => intro w b q h; exact Or.inl h
  | cons r l' ih =>
    intro w b q h
    rw [List.foldl_cons] at h
    rcases ih _ b q h with h' | h'
    · rcases wmAdd_subset h' with h'' | h''
      · exact Or.inl h''
      · exact Or.inr (by simp [h''])
    · exact Or.inr (List.mem_cons_of_mem _ h')

/-- A successful `WM` construction satisfies all table invariants. -/
theorem wm_init_inv {ps : List (List Char)} {B : Nat} {w : WMData}
    (h : wm_init ps B = some w) : WMInv ps B w := by
  match ps with
  | [] => simp [wm_init] at h
  | q :: qs =>
    rw [wm_init] at h
    split at h
    · cases h
    · next hBle =>
      have hw : (q :: qs).foldl (wm_insert (minPtnLen (q :: qs)) B)
          { block_size := B, min_ptn_len := minPtnLen (q :: qs),
            shift := fun _ => none, hashT := fun _ => [],
            prefixTable := fun _ => [] } = w := by
        cases h
        rfl
      have hconst := wm_foldl_const (minPtnLen (q :: qs)) B (q :: qs)
        { block_size := B, min_ptn_len := minPtnLen (q :: qs),
          shift := fun _ => none, hashT := fun _ => [],
          prefixTable := fun _ => [] }
      rw [hw] at hconst
      have hml : w.min_ptn_len = minPtnLen (q :: qs) := hconst.2
      refine ⟨hconst.1, by omega, ?_, ?_, ?_, ?_, ?_, ?_, ?_⟩
      · intro p hp; rw [hml]; exact minPtnLen_le hp
      · intro b v hv
        rw [hml]
        refine wm_foldl_shiftRange (q :: qs) _ ?_ b v (by rw [hw]; exact hv)
        intro b' v' hv'
        cases hv'
      · intro p hp i hi
        rw [hml] at hi ⊢
        exact wm_foldl_shiftBound (q :: qs) _ p hp i hi |>.imp
          (fun v hv => ⟨by rw [← hw]; exact hv.1, hv.2⟩)
      · intro p hp
        rw [hml]
        rw [← hw]
        exact wm_foldl_hashMem (q :: qs) _ p hp
      · intro b q' hq
        rcases wm_foldl_hashSub (q :: qs) _ b q' (by rw [hw]; exact hq) with h' | h'
        · simp at h'
        · exact h'
      · intro p hp
        rw [← hw]
        exact wm_foldl_prefMem (q :: qs) _ p hp
      · intro b q' hq
        rcases wm_foldl_prefSub (q :: qs) _ b q' (by rw [hw]; exact hq) with h' | h'
        · simp at h'
        · exact h'

/-! ### Wu-Manber completeness (claim C2) -/

theorem drop_mid {b1 m b2 : List Nat} {i : Nat} (hi : i ≤ m.length) :
    (b1 ++ (m ++ b2)).drop (b1.length + i) = m.drop i ++ b2 := by
  rw [List.drop_append, List.drop_append_of_le_length hi]

theorem take_drop_mid {b1 m b2 : List Nat} {i B : Nat} (hi : i ≤ m.length)
    (hB : i + B ≤ m.length) :
    ((b1 ++ (m ++ b2)).drop (b1.length + i)).take B = (m.drop i).take B := by
  rw [drop_mid hi, List.take_append_of_le_length]
  rw [List.length_drop]
  omega

/-- The shift applied at any scan position not past the end of an
occurrence never jumps past that occurrence's reporting position: claim
C2's "shift values never exceed the true safe distance". -/
theorem wm_shift_safe {ps : List (List Char)} {B : Nat} {w : WMData}
    (hinv : WMInv ps B w) (hB1 : 1 ≤ B)
    {p : List Char} (hp : p ∈ ps) {b1 b2 tb : List Nat}
    (htb : tb = b1 ++ (encodeStr p ++ b2)) {e : Nat}
    (he : e < b1.length + w.min_ptn_len - 1) :
    ((w.shift ((tb.drop (e + 1 - w.block_size)).take w.block_size)).getD
      (w.min_ptn_len - w.block_size + 1)) + e ≤ b1.length + w.min_ptn_len - 1 := by
  have hBml := hinv.mlB
  have hlen := hinv.len p hp
  rw [hinv.bs]
  by_cases hcase : b1.length + B - 1 ≤ e
  · -- the block lies entirely inside the occurrence's first min_ptn_len bytes
    set i : Nat := e + 1 - B - b1.length with hidef
    have hi : i ≤ w.min_ptn_len - B := by omega
    have hblock : (tb.drop (e + 1 - B)).take B = wmBlock (encodeStr p) B i := by
      rw [wmBlock, htb]
      have he1 : e + 1 - B = b1.length + i := by omega
      rw [he1]
      exact @take_drop_mid b1 (encodeStr p) b2 i B (by omega) (by omega)
    obtain ⟨v, hv, hvle⟩ := hinv.shiftBound p hp i hi
    rw [hblock, hv]
    simp only [Option.getD_some]
    omega
  · -- the block overlaps bytes before the occurrence; any table value or
    -- the default is still a safe jump
    have hub : (w.shift ((tb.drop (e + 1 - B)).take B)).getD
        (w.min_ptn_len - B + 1) ≤ w.min_ptn_len - B + 1 := by
      match hv : w.shift ((tb.drop (e + 1 - B)).take B) with
      | none => simp
      | some v =>
        simp only [Option.getD_some]
        have := hinv.shiftRange _ v hv
        omega
    omega

theorem wmLoop_zero (w : WMData) (tb : List Nat) (e : Nat) :
    wmLoop w tb 0 e = [] := rfl

theorem wmLoop_stop {w : WMData} {tb : List Nat} {fuel e : Nat}
    (h1 : ¬e < tb.length) : wmLoop w tb (fuel + 1) e = [] := by
  rw [wmLoop, if_neg h1]

theorem wmLoop_succ_shift {w : WMData} {tb : List Nat} {fuel e : Nat}
    (h1 : e < tb.length)
    (h2 : (w.shift ((tb.drop (e + 1 - w.block_size)).take w.block_size)).getD
      (w.min_ptn_len - w.block_size + 1) ≠ 0) :
    wmLoop w tb (fuel + 1) e = wmLoop w tb fuel
      (e + (w.shift ((tb.drop (e + 1 - w.block_size)).take w.block_size)).getD
        (w.min_ptn_len - w.block_size + 1)) := by
  rw [wmLoop, if_pos h1]
  simp only []
  rw [if_pos h2]

theorem wmLoop_succ_zero {w : WMData} {tb : List Nat} {fuel e : Nat}
    (h1 : e < tb.length)
    (h2 : (w.shift ((tb.drop (e + 1 - w.block_size)).take w.block_size)).getD
      (w.min_ptn_len - w.block_size + 1) = 0) :
    wmLoop w tb (fuel + 1) e =
      (((w.hashT ((tb.drop (e + 1 - w.block_size)).take w.block_size)).filter
        (fun p => p ∈ w.prefixTable
          ((tb.drop (e + 1 - w.min_ptn_len)).take w.block_size))).filterMap
        (fun p =>
          if (tb.drop (e + 1 - w.min_ptn_len)).take (encodeStr p).length =
              encodeStr p then
            some (byte_pos_to_char_pos
              (((e + 1 - w.min_ptn_len : Nat) : Int) + (encodeStr p).length - 1)
              tb (encodeStr p), p)
          else none)) ++ wmLoop w tb fuel (e + 1) := by
  rw [wmLoop, if_pos h1]
  simp only []
  rw [if_neg (by simp [h2])]

theorem byte_pos_start {s : Nat} {tb pb : List Nat} (hpb : 1 ≤ pb.length) :
    byte_pos_to_char_pos ((s : Int) + pb.length - 1) tb pb =
      (utf8DecodeCps (tb.take s)).map List.length := by
  rw [byte_pos_to_char_pos]
  have h1 : (s : Int) + pb.length - 1 - pb.length + 1 = (s : Int) := by omega
  rw [h1, pySliceTo, if_pos (by omega)]
  simp

theorem byte_pos_at_boundary {pre : List Char} {pb b2 : List Nat}
    (hpb : 1 ≤ pb.length) :
    byte_pos_to_char_pos (((encodeStr pre).length : Int) + pb.length - 1)
      (encodeStr pre ++ (pb ++ b2)) pb = some pre.length := by
  rw [byte_pos_start hpb, List.take_left, utf8DecodeCps_encodeStr]
  simp

/-- The Wu-Manber scan loop reaches the end position of every occurrence
of every pattern and reports it there. -/
theorem wmLoop_complete_aux {ps : List (List Char)} {B : Nat} {w : WMData}
    (hinv : WMInv ps B w) (hB1 : 1 ≤ B)
    {p : List Char} (hp : p ∈ ps) {b1 b2 tb : List Nat}
    (htb : tb = b1 ++ (encodeStr p ++ b2)) :
    ∀ (fuel e : Nat), e ≤ b1.length + w.min_ptn_len - 1 →
      tb.length ≤ e + fuel →
      (byte_pos_to_char_pos ((b1.length : Int) + (encodeStr p).length - 1) tb
        (encodeStr p), p) ∈ wmLoop w tb fuel e := by
  have hBml := hinv.mlB
  have hlen := hinv.len p hp
  have hlen_tb : tb.length = b1.length + ((encodeStr p).length + b2.length) := by
    rw [htb]; simp
  have he0 : b1.length + w.min_ptn_len - 1 < tb.length := by omega
  intro fuel
  induction fuel with
  | zero => intro e he hf; omega
  | succ f ih =>
    intro e he hf
    have hel : e < tb.length := by omega
    by_cases heq : e = b1.length + w.min_ptn_len - 1
    · -- at the reporting position: the end block is the pattern's suffix
      -- key, whose shift entry is zero, and verification succeeds
      have hsfx : (tb.drop (e + 1 - w.block_size)).take w.block_size =
          wmBlock (encodeStr p) B (w.min_ptn_len - B) := by
        rw [wmBlock, htb, hinv.bs]
        have he1 : e + 1 - B = b1.length + (w.min_ptn_len - B) := by omega
        rw [he1]
        exact @take_drop_mid b1 (encodeStr p) b2 (w.min_ptn_len - B) B
          (by omega) (by omega)
      have hzero : (w.shift ((tb.drop (e + 1 - w.block_size)).take
          w.block_size)).getD (w.min_ptn_len - w.block_size + 1) = 0 := by
        obtain ⟨v, hv, hvle⟩ := hinv.shiftBound p hp (w.min_ptn_len - B)
          (le_refl _)
        rw [hsfx, hv]
        simp only [Option.getD_some]
        omega
      rw [wmLoop_succ_zero hel hzero]
      apply List.mem_append_left
      have hs : e + 1 - w.min_ptn_len = b1.length := by omega
      have hdropS : tb.drop (e + 1 - w.min_ptn_len) = encodeStr p ++ b2 := by
        rw [hs, htb, List.drop_left]
      apply List.mem_filterMap.mpr
      refine ⟨p, ?_, ?_⟩
      · apply List.mem_filter.mpr
        constructor
        · rw [hsfx, wmBlock]
          exact hinv.hashMem p hp
        · simp only [decide_eq_true_eq]
          rw [hdropS, hinv.bs, List.take_append_of_le_length (by omega)]
          exact hinv.prefMem p hp
      · rw [hdropS, List.take_left]
        rw [if_pos rfl, hs]
    · -- strictly before the reporting position: the applied shift is safe
      have hlt : e < b1.length + w.min_ptn_len - 1 := by omega
      have hsafe := wm_shift_safe hinv hB1 hp htb hlt
      by_cases hz : (w.shift ((tb.drop (e + 1 - w.block_size)).take
          w.block_size)).getD (w.min_ptn_len - w.block_size + 1) = 0
      · rw [wmLoop_succ_zero hel hz]
        apply List.mem_append_right
        exact ih (e + 1) (by omega) (by omega)
      · rw [wmLoop_succ_shift hel hz]
        have hge : 1 ≤ (w.shift ((tb.drop (e + 1 - w.block_size)).take
            w.block_size)).getD (w.min_ptn_len - w.block_size + 1) := by omega
        exact ih _ (by omega) (by omega)

/-- WM completeness: for every pattern set accepted by WM construction and
every text, no occurrence of any pattern is skipped — every applied shift
is safe (`wm_shift_safe`), so `WM.match` reports a (character-offset,
pattern) pair for every occurrence of every pattern. -/
theorem wm_complete {ps : List (List Char)} {B : Nat} {w : WMData}
    (hw : wm_init ps B = some w) (hB1 : 1 ≤ B)
    {p pre suf : List Char} (hp : p ∈ ps) :
    (some pre.length, p) ∈ wm_match w (pre ++ p ++ suf) := by
  have hinv := wm_init_inv hw
  have hBml := hinv.mlB
  have hlen := hinv.len p hp
  have hpb1 : 1 ≤ (encodeStr p).length := by
    rcases Nat.eq_zero_or_pos (encodeStr p).length with h0 | h1
    · rw [List.length_eq_zero] at h0
      rw [(encodeStr_eq_nil_iff p).mp h0] at hlen
      simp [encodeStr_nil] at hlen
      omega
    · exact h1
  have hp_ne : p ≠ [] := by
    intro h
    rw [h] at hpb1
    simp [encodeStr_nil] at hpb1
  have ht_ne : pre ++ p ++ suf ≠ [] := by
    intro h
    rcases List.append_eq_nil.mp h with ⟨h1, -⟩
    rcases List.append_eq_nil.mp h1 with ⟨-, h3⟩
    exact hp_ne h3
  rw [wm_match, if_neg ht_ne]
  have htb : encodeStr (pre ++ p ++ suf) =
      encodeStr pre ++ (encodeStr p ++ encodeStr suf) := by
    rw [List.append_assoc, encodeStr_append, encodeStr_append]
  rw [htb]
  have hmem := wmLoop_complete_aux hinv hB1 hp
    (show encodeStr pre ++ (encodeStr p ++ encodeStr suf) =
      encodeStr pre ++ (encodeStr p ++ encodeStr suf) from rfl)
    ((encodeStr pre ++ (encodeStr p ++ encodeStr suf)).length + 1)
    (w.min_ptn_len - 1) (by omega) (by omega)
  rwa [byte_pos_at_boundary hpb1] at hmem

/-- C2: WM shift safety / completeness — for every pattern set accepted by
`WM.__init__` and every occurrence of every pattern, `WM.match` reports the
pair with the occurrence's character offset; no shift ever skips one. -/
theorem C2_wm_complete {ps : List (List Char)} {B : Nat} {w : WMData}
    (hw : wm_init ps B = some w) (hB1 : 1 ≤ B)
    {p pre suf : List Char} (hp : p ∈ ps) :
    (some pre.length, p) ∈ wm_match w (pre ++ p ++ suf) :=
  wm_complete hw hB1 hp

/-- Witness for `C2_wm_complete` at a concrete input: pattern "ab" inside
"xab" is reported at character offset 1. -/
theorem C2_witness :
    (some 1, ['a', 'b']) ∈ wm_match
      ((wm_init [['a', 'b']] 2).getD
        ⟨2, 2, fun _ => none, fun _ => [], fun _ => []⟩)
      (['x'] ++ ['a', 'b'] ++ []) :=
  @C2_wm_complete [['a', 'b']] 2
    ((wm_init [['a', 'b']] 2).getD
      ⟨2, 2, fun _ => none, fun _ => [], fun _ => []⟩)
    (by rfl) (by decide) ['a', 'b'] ['x'] [] (by decide)

/-! ### Wu-Manber soundness -/

theorem wmLoop_sound {ps : List (List Char)} {B : Nat} {w : WMData}
    (hinv : WMInv ps B w) (hB1 : 1 ≤ B) {t : List Char} :
    ∀ (fuel e : Nat) (o : Option Nat) (q : List Char),
    (o, q) ∈ wmLoop w (encodeStr t) fuel e →
    q ∈ ps ∧ ∃ pre suf, t = pre ++ q ++ suf ∧ o = some pre.length := by
  intro fuel
  induction fuel with
  | zero => intro e o q h; simp [wmLoop_zero] at h
  | succ f ih =>
    intro e o q h
    by_cases hel : e < (encodeStr t).length
    · by_cases hz : (w.shift (((encodeStr t).drop (e + 1 - w.block_size)).take
          w.block_size)).getD (w.min_ptn_len - w.block_size + 1) = 0
      · rw [wmLoop_succ_zero hel hz] at h
        rcases List.mem_append.mp h with h' | h'
        · -- an emission of this round: fully verified byte match
          obtain ⟨q', hq', hcond⟩ := List.mem_filterMap.mp h'
          by_cases hv : ((encodeStr t).drop (e + 1 - w.min_ptn_len)).take
              (encodeStr q').length = encodeStr q'
          · rw [if_pos hv] at hcond
            simp only [Option.some_inj, Prod.mk.injEq] at hcond
            obtain ⟨ho, rfl⟩ := hcond
            have hq_ps : q' ∈ ps :=
              hinv.hashSub _ q' (List.mem_filter.mp hq').1
            have hqlen : 1 ≤ (encodeStr q').length := by
              have h1 := hinv.len q' hq_ps
              have h2 := hinv.mlB
              omega
            have hq_ne : q' ≠ [] := by
              intro h0
              rw [h0] at hqlen
              simp [encodeStr_nil] at hqlen
            have hsplit_tb : encodeStr t =
                (encodeStr t).take (e + 1 - w.min_ptn_len) ++
                  (encodeStr q' ++
                    (((encodeStr t).drop (e + 1 - w.min_ptn_len)).drop
                      (encodeStr q').length)) := by
              conv_lhs => rw [← List.take_append_drop (e + 1 - w.min_ptn_len)
                (encodeStr t)]
              congr 1
              conv_lhs => rw [← List.take_append_drop (encodeStr q').length
                ((encodeStr t).drop (e + 1 - w.min_ptn_len))]
              rw [hv]
            obtain ⟨pre, suf, hts, hpre, -⟩ :=
              encodeStr_occurrence hq_ne hsplit_tb
            refine ⟨hq_ps, pre, suf, hts, ?_⟩
            rw [← ho, byte_pos_start hqlen, ← hpre, utf8DecodeCps_encodeStr]
            simp
          · rw [if_neg hv] at hcond
            cases hcond
        · exact ih _ o q h'
      · rw [wmLoop_succ_shift hel hz] at h
        exact ih _ o q h
    · rw [wmLoop_stop hel] at h
      cases h

/-- Soundness of `WM.match`: every reported pair is a true occurrence of
a pattern of the set, at a correctly translated character offset. -/
theorem wm_match_sound {ps : List (List Char)} {B : Nat} {w : WMData}
    (hw : wm_init ps B = some w) (hB1 : 1 ≤ B) {t : List Char}
    {o : Option Nat} {q : List Char} (h : (o, q) ∈ wm_match w t) :
    q ∈ ps ∧ ∃ pre suf, t = pre ++ q ++ suf ∧ o = some pre.length := by
  have hinv := wm_init_inv hw
  rw [wm_match] at h
  split at h
  · cases h
  · exact wmLoop_sound hinv hB1 _ _ o q h

/-! ## Aho-Corasick automaton (model of `ac.py`)

Nodes live in an arena (`List ACNode`); a node's `children` map is the
Python dict preinitialised to `-1` for all 256 bytes, modelled as a total
function `Nat → Int` with `-1` for "absent".  The `fail` dict is a total
function `Nat → Int` initialised to `-1`.  The two `while` loops of
`calculate_fail` and `match` follow failure links whose depth strictly
decreases, so `len(nodes)` rounds of fuel always suffice (proved below
for every reachable state); the BFS queue pops each node exactly once, so
`len(nodes)` rounds of fuel suffice there as well. -/

structure ACNode where
  patterns : List (List Char)
  children : Nat → Int

def ACNode.empty : ACNode := ⟨[], fun _ => -1⟩

/-- The byte walk of `AC.insert`, creating missing nodes; returns the new
arena and the index of the final node. -/
def acInsertBytes : List ACNode → Nat → List Nat → (List ACNode × Nat)
  | nodes, cur, [] => (nodes, cur)
  | nodes, cur, b :: bs =>
    let node := nodes.getD cur ACNode.empty
    if node.children b = -1 then
      let idx := nodes.length
      let nodes1 := nodes ++ [ACNode.empty]
      let nodes2 := nodes1.set cur
        { node with children := fun x => if x = b then (idx : Int) else node.children x }
      acInsertBytes nodes2 idx bs
    else
      acInsertBytes nodes (node.children b).toNat bs

/-- Model of `AC.insert`: walk the bytes, then record the pattern at the
final node. -/
def acInsert (nodes : List ACNode) (p : List Char) : List ACNode :=
  let r := acInsertBytes nodes 0 (encodeStr p)
  let last := r.2
  let lastNode := r.1.getD last ACNode.empty
  r.1.set last { lastNode with patterns := lastNode.patterns ++ [p] }

/-- The trie after all insertions of `AC.__init__`. -/
def acTrie (patterns : List (List Char)) : List ACNode :=
  patterns.foldl acInsert [ACNode.empty]

/-- The `while anc_fail != -1 and ...children[byte] == -1` loop of
`calculate_fail`. -/
def acAncFind (nodes : List ACNode) (fail : Nat → Int) :
    Nat → Int → Nat → Int
  | 0, anc, _ => anc
  | fuelA + 1, anc, b =>
    if anc ≠ -1 ∧ (nodes.getD anc.toNat ACNode.empty).children b = -1 then
      acAncFind nodes fail fuelA (fail anc.toNat) b
    else anc

/-- Processing of one byte edge of the popped parent inside the BFS of
`calculate_fail` (state: arena, fail map, children pushed so far). -/
def acStepByte (parent : Nat) (st : List ACNode × (Nat → Int) × List Nat)
    (b : Nat) : List ACNode × (Nat → Int) × List Nat :=
  let nodes := st.1
  let fail := st.2.1
  let pushed := st.2.2
  let child := (nodes.getD parent ACNode.empty).children b
  if child = -1 then st
  else
    let anc := acAncFind nodes fail nodes.length (fail parent) b
    if anc = -1 then
      (nodes, fun j => if j = child.toNat then 0 else fail j,
        pushed ++ [child.toNat])
    else
      let cf := (nodes.getD anc.toNat ACNode.empty).children b
      let cfNode := nodes.getD cf.toNat ACNode.empty
      let childNode := nodes.getD child.toNat ACNode.empty
      (nodes.set child.toNat
        { childNode with patterns := childNode.patterns ++ cfNode.patterns },
        fun j => if j = child.toNat then cf else fail j,
        pushed ++ [child.toNat])

/-- The BFS `while queue:` loop of `calculate_fail`. -/
def acBFS : Nat → List Nat → List ACNode → (Nat → Int) →
    (List ACNode × (Nat → Int))
  | 0, _, nodes, fail => (nodes, fail)
  | fuel + 1, queue, nodes, fail =>
    match queue with
    | [] => (nodes, fail)
    | parent :: rest =>
      let st := (List.range 256).foldl (acStepByte parent) (nodes, fail, [])
      acBFS fuel (rest ++ st.2.2) st.1 st.2.1

/-- Model of `AC.calculate_fail` (the trailing `self.fail[0] = 0`
included). -/
def acCalculateFail (nodes : List ACNode) : List ACNode × (Nat → Int) :=
  let r := acBFS nodes.length [0] nodes (fun _ => (-1 : Int))
  (r.1, fun j => if j = 0 then (0 : Int) else r.2 j)

structure ACData where
  nodes : List ACNode
  fail : Nat → Int

/-- Model of `AC.__init__`.  The Python constructor performs no
validation and has no failure path, so this always returns `some`; the
`Option` records that construction *could* signal an error, which claim
C7 asserts and the code refutes. -/
def ac_init (patterns : List (List Char)) : Option ACData :=
  let nodes := acTrie patterns
  let r := acCalculateFail nodes
  some ⟨r.1, r.2⟩

/-- The `while cur_idx != 0 and ...` failure-following loop of
`AC.match`. -/
def acFollow (a : ACData) : Nat → Nat → Nat → Nat
  | 0, cur, _ => cur
  | fuel + 1, cur, b =>
    if cur ≠ 0 ∧ (a.nodes.getD cur ACNode.empty).children b = -1 then
      acFollow a fuel (a.fail cur).toNat b
    else cur

/-- The byte scan of `AC.match`. -/
def acRun (a : ACData) (tb : List Nat) :
    List Nat → Nat → Nat → List (Option Nat × List Char)
  | [], _, _ => []
  | b :: rest, pos, cur =>
    let cur1 := acFollow a a.nodes.length cur b
    let child := (a.nodes.getD cur1 ACNode.empty).children b
    if child = -1 then acRun a tb rest (pos + 1) cur1
    else
      ((a.nodes.getD child.toNat ACNode.empty).patterns.map
        (fun p => (byte_pos_to_char_pos (pos : Int) tb (encodeStr p), p)))
        ++ acRun a tb rest (pos + 1) child.toNat

/-- Model of `AC.match`. -/
def ac_match (a : ACData) (t : List Char) : List (Option Nat × List Char) :=
  if t = [] then [] else acRun a (encodeStr t) (encodeStr t) 0 0

/-! ## Constructor validation (claim C7)

`WM.__init__` raises for an empty pattern list (`min()` of an empty
sequence) and when `min_ptn_len < block_size`; `AC.__init__` performs no
validation at all and has no failure path. -/

theorem foldl_min_attained (a : Nat) (l : List Nat) :
    l.foldl min a ∈ a :: l := by
  induction l generalizing a with
  | nil => simp
  | cons y ys ih =>
    rw [List.foldl_cons]
    have h := ih (min a y)
    rcases List.mem_cons.mp h with h' | h'
    · rcases min_choice a y with hm | hm
      · rw [h', hm]; simp
      · rw [h', hm]; simp
    · simp [List.mem_cons_of_mem, h']

theorem minPtnLen_attained (q : List Char) (qs : List (List Char)) :
    ∃ p ∈ q :: qs, (encodeStr p).length = minPtnLen (q :: qs) := by
  rw [minPtnLen]
  simp only [List.map_cons]
  have h := foldl_min_attained (encodeStr q).length
    (qs.map fun p => (encodeStr p).length)
  rcases List.mem_cons.mp h with h' | h'
  · exact ⟨q, by simp, h'.symm⟩
  · obtain ⟨p, hp, he⟩ := List.mem_map.mp h'
    exact ⟨p, List.mem_cons_of_mem _ hp, by rw [he]⟩

/-- C7 (amended): WM construction fails exactly when the pattern set is
empty or some pattern's byte length is below `block_size` (which covers
empty-string patterns since `block_size ≥ 1`); AC construction performs
no validation and always succeeds, for any pattern set. -/
theorem C7_construction_validation :
    (∀ ps : List (List Char), (ac_init ps).isSome = true) ∧
    (∀ (ps : List (List Char)) (B : Nat), 1 ≤ B →
      (wm_init ps B = none ↔
        ps = [] ∨ ∃ p ∈ ps, (encodeStr p).length < B)) := by
  constructor
  · intro ps
    rfl
  · intro ps B _
    match ps with
    | [] => simp [wm_init]
    | q :: qs =>
      rw [wm_init]
      constructor
      · intro h
        split at h
        · next hlt =>
          obtain ⟨p, hp, he⟩ := minPtnLen_attained q qs
          exact Or.inr ⟨p, hp, by omega⟩
        · cases h
      · intro h
        rcases h with h | ⟨p, hp, hlt⟩
        · cases h
        · have hle := minPtnLen_le hp
          rw [if_pos (by omega)]

/-- Witness for `C7_construction_validation` at concrete inputs: AC
accepts the one-pattern set `["a"]`, and WM with `block_size = 2` rejects
the set containing only the empty string. -/
theorem C7_witness :
    (ac_init [['a']]).isSome = true ∧
      (wm_init [[]] 2 = none ↔
        ([[]] : List (List Char)) = [] ∨
          ∃ p ∈ [([] : List Char)], (encodeStr p).length < 2) :=
  ⟨C7_construction_validation.1 [['a']],
    C7_construction_validation.2 [[]] 2 (by decide)⟩

/-! ## Fuzzy-evasion preprocessor and façade (model of
`src/algorithms/__init__.py`)

`BaseAlgo.preprocess` normalizes the text: `text.lower()` and then
`re.sub(r"[^一-鿿]+", lambda m: unidecode(m.group()), ...)` —
every *maximal* run of non-Chinese characters is replaced by its
transliteration.  `str.lower` and `text_unidecode.unidecode` are external
library collaborators, so they enter the model as parameters `lowerC`
(applied per character) and `uni` (applied per run).  The radical and
pinyin candidate generators (which depend on the external `RADICAL_MAP`
data asset, `pypinyin` and the pinyin tokenizer) only *extend* the
result list beyond its first element; they are abstracted as functions
`radExt`/`pinExt` of the normalized text, which is all that claims C6 and
C8 depend on. -/

/-- The character class `[一-鿿]` of the normalization regex. -/
def isChinese (c : Char) : Bool := 0x4E00 ≤ c.toNat && c.toNat ≤ 0x9FFF

/-- Fuelled maximal-run splitter implementing the `re.sub` (fuel
`l.length` always suffices, see `normChunksAux_congr`). -/
def normChunksAux (uni : List Char → List Char) : Nat → List Char → List Char
  | _, [] => []
  | 0, _ :: _ => []
  | fuel + 1, c :: cs =>
    if isChinese c then c :: normChunksAux uni fuel cs
    else uni ((c :: cs).takeWhile (fun x => !isChinese x)) ++
      normChunksAux uni fuel ((c :: cs).dropWhile (fun x => !isChinese x))

def normChunks (uni : List Char → List Char) (l : List Char) : List Char :=
  normChunksAux uni l.length l

/-- The full normalization step of `preprocess`. -/
def normalizeText (lowerC : Char → Char) (uni : List Char → List Char)
    (text : List Char) : List Char :=
  normChunks uni (text.map lowerC)

/-- Model of `BaseAlgo.preprocess`.  For the empty string the Python code
warns (`preprocessWarns`) and returns `[]`. -/
def preprocess (lowerC : Char → Char) (uni : List Char → List Char)
    (radExt pinExt : List Char → List (List Char))
    (enable_radical enable_pinyin : Bool) (text : List Char) :
    List (List Char) :=
  if text = [] then []
  else
    let t := normalizeText lowerC uni text
    ([t] ++ (if enable_radical then radExt t else [])) ++
      (if enable_pinyin then pinExt t else [])

/-- The `warnings.warn("text is empty", RuntimeWarning)` branch of
`preprocess` fires exactly on the empty string. -/
def preprocessWarns (text : List Char) : Bool := text.isEmpty

/-- Model of the façade `BaseAlgo.match`: one `_match` result per
candidate produced by `preprocess`. -/
def facade_match (M : List Char → List (Option Nat × List Char))
    (lowerC : Char → Char) (uni : List Char → List Char)
    (radExt pinExt : List Char → List (List Char))
    (enable_radical enable_pinyin : Bool) (original : List Char) :
    List (List (Option Nat × List Char)) :=
  (preprocess lowerC uni radExt pinExt enable_radical enable_pinyin
    original).map M

/-- C6 (counterexample): on the empty string the façade's `match` returns
the empty list of `MatchResult`s — zero elements, not the single empty
`MatchResult` the claim promises (`preprocess` returns `[]`, so the
`for text in self.preprocess(original)` loop body never runs). -/
theorem C6_counterexample :
    facade_match (fun _ => []) id (fun s => s) (fun _ => []) (fun _ => [])
        false false [] = [] ∧
      (facade_match (fun _ => []) id (fun s => s) (fun _ => []) (fun _ => [])
        false false []).length ≠ 1 := by
  exact ⟨rfl, by decide⟩

/-- C6 (amended): on the empty string no exception is raised and the
empty-input warning fires, but the façade returns a *zero*-element list
of `MatchResult`s (not a one-element list); the per-algorithm matchers of
the `chinese_filter` package do return a single empty `MatchResult`. -/
theorem C6_empty_text (M : List Char → List (Option Nat × List Char))
    (lowerC : Char → Char) (uni : List Char → List Char)
    (radExt pinExt : List Char → List (List Char)) (er ep : Bool)
    (a : ACData) (w : WMData) (ps : List (List Char)) :
    facade_match M lowerC uni radExt pinExt er ep [] = [] ∧
      preprocessWarns [] = true ∧
      ac_match a [] = [] ∧ wm_match w [] = [] ∧
      bruteForce_match ps [] = [] ∧ native_match ps [] = [] := by
  refine ⟨rfl, rfl, rfl, ?_, rfl, rfl⟩
  rw [wm_match, if_pos rfl]

/-- C8: for non-empty input the candidate list is non-empty and its first
element is the normalized original text, and the façade's first
`MatchResult` is the exact-match result on that normalized text. -/
theorem C8_first_candidate (M : List Char → List (Option Nat × List Char))
    (lowerC : Char → Char) (uni : List Char → List Char)
    (radExt pinExt : List Char → List (List Char)) (er ep : Bool)
    (t : List Char) (ht : t ≠ []) :
    (preprocess lowerC uni radExt pinExt er ep t).head? =
      some (normalizeText lowerC uni t) ∧
    (facade_match M lowerC uni radExt pinExt er ep t).head? =
      some (M (normalizeText lowerC uni t)) := by
  rw [facade_match, preprocess, if_neg ht]
  constructor
  · simp
  · simp

/-- Witness for `C8_first_candidate` at a concrete input. -/
theorem C8_witness :
    (preprocess id (fun s => s) (fun _ => []) (fun _ => [])
        false false ['a']).head? =
      some (normalizeText id (fun s => s) ['a']) ∧
    (facade_match (fun _ => []) id (fun s => s) (fun _ => []) (fun _ => [])
        false false ['a']).head? =
      some ((fun _ => ([] : List (Option Nat × List Char)))
        (normalizeText id (fun s => s) ['a'])) :=
  C8_first_candidate (fun _ => []) id (fun s => s) (fun _ => []) (fun _ => [])
    false false ['a'] (by decide)

/-! ### Idempotence of normalization (claim C9) -/

theorem dropWhile_length_le {α : Type} (p : α → Bool) (l : List α) :
    (l.dropWhile p).length ≤ l.length := by
  have h := congrArg List.length (List.takeWhile_append_dropWhile p l)
  simp only [List.length_append] at h
  omega

theorem normChunksAux_congr (uni : List Char → List Char) :
    ∀ (f1 f2 : Nat) (l : List Char), l.length ≤ f1 → l.length ≤ f2 →
    normChunksAux uni f1 l = normChunksAux uni f2 l := by
  intro f1
  induction f1 with
  | zero =>
    intro f2 l h1 _
    match l with
    | [] =>
      match f2 with
      | 0 => rfl
      | k + 1 => rfl
    | c :: cs => simp at h1
  | succ k1 ih =>
    intro f2 l h1 h2
    match l with
    | [] =>
      match f2 with
      | 0 => rfl
      | k + 1 => rfl
    | c :: cs =>
      match f2 with
      | 0 => simp at h2
      | k2 + 1 =>
        rw [normChunksAux, normChunksAux]
        by_cases hc : isChinese c = true
        · rw [if_pos hc, if_pos hc,
            ih k2 cs (by simp at h1; omega) (by simp at h2; omega)]
        · rw [if_neg hc, if_neg hc]
          congr 1
          have hlen : ((c :: cs).dropWhile (fun x => !isChinese x)).length ≤
              cs.length := by
            rw [List.dropWhile_cons]
            simp only [hc]
            simp only [Bool.not_false, if_pos]
            exact dropWhile_length_le _ cs
          exact ih k2 _ (by simp at h1; omega) (by simp at h2; omega)

theorem normChunks_nil (uni : List Char → List Char) : normChunks uni [] = [] :=
  rfl

theorem normChunks_cons_ch {uni : List Char → List Char} {c : Char}
    {cs : List Char} (hc : isChinese c = true) :
    normChunks uni (c :: cs) = c :: normChunks uni cs := by
  rw [normChunks, List.length_cons, normChunksAux, if_pos hc]
  rfl

theorem normChunks_cons_run {uni : List Char → List Char} {c : Char}
    {cs : List Char} (hc : isChinese c = false) :
    normChunks uni (c :: cs) =
      uni ((c :: cs).takeWhile (fun x => !isChinese x)) ++
        normChunks uni ((c :: cs).dropWhile (fun x => !isChinese x)) := by
  rw [normChunks, List.length_cons, normChunksAux, if_neg (by simp [hc])]
  congr 1
  rw [normChunks]
  apply normChunksAux_congr
  · rw [List.dropWhile_cons]
    simp only [hc, Bool.not_false, if_pos]
    have := dropWhile_length_le (fun x : Char => !isChinese x) cs
    omega
  · exact le_refl _

theorem takeWhile_append_all {α : Type} {p : α → Bool} :
    ∀ {l z : List α}, (∀ x ∈ l, p x = true) →
    (l ++ z).takeWhile p = l ++ z.takeWhile p := by
  intro l
  induction l with
  | nil => intro z _; simp
  | cons a l' ih =>
    intro z h
    rw [List.cons_append, List.takeWhile_cons, if_pos (h a (by simp)),
      List.cons_append]
    rw [ih (fun x hx => h x (by simp [hx]))]

theorem dropWhile_append_all {α : Type} {p : α → Bool} :
    ∀ {l z : List α}, (∀ x ∈ l, p x = true) →
    (l ++ z).dropWhile p = z.dropWhile p := by
  intro l
  induction l with
  | nil => intro z _; simp
  | cons a l' ih =>
    intro z h
    rw [List.cons_append, List.dropWhile_cons, if_pos (h a (by simp))]
    exact ih (fun x hx => h x (by simp [hx]))

theorem dropWhile_head_false {α : Type} {p : α → Bool} :
    ∀ {l z : List α} {a : α}, l.dropWhile p = a :: z → p a = false := by
  intro l
  induction l with
  | nil => intro z a h; simp at h
  | cons b l' ih =>
    intro z a h
    rw [List.dropWhile_cons] at h
    by_cases hb : p b = true
    · rw [if_pos hb] at h
      exact ih h
    · rw [if_neg hb] at h
      cases h
      simpa using hb

theorem map_fixed {α : Type} {f : α → α} :
    ∀ {l : List α}, (∀ x ∈ l, f x = x) → l.map f = l := by
  intro l
  induction l with
  | nil => intro _; rfl
  | cons a l' ih =>
    intro h
    rw [List.map_cons, h a (by simp), ih (fun x hx => h x (by simp [hx]))]

/-- Every character of a normalized text is fixed by `lowerC` (Chinese
characters have no case; transliterator output is case-fixed ASCII). -/
theorem normChunks_fixed {lowerC : Char → Char} {uni : List Char → List Char}
    (hlow : ∀ c, isChinese c = true → lowerC c = c)
    (huni : ∀ s c, c ∈ uni s → isChinese c = false ∧ lowerC c = c) :
    ∀ (n : Nat) (l : List Char), l.length ≤ n →
    ∀ x ∈ normChunks uni l, lowerC x = x := by
  intro n
  induction n with
  | zero =>
    intro l hl x hx
    match l with
    | [] => simp [normChunks_nil] at hx
    | c :: cs => simp at hl
  | succ k ih =>
    intro l hl x hx
    match l with
    | [] => simp [normChunks_nil] at hx
    | c :: cs =>
      by_cases hc : isChinese c = true
      · rw [normChunks_cons_ch hc] at hx
        rcases List.mem_cons.mp hx with rfl | hx'
        · exact hlow x hc
        · exact ih cs (by simp at hl; omega) x hx'
      · rw [normChunks_cons_run (by simpa using hc)] at hx
        rcases List.mem_append.mp hx with hx' | hx'
        · exact (huni _ x hx').2
        · refine ih _ ?_ x hx'
          rw [List.dropWhile_cons, if_pos (by simpa using hc)]
          have := dropWhile_length_le (fun x : Char => !isChinese x) cs
          simp at hl
          omega

theorem normChunks_uni_run {uni : List Char → List Char}
    (hidem : ∀ s, uni (uni s) = uni s) (s : List Char)
    (hnc : ∀ c ∈ uni s, isChinese c = false) :
    normChunks uni (uni s) = uni s := by
  match hu : uni s with
  | [] => rfl
  | d :: ds =>
    have hd : isChinese d = false := hnc d (by rw [hu]; simp)
    rw [normChunks_cons_run hd]
    have hall : ∀ x ∈ d :: ds, (fun x : Char => !isChinese x) x = true := by
      intro x hx
      have := hnc x (by rw [hu]; exact hx)
      simp [this]
    have htake : (d :: ds).takeWhile (fun x : Char => !isChinese x) = d :: ds := by
      have := @takeWhile_append_all Char (fun x : Char => !isChinese x)
        (d :: ds) [] hall
      simpa using this
    have hdrop : (d :: ds).dropWhile (fun x : Char => !isChinese x) = [] := by
      have := @dropWhile_append_all Char (fun x : Char => !isChinese x)
        (d :: ds) [] hall
      simpa using this
    rw [htake, hdrop, normChunks_nil, List.append_nil, ← hu, hidem, hu]

theorem normChunks_uni_run_append {uni : List Char → List Char}
    (hidem : ∀ s, uni (uni s) = uni s) (s : List Char)
    (hnc : ∀ c ∈ uni s, isChinese c = false) (d : Char) (z : List Char)
    (hd : isChinese d = true) :
    normChunks uni (uni s ++ (d :: z)) = uni s ++ normChunks uni (d :: z) := by
  match hu : uni s with
  | [] => simp
  | e :: es =>
    have hee : isChinese e = false := hnc e (by rw [hu]; simp)
    rw [List.cons_append, normChunks_cons_run hee]
    have hall : ∀ x ∈ e :: es, (fun x : Char => !isChinese x) x = true := by
      intro x hx
      have := hnc x (by rw [hu]; exact hx)
      simp [this]
    have htake : ((e :: es) ++ (d :: z)).takeWhile (fun x : Char => !isChinese x)
        = e :: es := by
      rw [takeWhile_append_all hall, List.takeWhile_cons,
        if_neg (by simp [hd]), List.append_nil]
    have hdrop : ((e :: es) ++ (d :: z)).dropWhile (fun x : Char => !isChinese x)
        = d :: z := by
      rw [dropWhile_append_all hall, List.dropWhile_cons, if_neg (by simp [hd])]
    rw [← List.cons_append, htake, hdrop, ← hu, hidem]

/-- `normChunks` is idempotent when the transliterator's output contains
no Chinese characters and is itself a fixed point of the transliterator. -/
theorem normChunks_idem {uni : List Char → List Char}
    (hnc : ∀ s c, c ∈ uni s → isChinese c = false)
    (hidem : ∀ s, uni (uni s) = uni s) :
    ∀ (n : Nat) (l : List Char), l.length ≤ n →
    normChunks uni (normChunks uni l) = normChunks uni l := by
  intro n
  induction n with
  | zero =>
    intro l hl
    match l with
    | [] => rfl
    | c :: cs => simp at hl
  | succ k ih =>
    intro l hl
    match l with
    | [] => rfl
    | c :: cs =>
      by_cases hc : isChinese c = true
      · rw [normChunks_cons_ch hc, normChunks_cons_ch hc,
          ih cs (by simp at hl; omega)]
      · have hcf : isChinese c = false := by simpa using hc
        rw [normChunks_cons_run hcf]
        have hdlen : ((c :: cs).dropWhile (fun x : Char => !isChinese x)).length
            ≤ cs.length := by
          rw [List.dropWhile_cons, if_pos (by simp [hcf])]
          exact dropWhile_length_le _ cs
        match hrest : (c :: cs).dropWhile (fun x : Char => !isChinese x) with
        | [] =>
          rw [normChunks_nil, List.append_nil]
          exact normChunks_uni_run hidem _ (fun x hx => hnc _ x hx)
        | d :: ds =>
          have hd : isChinese d = true := by
            have := dropWhile_head_false hrest
            simpa using this
          rw [normChunks_cons_ch hd]
          rw [normChunks_uni_run_append hidem _ (fun x hx => hnc _ x hx) d
            (normChunks uni ds) hd]
          rw [normChunks_cons_ch hd]
          have hds : ds.length ≤ k := by
            rw [hrest] at hdlen
            simp at hdlen hl
            omega
          rw [ih ds hds]

/-- C9: the normalization step of `preprocess` (lower-casing, then
transliterating every maximal non-Chinese run) is idempotent, provided
the external collaborators behave as the spec assumes: `lowerC` fixes
Chinese characters, the transliterator `uni` emits only non-Chinese
`lowerC`-fixed characters, and `uni` is a fixed point on its own
output. -/
theorem C9_normalization_idempotent (lowerC : Char → Char)
    (uni : List Char → List Char)
    (hlow : ∀ c, isChinese c = true → lowerC c = c)
    (huni : ∀ s c, c ∈ uni s → isChinese c = false ∧ lowerC c = c)
    (hidem : ∀ s, uni (uni s) = uni s) (t : List Char) :
    normalizeText lowerC uni (normalizeText lowerC uni t) =
      normalizeText lowerC uni t := by
  rw [normalizeText, normalizeText]
  rw [map_fixed (normChunks_fixed hlow huni (t.map lowerC).length
    (t.map lowerC) (le_refl _))]
  exact normChunks_idem (fun s c h => (huni s c h).1) hidem
    (t.map lowerC).length _ (le_refl _)

/-- Witness for `C9_normalization_idempotent` at a concrete input. -/
theorem C9_witness :
    normalizeText id (fun _ => []) (normalizeText id (fun _ => []) ['A', '中']) =
      normalizeText id (fun _ => []) ['A', '中'] :=
  C9_normalization_idempotent id (fun _ => []) (fun _ _ => rfl)
    (fun _ c h => absurd h (List.not_mem_nil c)) (fun _ => rfl) ['A', '中']

/-! ### Trie structure of the built automaton -/

def childOf (nodes : List ACNode) (i b : Nat) : Int :=
  (nodes.getD i ACNode.empty).children b

/-- Follow a byte path from node `i` through the trie edges. -/
def walk (nodes : List ACNode) : Nat → List Nat → Option Nat
  | i, [] => some i
  | i, b :: bs =>
    if childOf nodes i b = -1 then none
    else walk nodes (childOf nodes i b).toNat bs

/-- Structural invariants of the arena built by `AC.insert`: child
indices strictly exceed their parent's (so the arena is a forest rooted
at 0), every node has at most one parent edge, the root has none, and
edges are labelled with genuine byte values. -/
structure TrieCore (nodes : List ACNode) : Prop where
  ne : 0 < nodes.length
  bounds : ∀ (i b j : Nat), childOf nodes i b = (j : Int) →
    i < j ∧ j < nodes.length
  vals : ∀ i b, childOf nodes i b = -1 ∨ ∃ j : Nat, childOf nodes i b = (j : Int)
  uniq : ∀ (i b i' b' j : Nat), childOf nodes i b = (j : Int) →
    childOf nodes i' b' = (j : Int) → i = i' ∧ b = b'
  root : ∀ i b, childOf nodes i b ≠ (0 : Int)
  bytesLt : ∀ (i b j : Nat), childOf nodes i b = (j : Int) → b < 256

theorem eq_nil_or_append (l : List Nat) : l = [] ∨ ∃ l' b, l = l' ++ [b] := by
  rcases List.eq_nil_or_concat l with h | ⟨l', b, h⟩
  · exact Or.inl h
  · exact Or.inr ⟨l', b, by rw [h, List.concat_eq_append]⟩

theorem walk_nil (nodes : List ACNode) (i : Nat) : walk nodes i [] = some i := rfl

theorem walk_cons {nodes : List ACNode}
    (hv : ∀ i b, childOf nodes i b = -1 ∨
      ∃ j : Nat, childOf nodes i b = (j : Int))
    {i j b : Nat} {bs : List Nat} :
    walk nodes i (b :: bs) = some j ↔
      ∃ k : Nat, childOf nodes i b = (k : Int) ∧ walk nodes k bs = some j := by
  rw [walk]
  rcases hv i b with h | ⟨k, hk⟩
  · rw [if_pos h]
    constructor
    · intro hfalse; cases hfalse
    · rintro ⟨k, hk, -⟩
      rw [h] at hk
      exact absurd hk (by omega)
  · have hne : childOf nodes i b ≠ -1 := by rw [hk]; omega
    rw [if_neg hne, hk]
    simp only [Int.toNat_natCast]
    constructor
    · intro hw
      exact ⟨k, rfl, hw⟩
    · rintro ⟨k', hk', hw⟩
      have : k = k' := by omega
      rw [this]
      exact hw

theorem walk_le {nodes : List ACNode} (hc : TrieCore nodes) :
    ∀ (q : List Nat) (i j : Nat), walk nodes i q = some j →
    i + q.length ≤ j ∧ (q ≠ [] → j < nodes.length) := by
  intro q
  induction q with
  | nil =>
    intro i j h
    cases h
    exact ⟨by simp, fun hne => absurd rfl hne⟩
  | cons b bs ih =>
    intro i j h
    obtain ⟨k, hk, hw⟩ := (walk_cons hc.vals).mp h
    obtain ⟨hik, hklen⟩ := hc.bounds i b k hk
    obtain ⟨hle, hlt⟩ := ih k j hw
    refine ⟨by simp only [List.length_cons]; omega, fun _ => ?_⟩
    match bs with
    | [] =>
      cases hw
      exact hklen
    | c :: cs => exact hlt (by simp)

theorem walk_append {nodes : List ACNode}
    (hv : ∀ i b, childOf nodes i b = -1 ∨
      ∃ j : Nat, childOf nodes i b = (j : Int)) :
    ∀ (q1 q2 : List Nat) (i j : Nat),
    walk nodes i (q1 ++ q2) = some j ↔
      ∃ k, walk nodes i q1 = some k ∧ walk nodes k q2 = some j := by
  intro q1
  induction q1 with
  | nil =>
    intro q2 i j
    simp [walk_nil]
  | cons b bs ih =>
    intro q2 i j
    rw [List.cons_append, walk_cons hv]
    constructor
    · rintro ⟨k, hk, hw⟩
      obtain ⟨m, hm1, hm2⟩ := (ih q2 k j).mp hw
      exact ⟨m, (walk_cons hv).mpr ⟨k, hk, hm1⟩, hm2⟩
    · rintro ⟨m, hm1, hm2⟩
      obtain ⟨k, hk, hw⟩ := (walk_cons hv).mp hm1
      exact ⟨k, hk, (ih q2 k j).mpr ⟨m, hw, hm2⟩⟩

theorem walk_snoc {nodes : List ACNode}
    (hv : ∀ i b, childOf nodes i b = -1 ∨
      ∃ j : Nat, childOf nodes i b = (j : Int))
    {q : List Nat} {b : Nat} {i j : Nat} :
    walk nodes i (q ++ [b]) = some j ↔
      ∃ k, walk nodes i q = some k ∧ childOf nodes k b = (j : Int) := by
  rw [walk_append hv]
  constructor
  · rintro ⟨k, hk, hw⟩
    obtain ⟨m, hm, hw'⟩ := (walk_cons hv).mp hw
    cases hw'
    exact ⟨k, hk, hm⟩
  · rintro ⟨k, hk, hm⟩
    exact ⟨k, hk, (walk_cons hv).mpr ⟨j, hm, rfl⟩⟩

/-- In a `TrieCore` arena each node is reached by at most one path. -/
theorem path_unique {nodes : List ACNode} (hc : TrieCore nodes) :
    ∀ (j : Nat) (q1 q2 : List Nat), walk nodes 0 q1 = some j →
    walk nodes 0 q2 = some j → q1 = q2 := by
  intro j
  induction j using Nat.strong_induction_on with
  | _ j ih =>
    intro q1 q2 h1 h2
    rcases eq_nil_or_append q1 with rfl | ⟨r1, b1, rfl⟩
    · cases h1
      rcases eq_nil_or_append q2 with rfl | ⟨r2, b2, rfl⟩
      · rfl
      · obtain ⟨k, -, hck⟩ := (walk_snoc hc.vals).mp h2
        exact absurd hck (hc.root k b2)
    · obtain ⟨k1, hw1, hc1⟩ := (walk_snoc hc.vals).mp h1
      rcases eq_nil_or_append q2 with rfl | ⟨r2, b2, rfl⟩
      · cases h2
        exact absurd hc1 (hc.root k1 b1)
      · obtain ⟨k2, hw2, hc2⟩ := (walk_snoc hc.vals).mp h2
        obtain ⟨hk, hb⟩ := hc.uniq k1 b1 k2 b2 j hc1 hc2
        subst hk
        subst hb
        have hkj : k1 < j := (hc.bounds k1 b1 j hc1).1
        rw [ih k1 hkj r1 r2 hw1 hw2]

theorem getD_set_node (l : List ACNode) (n : Nat) (a : ACNode) (m : Nat) :
    (l.set n a).getD m ACNode.empty =
      if m = n ∧ n < l.length then a else l.getD m ACNode.empty := by
  rw [List.getD_eq_getElem?_getD, List.getD_eq_getElem?_getD,
    List.getElem?_set]
  rcases eq_or_ne n m with rfl | hne
  · by_cases h : n < l.length
    · rw [if_pos rfl, if_pos h, if_pos ⟨rfl, h⟩]
      rfl
    · rw [if_pos rfl, if_neg h, if_neg (by omega),
        List.getElem?_eq_none (by omega)]
  · rw [if_neg hne, if_neg (by intro hx; exact hne hx.1.symm)]

theorem getD_append_left {l l2 : List ACNode} {m : Nat} (h : m < l.length) :
    (l ++ l2).getD m ACNode.empty = l.getD m ACNode.empty := by
  rw [List.getD_eq_getElem?_getD, List.getD_eq_getElem?_getD,
    List.getElem?_append_left h]

theorem getD_append_right_self {l : List ACNode} {a : ACNode} :
    (l ++ [a]).getD l.length ACNode.empty = a := by
  rw [List.getD_eq_getElem?_getD, List.getElem?_append_right (le_refl _)]
  simp

theorem getD_oob {l : List ACNode} {m : Nat} (h : l.length ≤ m) :
    l.getD m ACNode.empty = ACNode.empty := by
  rw [List.getD_eq_getElem?_getD, List.getElem?_eq_none h]
  rfl

theorem childOf_oob {nodes : List ACNode} {i b : Nat}
    (h : nodes.length ≤ i) : childOf nodes i b = -1 := by
  rw [childOf, getD_oob h]
  rfl

theorem childOf_empty_node (b : Nat) : ACNode.empty.children b = -1 := rfl

/-- Effect of the node-creating branch of `acInsertBytes` on the edge
map. -/
theorem childOf_create {nodes : List ACNode} {cur b : Nat}
    (hcur : cur < nodes.length) (i β : Nat) :
    childOf ((nodes ++ [ACNode.empty]).set cur
      { nodes.getD cur ACNode.empty with children := fun x =>
          if x = b then (nodes.length : Int)
          else (nodes.getD cur ACNode.empty).children x }) i β =
      if i = cur ∧ β = b then (nodes.length : Int) else childOf nodes i β := by
  rw [childOf, getD_set_node]
  by_cases hic : i = cur
  · subst hic
    rw [if_pos ⟨rfl, by simp; omega⟩]
    by_cases hβ : β = b
    · rw [if_pos ⟨rfl, hβ⟩]
      simp only
      rw [if_pos hβ]
    · rw [if_neg (by intro hx; exact hβ hx.2)]
      simp only
      rw [if_neg hβ, childOf]
  · rw [if_neg (by intro hx; exact hic hx.1),
      if_neg (by intro hx; exact hic hx.1)]
    by_cases hlt : i < nodes.length
    · rw [getD_append_left hlt, childOf]
    · by_cases heq : i = nodes.length
      · subst heq
        rw [getD_append_right_self, childOf, getD_oob (le_refl _)]
      · rw [getD_oob (by simp; omega), childOf, getD_oob (by omega)]

/-- `patterns` fields are untouched by the node-creating branch. -/
theorem pats_create {nodes : List ACNode} {cur b : Nat}
    (j : Nat) :
    (((nodes ++ [ACNode.empty]).set cur
      { nodes.getD cur ACNode.empty with children := fun x =>
          if x = b then (nodes.length : Int)
          else (nodes.getD cur ACNode.empty).children x }).getD j
        ACNode.empty).patterns = ((nodes.getD j ACNode.empty)).patterns := by
  rw [getD_set_node]
  by_cases hic : j = cur
  · subst hic
    by_cases h : j < (nodes ++ [ACNode.empty]).length
    · rw [if_pos ⟨rfl, h⟩]
    · rw [if_neg (by intro hx; exact h hx.2)]
      have h9 : nodes.length + 1 ≤ j := by simp at h; omega
      have hoob1 : (nodes ++ [ACNode.empty]).length ≤ j := by
        simp
        omega
      rw [getD_oob hoob1, getD_oob (by omega)]
  · rw [if_neg (by intro hx; exact hic hx.1)]
    by_cases hlt : j < nodes.length
    · rw [getD_append_left hlt]
    · by_cases heq : j = nodes.length
      · subst heq
        rw [getD_append_right_self, getD_oob (le_refl _)]
      · rw [getD_oob (by simp; omega), getD_oob (by omega)]

theorem trieCore_create {nodes : List ACNode} {cur b : Nat}
    (hc : TrieCore nodes) (hcur : cur < nodes.length)
    (hcb : childOf nodes cur b = -1) (hb : b < 256) :
    TrieCore ((nodes ++ [ACNode.empty]).set cur
      { nodes.getD cur ACNode.empty with children := fun x =>
          if x = b then (nodes.length : Int)
          else (nodes.getD cur ACNode.empty).children x }) := by
  have hlen : ((nodes ++ [ACNode.empty]).set cur
      { nodes.getD cur ACNode.empty with children := fun x =>
          if x = b then (nodes.length : Int)
          else (nodes.getD cur ACNode.empty).children x }).length =
      nodes.length + 1 := by simp
  refine ⟨by omega, ?_, ?_, ?_, ?_, ?_⟩
  · intro i β j h
    rw [childOf_create hcur] at h
    split at h
    · next hx =>
      have : j = nodes.length := by omega
      omega
    · have := hc.bounds i β j h
      omega
  · intro i β
    rw [childOf_create hcur]
    split
    · exact Or.inr ⟨nodes.length, rfl⟩
    · exact hc.vals i β
  · intro i β i' β' j h h'
    rw [childOf_create hcur] at h h'
    split at h
    · next hx =>
      have hj : j = nodes.length := by omega
      split at h'
      · next hx' => exact ⟨by omega, by omega⟩
      · next hx' =>
        have := hc.bounds i' β' j h'
        omega
    · next hx =>
      split at h'
      · next hx' =>
        have := hc.bounds i β j h
        omega
      · exact hc.uniq i β i' β' j h h'
  · intro i β h
    rw [childOf_create hcur] at h
    split at h
    · have := hc.ne
      omega
    · exact hc.root i β h
  · intro i β j h
    rw [childOf_create hcur] at h
    split at h
    · next hx => exact hx.2 ▸ hb
    · exact hc.bytesLt i β j h

theorem walk_mono {nodes nodes' : List ACNode}
    (hext : ∀ (i b j : Nat), childOf nodes i b = (j : Int) →
      childOf nodes' i b = (j : Int))
    (hv : ∀ i b, childOf nodes i b = -1 ∨
      ∃ j : Nat, childOf nodes i b = (j : Int))
    (hv' : ∀ i b, childOf nodes' i b = -1 ∨
      ∃ j : Nat, childOf nodes' i b = (j : Int)) :
    ∀ (q : List Nat) (i j : Nat), walk nodes i q = some j →
      walk nodes' i q = some j := by
  intro q
  induction q with
  | nil => intro i j h; exact h
  | cons b bs ih =>
    intro i j h
    obtain ⟨k, hk, hw⟩ := (walk_cons hv).mp h
    exact (walk_cons hv').mpr ⟨k, hext i b k hk, ih k j hw⟩

theorem walk_create {nodes : List ACNode} {cur b : Nat} {u : List Nat}
    (hc : TrieCore nodes) (hcur : cur < nodes.length)
    (hcb : childOf nodes cur b = -1) (hb : b < 256)
    (hu : walk nodes 0 u = some cur) :
    ∀ (q : List Nat) (k : Nat),
    walk ((nodes ++ [ACNode.empty]).set cur
      { nodes.getD cur ACNode.empty with children := fun x =>
          if x = b then (nodes.length : Int)
          else (nodes.getD cur ACNode.empty).children x }) 0 q = some k →
    walk nodes 0 q = some k ∨ q = u ++ [b] := by
  have hc2 := trieCore_create hc hcur hcb hb
  have hext : ∀ (i β j : Nat), childOf nodes i β = (j : Int) →
      childOf ((nodes ++ [ACNode.empty]).set cur
        { nodes.getD cur ACNode.empty with children := fun x =>
            if x = b then (nodes.length : Int)
            else (nodes.getD cur ACNode.empty).children x }) i β = (j : Int) := by
    intro i β j h
    rw [childOf_create hcur]
    split
    · next hx =>
      rw [hx.1, hx.2] at h
      rw [h] at hcb
      exact absurd hcb (by omega)
    · exact h
  have hu2 : walk ((nodes ++ [ACNode.empty]).set cur
      { nodes.getD cur ACNode.empty with children := fun x =>
          if x = b then (nodes.length : Int)
          else (nodes.getD cur ACNode.empty).children x }) 0 (u ++ [b]) =
      some nodes.length := by
    refine (walk_snoc hc2.vals).mpr ⟨cur, ?_, ?_⟩
    · exact walk_mono hext hc.vals hc2.vals u 0 cur hu
    · rw [childOf_create hcur, if_pos ⟨rfl, rfl⟩]
  intro q
  induction q using List.reverseRecOn with
  | nil => intro k h; exact Or.inl h
  | append_singleton r β ih =>
    intro k h
    obtain ⟨m, hm, hck⟩ := (walk_snoc hc2.vals).mp h
    rcases ih m hm with hold | hrb
    · rw [childOf_create hcur] at hck
      by_cases hmb : m = cur ∧ β = b
      · rw [if_pos hmb] at hck
        right
        have hmc : walk nodes 0 r = some cur := hmb.1 ▸ hold
        rw [path_unique hc cur r u hmc hu, hmb.2]
      · rw [if_neg hmb] at hck
        exact Or.inl ((walk_snoc hc.vals).mpr ⟨m, hold, hck⟩)
    · subst hrb
      rw [hu2] at hm
      cases hm
      rw [childOf_create hcur] at hck
      rw [if_neg (fun hx => absurd hx.1 (by omega))] at hck
      rw [childOf_oob (le_refl _)] at hck
      exact absurd hck (by omega)

/-- Full specification of the byte walk of `AC.insert`: it preserves the
trie invariants, extends the edge set, leaves all `patterns` fields
untouched, makes `u ++ bs` the path of the returned node, and creates no
paths other than prefixes of `u ++ bs`. -/
theorem acInsertBytes_spec :
    ∀ (bs : List Nat) (nodes : List ACNode) (cur : Nat) (u : List Nat),
    TrieCore nodes → (∀ b ∈ bs, b < 256) →
    walk nodes 0 u = some cur →
    TrieCore (acInsertBytes nodes cur bs).1 ∧
    nodes.length ≤ (acInsertBytes nodes cur bs).1.length ∧
    walk (acInsertBytes nodes cur bs).1 0 (u ++ bs) =
      some (acInsertBytes nodes cur bs).2 ∧
    (∀ (i b j : Nat), childOf nodes i b = (j : Int) →
      childOf (acInsertBytes nodes cur bs).1 i b = (j : Int)) ∧
    (∀ j, ((acInsertBytes nodes cur bs).1.getD j ACNode.empty).patterns =
      (nodes.getD j ACNode.empty).patterns) ∧
    (∀ q k, walk (acInsertBytes nodes cur bs).1 0 q = some k →
      walk nodes 0 q = some k ∨ q <+: (u ++ bs)) ∧
    (∀ (i b j : Nat), childOf (acInsertBytes nodes cur bs).1 i b = (j : Int) →
      childOf nodes i b = (j : Int) ∨ nodes.length ≤ j) := by
  intro bs
  induction bs with
  | nil =>
    intro nodes cur u hc _ hu
    refine ⟨hc, le_refl _, ?_, fun i b j h => h, fun j => rfl,
      fun q k h => Or.inl h, fun i b j h => Or.inl h⟩
    rw [List.append_nil]
    exact hu
  | cons b bs ih =>
    intro nodes cur u hc hby hu
    have hcur : cur < nodes.length := by
      match hue : u with
      | [] => cases hu; exact hc.ne
      | c :: cs => exact (walk_le hc _ _ _ hu).2 (by simp)
    have hb : b < 256 := hby b (by simp)
    rw [acInsertBytes]
    simp only
    by_cases hcb : (nodes.getD cur ACNode.empty).children b = -1
    · rw [if_pos hcb]
      have hcb' : childOf nodes cur b = -1 := hcb
      have hc2 := trieCore_create hc hcur hcb' hb
      have hext : ∀ (i β j : Nat), childOf nodes i β = (j : Int) →
          childOf ((nodes ++ [ACNode.empty]).set cur
            { nodes.getD cur ACNode.empty with children := fun x =>
                if x = b then (nodes.length : Int)
                else (nodes.getD cur ACNode.empty).children x }) i β =
            (j : Int) := by
        intro i β j h
        rw [childOf_create hcur]
        split
        · next hx =>
          rw [hx.1, hx.2] at h
          rw [h] at hcb'
          exact absurd hcb' (by omega)
        · exact h
      have hu2 : walk ((nodes ++ [ACNode.empty]).set cur
          { nodes.getD cur ACNode.empty with children := fun x =>
              if x = b then (nodes.length : Int)
              else (nodes.getD cur ACNode.empty).children x }) 0 (u ++ [b]) =
          some nodes.length := by
        refine (walk_snoc hc2.vals).mpr ⟨cur, ?_, ?_⟩
        · exact walk_mono hext hc.vals hc2.vals u 0 cur hu
        · rw [childOf_create hcur, if_pos ⟨rfl, rfl⟩]
      obtain ⟨ihc, ihlen, ihwalk, ihext, ihpats, ihpaths, ihnew⟩ :=
        ih _ nodes.length (u ++ [b]) hc2 (fun β hβ => hby β (by simp [hβ]))
          hu2
      have happ : (u ++ [b]) ++ bs = u ++ b :: bs := by simp
      refine ⟨ihc, by simp at ihlen ⊢; omega, by rw [← happ]; exact ihwalk,
        ?_, ?_, ?_, ?_⟩
      · intro i β j h
        exact ihext i β j (hext i β j h)
      · intro j
        rw [ihpats j, pats_create]
      · intro q k h
        rcases ihpaths q k h with h' | h'
        · rcases walk_create hc hcur hcb' hb hu q k h' with h'' | h''
          · exact Or.inl h''
          · subst h''
            exact Or.inr ⟨bs, by simp⟩
        · rw [happ] at h'
          exact Or.inr h'
      · intro i β j h
        rcases ihnew i β j h with h' | h'
        · rw [childOf_create hcur] at h'
          split at h'
          · next hx => exact Or.inr (by omega)
          · exact Or.inl h'
        · simp at h'
          omega
    · rw [if_neg hcb]
      have hcb' : childOf nodes cur b ≠ -1 := hcb
      obtain ⟨k, hk⟩ : ∃ k : Nat, childOf nodes cur b = (k : Int) := by
        rcases hc.vals cur b with h' | h'
        · exact absurd h' hcb'
        · exact h'
      have htn : ((nodes.getD cur ACNode.empty).children b).toNat = k := by
        have : childOf nodes cur b = (k : Int) := hk
        rw [childOf] at this
        rw [this]
        simp
      rw [htn]
      have huk : walk nodes 0 (u ++ [b]) = some k :=
        (walk_snoc hc.vals).mpr ⟨cur, hu, hk⟩
      obtain ⟨ihc, ihlen, ihwalk, ihext, ihpats, ihpaths, ihnew⟩ :=
        ih nodes k (u ++ [b]) hc (fun β hβ => hby β (by simp [hβ])) huk
      have happ : (u ++ [b]) ++ bs = u ++ b :: bs := by simp
      refine ⟨ihc, ihlen, by rw [← happ]; exact ihwalk, ihext, ihpats, ?_,
        ihnew⟩
      intro q m h
      rcases ihpaths q m h with h' | h'
      · exact Or.inl h'
      · rw [happ] at h'
        exact Or.inr h'

theorem encodeChar_lt256 (c : Char) : ∀ b ∈ encodeChar c, b < 256 := by
  have hv := char_valid c
  rw [encodeChar]
  by_cases h1 : c.toNat < 0x80
  · rw [utf8Bytes_one h1]
    intro b hb
    simp at hb
    omega
  · by_cases h2 : c.toNat < 0x800
    · rw [utf8Bytes_two h1 h2]
      intro b hb
      simp at hb
      rcases hb with rfl | rfl <;> omega
    · by_cases h3 : c.toNat < 0x10000
      · rw [utf8Bytes_three h2 h3]
        intro b hb
        simp at hb
        rcases hb with rfl | rfl | rfl <;> omega
      · rw [utf8Bytes_four h3]
        intro b hb
        simp at hb
        have h4 : c.toNat < 0x110000 := by omega
        rcases hb with rfl | rfl | rfl | rfl <;> omega

theorem encodeStr_lt256 (p : List Char) : ∀ b ∈ encodeStr p, b < 256 := by
  induction p with
  | nil => intro b hb; simp [encodeStr_nil] at hb
  | cons c cs ih =>
    intro b hb
    rw [encodeStr_cons] at hb
    rcases List.mem_append.mp hb with h | h
    · exact encodeChar_lt256 c b h
    · exact ih b h

/-- A path in the extended arena that ends at an old node is a path of
the old arena (new edges only point at new nodes). -/
theorem walk_old {nodes nodes' : List ACNode}
    (hc : TrieCore nodes) (hc' : TrieCore nodes')
    (hnew : ∀ (i b j : Nat), childOf nodes' i b = (j : Int) →
      childOf nodes i b = (j : Int) ∨ nodes.length ≤ j) :
    ∀ (q : List Nat) (i j : Nat), walk nodes' i q = some j →
      j < nodes.length → walk nodes i q = some j := by
  intro q
  induction q with
  | nil => intro i j h _; exact h
  | cons b bs ih =>
    intro i j h hj
    obtain ⟨k, hk, hw⟩ := (walk_cons hc'.vals).mp h
    have hkj : k ≤ j := by
      have := walk_le hc' bs k j hw
      omega
    rcases hnew i b k hk with h' | h'
    · exact (walk_cons hc.vals).mpr ⟨k, h', ih k j hw hj⟩
    · omega

theorem childOf_patset {l : List ACNode} {j : Nat}
    {newpats : List (List Char)} (i b : Nat) :
    childOf (l.set j
      { l.getD j ACNode.empty with patterns := newpats }) i b =
      childOf l i b := by
  rw [childOf, getD_set_node]
  split
  · next hx =>
    rw [hx.1, childOf]
  · rw [childOf]

theorem length_patset {l : List ACNode} {j : Nat}
    {newpats : List (List Char)} :
    (l.set j { l.getD j ACNode.empty with patterns := newpats }).length =
      l.length := by simp

theorem trieCore_patset {l : List ACNode} {j : Nat}
    {newpats : List (List Char)} (hc : TrieCore l) :
    TrieCore (l.set j { l.getD j ACNode.empty with patterns := newpats }) := by
  refine ⟨?_, ?_, ?_, ?_, ?_, ?_⟩
  · rw [length_patset]; exact hc.ne
  · intro i b k h
    rw [childOf_patset] at h
    rw [length_patset]
    exact hc.bounds i b k h
  · intro i b
    rw [childOf_patset]
    exact hc.vals i b
  · intro i b i' b' k h h'
    rw [childOf_patset] at h h'
    exact hc.uniq i b i' b' k h h'
  · intro i b
    rw [childOf_patset]
    exact hc.root i b
  · intro i b k h
    rw [childOf_patset] at h
    exact hc.bytesLt i b k h

theorem walk_patset {l : List ACNode} {j : Nat}
    {newpats : List (List Char)} :
    ∀ (q : List Nat) (i : Nat),
    walk (l.set j { l.getD j ACNode.empty with patterns := newpats }) i q =
      walk l i q := by
  intro q
  induction q with
  | nil => intro i; rfl
  | cons b bs ih =>
    intro i
    rw [walk, walk, childOf_patset]
    split
    · rfl
    · exact ih _

theorem pats_patset {l : List ACNode} {j : Nat}
    {newpats : List (List Char)} (m : Nat) (hj : j < l.length) :
    ((l.set j { l.getD j ACNode.empty with patterns := newpats }).getD m
      ACNode.empty).patterns =
      if m = j then newpats else (l.getD m ACNode.empty).patterns := by
  rw [getD_set_node]
  split
  · next hx => rw [if_pos hx.1]
  · next hx =>
    rw [if_neg (by intro he; exact hx ⟨he, hj⟩)]

/-- Specification of one `AC.insert`: trie invariants are kept, the
pattern (and everything previously inserted) stays reachable, paths are
exactly prefixes of inserted patterns, and the per-node pattern lists
record exactly the patterns whose encoding is the node's path. -/
theorem acInsert_spec {nodes : List ACNode} {done : List (List Char)}
    (p : List Char) (hc : TrieCore nodes)
    (hreach : ∀ x ∈ done, ∃ j, walk nodes 0 (encodeStr x) = some j)
    (hpaths : ∀ q j, walk nodes 0 q = some j →
      q = [] ∨ ∃ x ∈ done, q <+: encodeStr x)
    (hpats : ∀ j q, walk nodes 0 q = some j → ∀ x,
      x ∈ (nodes.getD j ACNode.empty).patterns ↔ x ∈ done ∧ encodeStr x = q) :
    TrieCore (acInsert nodes p) ∧
    (∀ x ∈ done ++ [p], ∃ j, walk (acInsert nodes p) 0 (encodeStr x) = some j) ∧
    (∀ q j, walk (acInsert nodes p) 0 q = some j →
      q = [] ∨ ∃ x ∈ done ++ [p], q <+: encodeStr x) ∧
    (∀ j q, walk (acInsert nodes p) 0 q = some j → ∀ x,
      x ∈ ((acInsert nodes p).getD j ACNode.empty).patterns ↔
        x ∈ done ++ [p] ∧ encodeStr x = q) := by
  obtain ⟨ihc, ihlen, ihwalk, ihext, ihpats, ihpaths, ihnew⟩ :=
    acInsertBytes_spec (encodeStr p) nodes 0 [] hc (encodeStr_lt256 p) rfl
  have hwalkp : walk (acInsertBytes nodes 0 (encodeStr p)).1 0 (encodeStr p) =
      some (acInsertBytes nodes 0 (encodeStr p)).2 := by
    simpa using ihwalk
  have hlast : (acInsertBytes nodes 0 (encodeStr p)).2 <
      (acInsertBytes nodes 0 (encodeStr p)).1.length := by
    by_cases hpe : encodeStr p = []
    · have hw2 : walk (acInsertBytes nodes 0 (encodeStr p)).1 0 [] =
          some (acInsertBytes nodes 0 (encodeStr p)).2 := by
        rw [← hpe]
        exact hwalkp
      have h0 := Option.some.inj hw2
      rw [← h0]
      exact ihc.ne
    · exact (walk_le ihc (encodeStr p) 0 _ hwalkp).2 hpe
  have hun : acInsert nodes p =
      (acInsertBytes nodes 0 (encodeStr p)).1.set
        (acInsertBytes nodes 0 (encodeStr p)).2
        { (acInsertBytes nodes 0 (encodeStr p)).1.getD
            (acInsertBytes nodes 0 (encodeStr p)).2 ACNode.empty with
          patterns := ((acInsertBytes nodes 0 (encodeStr p)).1.getD
            (acInsertBytes nodes 0 (encodeStr p)).2 ACNode.empty).patterns
            ++ [p] } := rfl
  rw [hun]
  refine ⟨trieCore_patset ihc, ?_, ?_, ?_⟩
  · intro x hx
    rcases List.mem_append.mp hx with hx' | hx'
    · obtain ⟨j, hj⟩ := hreach x hx'
      refine ⟨j, ?_⟩
      rw [walk_patset]
      exact walk_mono ihext hc.vals ihc.vals _ 0 j hj
    · simp at hx'
      rw [hx']
      refine ⟨(acInsertBytes nodes 0 (encodeStr p)).2, ?_⟩
      rw [walk_patset]
      exact hwalkp
  · intro q j h
    rw [walk_patset] at h
    rcases ihpaths q j h with h' | h'
    · rcases hpaths q j h' with h'' | ⟨x, hx, hpre⟩
      · exact Or.inl h''
      · exact Or.inr ⟨x, by simp [hx], hpre⟩
    · exact Or.inr ⟨p, by simp, by simpa using h'⟩
  · intro j q h x
    rw [walk_patset] at h
    rw [pats_patset j hlast]
    by_cases hjl : j = (acInsertBytes nodes 0 (encodeStr p)).2
    · rw [if_pos hjl]
      subst hjl
      have hq : q = encodeStr p := path_unique ihc _ q (encodeStr p) h hwalkp
      subst hq
      rw [List.mem_append]
      constructor
      · intro hmem
        rcases hmem with hmem | hmem
        · rw [ihpats] at hmem
          by_cases hlt : (acInsertBytes nodes 0 (encodeStr p)).2 < nodes.length
          · have hold := walk_old hc ihc ihnew _ 0 _ hwalkp hlt
            rw [hpats _ _ hold x] at hmem
            exact ⟨List.mem_append_left _ hmem.1, hmem.2⟩
          · rw [getD_oob (by omega)] at hmem
            simp [ACNode.empty] at hmem
        · simp at hmem
          subst hmem
          exact ⟨by simp, rfl⟩
      · rintro ⟨hmem, henc⟩
        rcases List.mem_append.mp hmem with hx' | hx'
        · left
          obtain ⟨j0, hj0⟩ := hreach x hx'
          rw [henc] at hj0
          have hj0' := walk_mono ihext hc.vals ihc.vals _ 0 j0 hj0
          rw [hwalkp] at hj0'
          cases hj0'
          have hjx : walk nodes 0 (encodeStr x) =
              some (acInsertBytes nodes 0 (encodeStr p)).2 := by
            rw [henc]
            exact hj0
          rw [ihpats, hpats _ _ hjx x]
          exact ⟨hx', rfl⟩
        · simp at hx'
          subst hx'
          simp
    · rw [if_neg hjl, ihpats]
      by_cases hlt : j < nodes.length
      · have hold := walk_old hc ihc ihnew q 0 j h hlt
        rw [hpats _ _ hold x]
        constructor
        · intro hm
          exact ⟨List.mem_append_left _ hm.1, hm.2⟩
        · rintro ⟨hmem, henc⟩
          rcases List.mem_append.mp hmem with hx' | hx'
          · exact ⟨hx', henc⟩
          · simp at hx'
            subst hx'
            rw [← henc] at h
            rw [hwalkp] at h
            cases h
            exact absurd rfl hjl
      · rw [getD_oob (by omega)]
        simp only [ACNode.empty, List.not_mem_nil, false_iff]
        rintro ⟨hmem, henc⟩
        rcases List.mem_append.mp hmem with hx' | hx'
        · obtain ⟨j0, hj0⟩ := hreach x hx'
          rw [henc] at hj0
          have hlt0 : j0 < nodes.length := by
            match he : q with
            | [] =>
              cases hj0
              exact hc.ne
            | b :: bs =>
              exact (walk_le hc _ _ _ hj0).2 (by simp)
          have hj0' := walk_mono ihext hc.vals ihc.vals _ 0 j0 hj0
          rw [hj0'] at h
          cases h
          omega
        · simp at hx'
          subst hx'
          rw [← henc] at h
          rw [hwalkp] at h
          cases h
          exact absurd rfl hjl

theorem walk_rootOnly {q : List Nat} {j : Nat}
    (h : walk [ACNode.empty] 0 q = some j) : q = [] ∧ j = 0 := by
  match q with
  | [] => cases h; exact ⟨rfl, rfl⟩
  | b :: bs =>
    rw [walk] at h
    have : childOf [ACNode.empty] 0 b = -1 := rfl
    rw [if_pos this] at h
    cases h

theorem trieCore_rootOnly : TrieCore [ACNode.empty] := by
  have hch : ∀ i b, childOf [ACNode.empty] i b = -1 := by
    intro i b
    match i with
    | 0 => rfl
    | i' + 1 => rfl
  refine ⟨by simp, ?_, ?_, ?_, ?_, ?_⟩
  · intro i b j h
    rw [hch] at h
    exact absurd h (by omega)
  · intro i b
    exact Or.inl (hch i b)
  · intro i b i' b' j h
    rw [hch] at h
    exact absurd h (by omega)
  · intro i b
    rw [hch]
    omega
  · intro i b j h
    rw [hch] at h
    exact absurd h (by omega)

theorem acTrie_fold_spec :
    ∀ (l done : List (List Char)) (nodes : List ACNode),
    TrieCore nodes →
    (∀ x ∈ done, ∃ j, walk nodes 0 (encodeStr x) = some j) →
    (∀ q j, walk nodes 0 q = some j → q = [] ∨ ∃ x ∈ done, q <+: encodeStr x) →
    (∀ j q, walk nodes 0 q = some j → ∀ x,
      x ∈ (nodes.getD j ACNode.empty).patterns ↔ x ∈ done ∧ encodeStr x = q) →
    TrieCore (l.foldl acInsert nodes) ∧
    (∀ x ∈ done ++ l, ∃ j, walk (l.foldl acInsert nodes) 0 (encodeStr x) =
      some j) ∧
    (∀ q j, walk (l.foldl acInsert nodes) 0 q = some j →
      q = [] ∨ ∃ x ∈ done ++ l, q <+: encodeStr x) ∧
    (∀ j q, walk (l.foldl acInsert nodes) 0 q = some j → ∀ x,
      x ∈ ((l.foldl acInsert nodes).getD j ACNode.empty).patterns ↔
        x ∈ done ++ l ∧ encodeStr x = q) := by
  intro l
  induction l with
  | nil =>
    intro done nodes hc h1 h2 h3
    simp only [List.foldl_nil, List.append_nil]
    exact ⟨hc, h1, h2, h3⟩
  | cons p l' ih =>
    intro done nodes hc h1 h2 h3
    rw [List.foldl_cons]
    obtain ⟨hc', h1', h2', h3'⟩ := acInsert_spec p hc h1 h2 h3
    obtain ⟨gc, g1, g2, g3⟩ := ih (done ++ [p]) (acInsert nodes p) hc' h1' h2' h3'
    have happ : (done ++ [p]) ++ l' = done ++ p :: l' := by simp
    rw [happ] at g1 g2 g3
    exact ⟨gc, g1, g2, g3⟩

/-- The complete trie specification after all `AC.insert` calls. -/
theorem acTrie_spec (ps : List (List Char)) :
    TrieCore (acTrie ps) ∧
    (∀ x ∈ ps, ∃ j, walk (acTrie ps) 0 (encodeStr x) = some j) ∧
    (∀ q j, walk (acTrie ps) 0 q = some j →
      q = [] ∨ ∃ x ∈ ps, q <+: encodeStr x) ∧
    (∀ j q, walk (acTrie ps) 0 q = some j → ∀ x,
      x ∈ ((acTrie ps).getD j ACNode.empty).patterns ↔
        x ∈ ps ∧ encodeStr x = q) := by
  have h := acTrie_fold_spec ps [] [ACNode.empty] trieCore_rootOnly
    (by intro x hx; simp at hx)
    (by intro q j h; exact Or.inl (walk_rootOnly h).1)
    (by
      intro j q h x
      obtain ⟨rfl, rfl⟩ := walk_rootOnly h
      constructor
      · intro hm
        have : ([ACNode.empty].getD 0 ACNode.empty).patterns = [] := rfl
        rw [this] at hm
        simp at hm
      · rintro ⟨hm, -⟩
        simp at hm)
  simpa using h

/-! ### The BFS of `calculate_fail`

All statements below are relative to the fixed arena `nodes0` produced by
the insert phase; the BFS never changes the edge structure, only the
`fail` map and the per-node pattern lists. -/

/-- `fail j` points at the node whose path is the longest proper suffix
of `j`'s path that is a path of the trie. -/
def FailOK (nodes0 : List ACNode) (fail : Nat → Int) (j : Nat) : Prop :=
  ∃ fj : Nat, fail j = (fj : Int) ∧
    ∀ q, walk nodes0 0 q = some j →
      ∃ r, walk nodes0 0 r = some fj ∧ r <:+ q ∧ r ≠ q ∧
        ∀ r' k', walk nodes0 0 r' = some k' → r' <:+ q → r' ≠ q →
          r'.length ≤ r.length

/-- `j`'s pattern list holds exactly the non-empty patterns whose
encoding is a suffix of `j`'s path (the final, output-closed content). -/
def PatsOK (nodes0 : List ACNode) (ps : List (List Char))
    (nodes : List ACNode) (j : Nat) : Prop :=
  ∀ q, walk nodes0 0 q = some j → ∀ x,
    x ∈ (nodes.getD j ACNode.empty).patterns ↔
      x ∈ ps ∧ x ≠ [] ∧ encodeStr x <:+ q

/-- Node `x`'s (unique) path is no longer than node `y`'s. -/
def DepthLE (nodes0 : List ACNode) (x y : Nat) : Prop :=
  ∀ qx qy, walk nodes0 0 qx = some x → walk nodes0 0 qy = some y →
    qx.length ≤ qy.length

/-- Node `y`'s path is at most one longer than node `x`'s. -/
def DepthSuccLE (nodes0 : List ACNode) (x y : Nat) : Prop :=
  ∀ qx qy, walk nodes0 0 qx = some x → walk nodes0 0 qy = some y →
    qy.length ≤ qx.length + 1

/-- The BFS loop invariant of `calculate_fail`; `done` is the list of
already-popped nodes. -/
structure BFSInv (nodes0 : List ACNode) (ps : List (List Char))
    (done queue : List Nat) (nodes : List ACNode) (fail : Nat → Int) :
    Prop where
  sameCh : ∀ i b, childOf nodes i b = childOf nodes0 i b
  lenEq : nodes.length = nodes0.length
  nodup : (done ++ queue).Nodup
  valid : ∀ j ∈ done ++ queue, ∃ q, walk nodes0 0 q = some j
  rootDisc : 0 ∈ done ++ queue
  failRoot : fail 0 = -1
  assignedIff : ∀ j, fail j ≠ -1 ↔ (j ≠ 0 ∧ j ∈ done ++ queue)
  discIff : ∀ (i b j : Nat), childOf nodes0 i b = (j : Int) →
    (j ∈ done ++ queue ↔ i ∈ done)
  failOK : ∀ j, fail j ≠ -1 → FailOK nodes0 fail j
  patsOK : ∀ j, fail j ≠ -1 → PatsOK nodes0 ps nodes j
  patsUn : ∀ j, fail j = -1 →
    (nodes.getD j ACNode.empty).patterns =
      (nodes0.getD j ACNode.empty).patterns
  sortQ : List.Pairwise (DepthLE nodes0) queue
  diam : ∀ x ∈ queue, ∀ y ∈ queue, DepthSuccLE nodes0 x y

/-- When `parent` is at the head of the queue, every non-root node
strictly shallower than `parent` has already been assigned its failure
link. -/
theorem bfs_shallow_assigned {nodes0 : List ACNode} {ps : List (List Char)}
    {done rest : List Nat} {parent : Nat} {nodes : List ACNode}
    {fail : Nat → Int} (hc : TrieCore nodes0)
    (hinv : BFSInv nodes0 ps done (parent :: rest) nodes fail)
    {qp : List Nat} (hqp : walk nodes0 0 qp = some parent) :
    ∀ (y : Nat) (qy : List Nat), walk nodes0 0 qy = some y → y ≠ 0 →
      qy.length < qp.length → fail y ≠ -1 := by
  intro y
  induction y using Nat.strong_induction_on with
  | _ y ih =>
    intro qy hqy hy0 hlen
    rcases eq_nil_or_append qy with rfl | ⟨qy', b, rfl⟩
    · cases hqy
      exact absurd rfl hy0
    · obtain ⟨i, hqy', hch⟩ := (walk_snoc hc.vals).mp hqy
      have hiy : i < y := (hc.bounds i b y hch).1
      have hidone : i ∈ done := by
        by_cases hi0 : i = 0
        · subst hi0
          rcases List.mem_append.mp hinv.rootDisc with h' | h'
          · exact h'
          · exfalso
            rcases List.mem_cons.mp h' with h'' | h''
            · subst h''
              have hqp0 : qp = [] := path_unique hc 0 qp [] hqp rfl
              rw [hqp0] at hlen
              simp at hlen
            · have hdle := List.rel_of_pairwise_cons hinv.sortQ h''
              have h7 := hdle qp [] hqp rfl
              simp at h7
              rw [h7] at hlen
              simp at hlen
        · have hlen2 : qy'.length < qp.length := by
            have h8 : (qy' ++ [b]).length = qy'.length + 1 := by simp
            omega
          have hass : fail i ≠ -1 := ih i hiy qy' hqy' hi0 hlen2
          have hmem := (hinv.assignedIff i).mp hass
          rcases List.mem_append.mp hmem.2 with h' | h'
          · exact h'
          · exfalso
            rcases List.mem_cons.mp h' with h'' | h''
            · subst h''
              have := path_unique hc i qy' qp hqy' hqp
              subst this
              simp at hlen
            · have hdle := List.rel_of_pairwise_cons hinv.sortQ h''
              have := hdle qp qy' hqp hqy'
              simp at hlen
              omega
      have hdisc := (hinv.discIff i b y hch).mpr hidone
      exact ((hinv.assignedIff y).mpr ⟨hy0, hdisc⟩)

/-- Moreover every non-root node at depth at most `parent`'s is already
assigned (its parent is strictly shallower, hence popped). -/
theorem bfs_level_assigned {nodes0 : List ACNode} {ps : List (List Char)}
    {done rest : List Nat} {parent : Nat} {nodes : List ACNode}
    {fail : Nat → Int} (hc : TrieCore nodes0)
    (hinv : BFSInv nodes0 ps done (parent :: rest) nodes fail)
    {qp : List Nat} (hqp : walk nodes0 0 qp = some parent) :
    ∀ (y : Nat) (qy : List Nat), walk nodes0 0 qy = some y → y ≠ 0 →
      qy.length ≤ qp.length → fail y ≠ -1 := by
  intro y qy hqy hy0 hlen
  rcases eq_nil_or_append qy with rfl | ⟨qy', b, rfl⟩
  · cases hqy
    exact absurd rfl hy0
  · obtain ⟨i, hqy', hch⟩ := (walk_snoc hc.vals).mp hqy
    have hidone : i ∈ done := by
      by_cases hi0 : i = 0
      · subst hi0
        rcases List.mem_append.mp hinv.rootDisc with h' | h'
        · exact h'
        · exfalso
          rcases List.mem_cons.mp h' with h'' | h''
          · subst h''
            have := path_unique hc 0 qp [] hqp rfl
            subst this
            simp at hlen
          · have hdle := List.rel_of_pairwise_cons hinv.sortQ h''
            have h7 := hdle qp [] hqp rfl
            simp at h7
            rw [h7] at hlen
            simp at hlen
      · have hass : fail i ≠ -1 :=
          bfs_shallow_assigned hc hinv hqp i qy' hqy' hi0
            (by simp at hlen; omega)
        have hmem := (hinv.assignedIff i).mp hass
        rcases List.mem_append.mp hmem.2 with h' | h'
        · exact h'
        · exfalso
          rcases List.mem_cons.mp h' with h'' | h''
          · subst h''
            have := path_unique hc i qy' qp hqy' hqp
            subst this
            simp at hlen
          · have hdle := List.rel_of_pairwise_cons hinv.sortQ h''
            have := hdle qp qy' hqp hqy'
            simp at hlen
            omega
    have hdisc := (hinv.discIff i b y hch).mpr hidone
    exact (hinv.assignedIff y).mpr ⟨hy0, hdisc⟩

/-- Result specification of the `while` loop `acAncFind`: either no
proper trie-suffix of `S` has a `b`-child (result `-1`), or the result is
the node of the longest proper trie-suffix of `S` that has one. -/
def AncFound (nodes0 : List ACNode) (S : List Nat) (b : Nat)
    (res : Int) : Prop :=
  (res = -1 ∧ ∀ r k, walk nodes0 0 r = some k → r <:+ S → r ≠ S →
    childOf nodes0 k b = -1) ∨
  (∃ rn : Nat, res = (rn : Int) ∧ ∃ pr, walk nodes0 0 pr = some rn ∧
    pr <:+ S ∧ pr ≠ S ∧ childOf nodes0 rn b ≠ -1 ∧
    ∀ r k, walk nodes0 0 r = some k → r <:+ S → r ≠ S →
      childOf nodes0 k b ≠ -1 → r.length ≤ pr.length)

theorem acAncFind_correct {nodes0 : List ACNode} {nodes : List ACNode}
    {fail : Nat → Int} (hc : TrieCore nodes0)
    (hsame : ∀ i b, childOf nodes i b = childOf nodes0 i b)
    (hfailroot : fail 0 = -1)
    (S : List Nat) (b : Nat)
    (H : ∀ y qy, walk nodes0 0 qy = some y → y ≠ 0 →
      qy.length < S.length → fail y ≠ -1 ∧ FailOK nodes0 fail y) :
    ∀ (fuel : Nat) (y : Int),
    ((y = -1 ∧ ∀ r k, walk nodes0 0 r = some k → r <:+ S → r ≠ S →
        childOf nodes0 k b = -1) ∨
      (∃ yn : Nat, y = (yn : Int) ∧ ∃ py, walk nodes0 0 py = some yn ∧
        py <:+ S ∧ py ≠ S ∧ py.length < fuel ∧
        ∀ r k, walk nodes0 0 r = some k → r <:+ S → r ≠ S →
          childOf nodes0 k b ≠ -1 → r.length ≤ py.length)) →
    AncFound nodes0 S b (acAncFind nodes fail fuel y b) := by
  intro fuel
  induction fuel with
  | zero =>
    intro y hy
    rcases hy with ⟨rfl, hnone⟩ | ⟨yn, rfl, py, hpy, hsuf, hne, hflt, hbound⟩
    · exact Or.inl ⟨rfl, hnone⟩
    · omega
  | succ f ih =>
    intro y hy
    rcases hy with ⟨rfl, hnone⟩ | ⟨yn, rfl, py, hpy, hsuf, hne, hflt, hbound⟩
    · rw [acAncFind, if_neg (by intro hx; exact hx.1 rfl)]
      exact Or.inl ⟨rfl, hnone⟩
    · rw [acAncFind]
      by_cases hchb : childOf nodes0 yn b = -1
      · rw [if_pos ⟨by omega, by
          rw [Int.toNat_natCast]
          have := hsame yn b
          rw [childOf] at this
          rw [this]
          exact hchb⟩]
        rw [Int.toNat_natCast]
        by_cases hy0 : yn = 0
        · subst hy0
          rw [hfailroot]
          apply ih
          left
          refine ⟨rfl, ?_⟩
          intro r k hr hrs hrne
          by_cases hck : childOf nodes0 k b = -1
          · exact hck
          · exfalso
            have hpy0 : py.length = 0 := by
              have := (walk_le hc py 0 0 hpy).1
              omega
            have hr0 : r.length = 0 := by
              have := hbound r k hr hrs hrne hck
              omega
            rw [List.length_eq_zero] at hr0
            subst hr0
            rw [walk_nil] at hr
            cases hr
            exact hck hchb
        · obtain ⟨-, hfok⟩ := H yn py hpy hy0 (by
            have := List.IsSuffix.length_le hsuf
            rcases eq_or_ne py.length S.length with he | hne'
            · exfalso
              exact hne (List.IsSuffix.eq_of_length hsuf he)
            · omega)
          obtain ⟨zn, hzn, hzspec⟩ := hfok
          obtain ⟨pz, hpz, hpzsuf, hpzne, hpzmax⟩ := hzspec py hpy
          rw [hzn]
          apply ih
          right
          have hlpz : pz.length < py.length := by
            have h6 := List.IsSuffix.length_le hpzsuf
            rcases eq_or_ne pz.length py.length with he | hne'
            · exact absurd (List.IsSuffix.eq_of_length hpzsuf he) hpzne
            · omega
          refine ⟨zn, rfl, pz, hpz, hpzsuf.trans hsuf, ?_, by omega, ?_⟩
          · intro he
            have h6 := List.IsSuffix.length_le hsuf
            subst he
            omega
          · intro r k hr hrs hrne hrb
            have hrpy : r.length ≤ py.length := hbound r k hr hrs hrne hrb
            have hrsufpy : r <:+ py :=
              List.suffix_of_suffix_length_le hrs hsuf hrpy
            by_cases hrpy' : r = py
            · subst hrpy'
              rw [hr] at hpy
              cases hpy
              exact absurd hchb hrb
            · exact hpzmax r k hr hrsufpy hrpy'
      · rw [if_neg (by
          intro hx
          apply hchb
          have := hsame yn b
          rw [childOf] at this
          rw [Int.toNat_natCast] at hx
          rw [← this]
          exact hx.2)]
        right
        exact ⟨yn, rfl, py, hpy, hsuf, hne, hchb, hbound⟩

theorem suffix_snoc_structure {r q : List Nat} {b : Nat}
    (h : r <:+ q ++ [b]) : r = [] ∨ ∃ r2, r = r2 ++ [b] ∧ r2 <:+ q := by
  rcases eq_nil_or_append r with rfl | ⟨r2, b', rfl⟩
  · exact Or.inl rfl
  · obtain ⟨t, ht⟩ := h
    rw [← List.append_assoc] at ht
    obtain ⟨h1, h2⟩ := List.append_inj' ht rfl
    simp at h2
    subst h2
    exact Or.inr ⟨r2, rfl, ⟨t, h1⟩⟩

theorem suffix_append_single {r q : List Nat} {b : Nat} (h : r <:+ q) :
    r ++ [b] <:+ q ++ [b] := by
  obtain ⟨t, ht⟩ := h
  exact ⟨t, by rw [← List.append_assoc, ht]⟩

/-- Invariant of the 256-byte fold that processes the children of the
popped `parent`. -/
structure StepInv (nodes0 : List ACNode) (ps : List (List Char))
    (parent : Nat) (entryNodes : List ACNode) (entryFail : Nat → Int)
    (bl : List Nat) (st : List ACNode × (Nat → Int) × List Nat) :
    Prop where
  sameCh : ∀ i b, childOf st.1 i b = childOf nodes0 i b
  lenEq : st.1.length = nodes0.length
  pushedIff : ∀ j, j ∈ st.2.2 ↔ ∃ b ∈ bl, childOf nodes0 parent b = (j : Int)
  pushedNodup : st.2.2.Nodup
  failPres : ∀ j, j ∉ st.2.2 → st.2.1 j = entryFail j
  patsPres : ∀ j, j ∉ st.2.2 →
    (st.1.getD j ACNode.empty).patterns =
      (entryNodes.getD j ACNode.empty).patterns
  pushedOK : ∀ j ∈ st.2.2, st.2.1 j ≠ -1 ∧ FailOK nodes0 st.2.1 j ∧
    PatsOK nodes0 ps st.1 j

theorem FailOK_transfer {nodes0 : List ACNode} {fail fail' : Nat → Int}
    {j : Nat} (h : fail' j = fail j) (hok : FailOK nodes0 fail j) :
    FailOK nodes0 fail' j := by
  obtain ⟨fj, hfj, hspec⟩ := hok
  exact ⟨fj, by rw [h, hfj], hspec⟩

theorem PatsOK_transfer {nodes0 : List ACNode} {ps : List (List Char)}
    {nodes nodes' : List ACNode} {j : Nat}
    (h : (nodes'.getD j ACNode.empty).patterns =
      (nodes.getD j ACNode.empty).patterns)
    (hok : PatsOK nodes0 ps nodes j) : PatsOK nodes0 ps nodes' j := by
  intro q hq x
  rw [h]
  exact hok q hq x

theorem acStepByte_eq_none {parent b cn : Nat}
    {st : List ACNode × (Nat → Int) × List Nat}
    (hcn : (st.1.getD parent ACNode.empty).children b = (cn : Int))
    (hanc : acAncFind st.1 st.2.1 st.1.length (st.2.1 parent) b = -1) :
    acStepByte parent st b =
      (st.1, fun j => if j = cn then 0 else st.2.1 j, st.2.2 ++ [cn]) := by
  rw [acStepByte]
  simp only
  rw [if_neg (by rw [hcn]; omega), hcn, hanc, if_pos rfl]
  simp

theorem acStepByte_eq_some {parent b cn rn cfn : Nat}
    {st : List ACNode × (Nat → Int) × List Nat}
    (hcn : (st.1.getD parent ACNode.empty).children b = (cn : Int))
    (hanc : acAncFind st.1 st.2.1 st.1.length (st.2.1 parent) b = (rn : Int))
    (hcf : (st.1.getD rn ACNode.empty).children b = (cfn : Int)) :
    acStepByte parent st b =
      (st.1.set cn { st.1.getD cn ACNode.empty with
          patterns := (st.1.getD cn ACNode.empty).patterns ++
            (st.1.getD cfn ACNode.empty).patterns },
        fun j => if j = cn then (cfn : Int) else st.2.1 j,
        st.2.2 ++ [cn]) := by
  rw [acStepByte]
  simp only
  rw [if_neg (by rw [hcn]; omega), hcn, hanc, if_neg (by omega)]
  simp only [Int.toNat_natCast, hcf]

/-- One byte of the child-processing fold preserves the fold invariant
and, when an edge exists, assigns a correct failure link and a correct
(output-closed) pattern list to the child. -/
theorem acStepByte_spec {nodes0 : List ACNode} {ps : List (List Char)}
    {done rest : List Nat} {parent : Nat} {entryNodes : List ACNode}
    {entryFail : Nat → Int} {qp : List Nat}
    (hc : TrieCore nodes0)
    (hreach0 : ∀ x ∈ ps, ∃ j, walk nodes0 0 (encodeStr x) = some j)
    (hpats0 : ∀ j q, walk nodes0 0 q = some j → ∀ x,
      x ∈ (nodes0.getD j ACNode.empty).patterns ↔ x ∈ ps ∧ encodeStr x = q)
    (hinv : BFSInv nodes0 ps done (parent :: rest) entryNodes entryFail)
    (hqp : walk nodes0 0 qp = some parent)
    {bl : List Nat} {st : List ACNode × (Nat → Int) × List Nat}
    (hstep : StepInv nodes0 ps parent entryNodes entryFail bl st)
    (b : Nat) (hbnew : b ∉ bl) :
    StepInv nodes0 ps parent entryNodes entryFail (bl ++ [b])
      (acStepByte parent st b) := by
  have hparent_not_pushed : parent ∉ st.2.2 := by
    intro hmem
    obtain ⟨b', -, hb'⟩ := (hstep.pushedIff parent).mp hmem
    have := hc.bounds parent b' parent hb'
    omega
  rcases hc.vals parent b with hnone | ⟨cn, hcn⟩
  · -- no child on this byte: the state is unchanged
    have hun : acStepByte parent st b = st := by
      rw [acStepByte]
      simp only
      rw [if_pos (show (st.1.getD parent ACNode.empty).children b = -1 from by
        have h1 : (st.1.getD parent ACNode.empty).children b =
            childOf nodes0 parent b := hstep.sameCh parent b
        rw [h1]
        exact hnone)]
    rw [hun]
    refine ⟨hstep.sameCh, hstep.lenEq, ?_, hstep.pushedNodup,
      hstep.failPres, hstep.patsPres, hstep.pushedOK⟩
    intro j
    rw [hstep.pushedIff j]
    constructor
    · rintro ⟨b', hb', hcb'⟩
      exact ⟨b', by simp [hb'], hcb'⟩
    · rintro ⟨b', hb', hcb'⟩
      rcases List.mem_append.mp hb' with h' | h'
      · exact ⟨b', h', hcb'⟩
      · simp at h'
        subst h'
        rw [hnone] at hcb'
        exact absurd hcb' (by omega)
  · -- a child exists: it is assigned a failure link and pushed
    have hchild_lt : cn < nodes0.length := (hc.bounds parent b cn hcn).2
    have hchild_ne0 : cn ≠ 0 := by
      intro h0
      rw [h0] at hcn
      exact hc.root parent b hcn
    have hqcn : walk nodes0 0 (qp ++ [b]) = some cn :=
      (walk_snoc hc.vals).mpr ⟨parent, hqp, hcn⟩
    have hcn_not_pushed : cn ∉ st.2.2 := by
      intro hmem
      obtain ⟨b', hb', hcb'⟩ := (hstep.pushedIff cn).mp hmem
      obtain ⟨-, hbb⟩ := hc.uniq parent b' parent b cn hcb' hcn
      exact hbnew (hbb ▸ hb')
    have hparent_in : parent ∈ done ++ parent :: rest := by simp
    have hparent_not_done : parent ∉ done := by
      have hnd := hinv.nodup
      rw [List.nodup_append] at hnd
      intro hmem
      exact hnd.2.2 hmem (by simp)
    have hcn_undisc : cn ∉ done ++ parent :: rest := by
      intro hmem
      exact hparent_not_done ((hinv.discIff parent b cn hcn).mp hmem)
    have hcn_unassigned : entryFail cn = -1 := by
      by_contra hne
      exact hcn_undisc ((hinv.assignedIff cn).mp hne).2
    have hcn_pats0 : (entryNodes.getD cn ACNode.empty).patterns =
        (nodes0.getD cn ACNode.empty).patterns := hinv.patsUn cn hcn_unassigned
    -- facts used to run the ancestor search
    have hfail_pres_shallow : ∀ y qy, walk nodes0 0 qy = some y → y ≠ 0 →
        qy.length < qp.length → st.2.1 y ≠ -1 ∧ FailOK nodes0 st.2.1 y := by
      intro y qy hqy hy0 hylen
      have hy_not_pushed : y ∉ st.2.2 := by
        intro hmem
        obtain ⟨b', -, hcb'⟩ := (hstep.pushedIff y).mp hmem
        have hq' : walk nodes0 0 (qp ++ [b']) = some y :=
          (walk_snoc hc.vals).mpr ⟨parent, hqp, hcb'⟩
        have := path_unique hc y qy (qp ++ [b']) hqy hq'
        subst this
        simp at hylen
      have hpres := hstep.failPres y hy_not_pushed
      have hass := bfs_shallow_assigned hc hinv hqp y qy hqy hy0 hylen
      refine ⟨by rw [hpres]; exact hass, ?_⟩
      exact FailOK_transfer hpres (hinv.failOK y hass)
    have hfailroot2 : st.2.1 0 = -1 := by
      have h0np : (0 : Nat) ∉ st.2.2 := by
        intro hmem
        obtain ⟨b', -, hcb'⟩ := (hstep.pushedIff 0).mp hmem
        exact hc.root parent b' hcb'
      rw [hstep.failPres 0 h0np]
      exact hinv.failRoot
    have hfp : st.2.1 parent = entryFail parent :=
      hstep.failPres parent hparent_not_pushed
    have hanc : AncFound nodes0 qp b
        (acAncFind st.1 st.2.1 st.1.length (st.2.1 parent) b) := by
      apply acAncFind_correct hc hstep.sameCh hfailroot2 qp b
        hfail_pres_shallow
      by_cases hp0 : parent = 0
      · subst hp0
        have hqpnil : qp = [] := path_unique hc 0 qp [] hqp rfl
        left
        subst hqpnil
        refine ⟨by rw [hfp]; exact hinv.failRoot, ?_⟩
        intro r k hr hrs hrne
        rw [List.suffix_nil] at hrs
        exact absurd hrs hrne
      · right
        have hpass : entryFail parent ≠ -1 :=
          (hinv.assignedIff parent).mpr ⟨hp0, hparent_in⟩
        obtain ⟨fj, hfj, hspec⟩ := hinv.failOK parent hpass
        obtain ⟨py, hpy, hpysuf, hpyne, hpymax⟩ := hspec qp hqp
        refine ⟨fj, by rw [hfp]; exact hfj, py, hpy, hpysuf, hpyne, ?_, ?_⟩
        · have h1 : py.length < qp.length := by
            have := List.IsSuffix.length_le hpysuf
            rcases eq_or_ne py.length qp.length with he | hne
            · exact absurd (List.IsSuffix.eq_of_length hpysuf he) hpyne
            · omega
          have h2 : qp.length ≤ parent := by
            have := (walk_le hc qp 0 parent hqp).1
            omega
          have h3 : parent < nodes0.length := by
            match hq : qp with
            | [] => cases hqp; exact absurd rfl hp0
            | c :: cs => exact (walk_le hc _ 0 parent hqp).2 (by simp)
          rw [hstep.lenEq]
          omega
        · intro r k hr hrs hrne _
          exact hpymax r k hr hrs hrne
    have hcn2 := hcn
    rw [childOf] at hcn2
    have hcnSt : (st.1.getD parent ACNode.empty).children b = (cn : Int) := by
      have h1 := hstep.sameCh parent b
      rw [childOf, childOf] at h1
      rw [h1]
      exact hcn2
    rcases hanc with ⟨hancm1, hnoc⟩ |
      ⟨rn, hancrn, pr, hpr, hprsuf, hprne, hprb, hprmax⟩
    · -- no ancestor provides a fail target: the child's fail is the root
      rw [acStepByte_eq_none hcnSt hancm1]
      refine ⟨hstep.sameCh, hstep.lenEq, ?_, ?_, ?_, ?_, ?_⟩
      · intro j
        simp only [List.mem_append, List.mem_singleton]
        constructor
        · rintro (hj | rfl)
          · obtain ⟨b', hb', hcb'⟩ := (hstep.pushedIff j).mp hj
            exact ⟨b', by simp [hb'], hcb'⟩
          · exact ⟨b, by simp, hcn⟩
        · rintro ⟨b', hb', hcb'⟩
          rcases hb' with h' | h'
          · exact Or.inl ((hstep.pushedIff j).mpr ⟨b', h', hcb'⟩)
          · subst h'
            right
            rw [hcn] at hcb'
            omega
      · rw [List.nodup_append]
        refine ⟨hstep.pushedNodup, List.nodup_singleton cn, ?_⟩
        intro x hx hx2
        simp at hx2
        subst hx2
        exact hcn_not_pushed hx
      · intro j hj
        simp only [List.mem_append, List.mem_singleton] at hj
        push_neg at hj
        dsimp only
        rw [if_neg hj.2]
        exact hstep.failPres j hj.1
      · intro j hj
        simp only [List.mem_append, List.mem_singleton] at hj
        push_neg at hj
        exact hstep.patsPres j hj.1
      · intro j hj
        simp only [List.mem_append, List.mem_singleton] at hj
        rcases hj with hj' | hj'
        · have hjne : j ≠ cn := by
            intro he
            subst he
            exact hcn_not_pushed hj'
          obtain ⟨h1, h2, h3⟩ := hstep.pushedOK j hj'
          refine ⟨?_, ?_, h3⟩
          · dsimp only
            rw [if_neg hjne]
            exact h1
          · exact FailOK_transfer (by dsimp only; rw [if_neg hjne]) h2
        · have hj2 := hj'.symm
          clear hj'
          subst hj2
          refine ⟨by dsimp only; rw [if_pos rfl]; omega, ?_, ?_⟩
          · refine ⟨0, by dsimp only; rw [if_pos rfl]; rfl, ?_⟩
            intro q hq
            have hq' := path_unique hc cn q (qp ++ [b]) hq hqcn
            subst hq'
            refine ⟨[], rfl, List.nil_suffix, by simp, ?_⟩
            intro r' k' hr' hrs hrne
            rcases suffix_snoc_structure hrs with rfl | ⟨r2, rfl, hr2⟩
            · simp
            · exfalso
              obtain ⟨k2, hk2, hck2⟩ := (walk_snoc hc.vals).mp hr'
              by_cases hr2qp : r2 = qp
              · exact hrne (by rw [hr2qp])
              · have := hnoc r2 k2 hk2 hr2 hr2qp
                rw [this] at hck2
                exact absurd hck2 (by omega)
          · intro q hq x
            have hq' := path_unique hc cn q (qp ++ [b]) hq hqcn
            subst hq'
            dsimp only
            rw [hstep.patsPres cn hcn_not_pushed, hcn_pats0,
              hpats0 cn (qp ++ [b]) hqcn x]
            constructor
            · rintro ⟨hx, he⟩
              refine ⟨hx, ?_, by rw [he]⟩
              intro hxe
              subst hxe
              rw [encodeStr_nil] at he
              have := congrArg List.length he
              simp at this
            · rintro ⟨hx, hxne, hsuf⟩
              refine ⟨hx, ?_⟩
              have hexne : encodeStr x ≠ [] := by
                intro h0
                exact hxne ((encodeStr_eq_nil_iff x).mp h0)
              rcases suffix_snoc_structure hsuf with he | ⟨r2, he, hr2⟩
              · exact absurd he hexne
              · obtain ⟨jx, hjx⟩ := hreach0 x hx
                rw [he] at hjx
                obtain ⟨k2, hk2, hck2⟩ := (walk_snoc hc.vals).mp hjx
                by_cases hr2qp : r2 = qp
                · rw [he, hr2qp]
                · exfalso
                  have := hnoc r2 k2 hk2 hr2 hr2qp
                  rw [this] at hck2
                  exact absurd hck2 (by omega)
    · -- the search found the deepest proper suffix with a b-child
      obtain ⟨cfn, hcf⟩ : ∃ cfn : Nat, childOf nodes0 rn b = (cfn : Int) := by
        rcases hc.vals rn b with h' | h'
        · exact absurd h' hprb
        · exact h'
      have hcf2 := hcf
      rw [childOf] at hcf2
      have hcfSt : (st.1.getD rn ACNode.empty).children b = (cfn : Int) := by
        have h1 := hstep.sameCh rn b
        rw [childOf, childOf] at h1
        rw [h1]
        exact hcf2
      rw [acStepByte_eq_some hcnSt hancrn hcfSt]
      have hqcf : walk nodes0 0 (pr ++ [b]) = some cfn :=
        (walk_snoc hc.vals).mpr ⟨rn, hpr, hcf⟩
      have hcfn_ne0 : cfn ≠ 0 := by
        intro h0
        rw [h0] at hcf
        exact hc.root rn b hcf
      have hpr_lt : pr.length < qp.length := by
        have := List.IsSuffix.length_le hprsuf
        rcases eq_or_ne pr.length qp.length with he | hne
        · exact absurd (List.IsSuffix.eq_of_length hprsuf he) hprne
        · omega
      have hcfn_entry : entryFail cfn ≠ -1 :=
        bfs_level_assigned hc hinv hqp cfn (pr ++ [b]) hqcf hcfn_ne0
          (by simp; omega)
      have hcfn_not_pushed : cfn ∉ st.2.2 := by
        intro hmem
        obtain ⟨b', -, hcb'⟩ := (hstep.pushedIff cfn).mp hmem
        have hq' : walk nodes0 0 (qp ++ [b']) = some cfn :=
          (walk_snoc hc.vals).mpr ⟨parent, hqp, hcb'⟩
        have := path_unique hc cfn (pr ++ [b]) (qp ++ [b']) hqcf hq'
        have hlen := congrArg List.length this
        simp at hlen
        omega
      have hPcf : PatsOK nodes0 ps st.1 cfn :=
        PatsOK_transfer (hstep.patsPres cfn hcfn_not_pushed)
          ((hinv.patsOK cfn hcfn_entry))
      have hcn_lt_st : cn < st.1.length := by
        rw [hstep.lenEq]
        exact hchild_lt
      refine ⟨?_, ?_, ?_, ?_, ?_, ?_, ?_⟩
      · intro i β
        dsimp only
        rw [childOf_patset]
        exact hstep.sameCh i β
      · simp only [length_patset]
        exact hstep.lenEq
      · intro j
        simp only [List.mem_append, List.mem_singleton]
        constructor
        · rintro (hj | rfl)
          · obtain ⟨b', hb', hcb'⟩ := (hstep.pushedIff j).mp hj
            exact ⟨b', by simp [hb'], hcb'⟩
          · exact ⟨b, by simp, hcn⟩
        · rintro ⟨b', hb', hcb'⟩
          rcases hb' with h' | h'
          · exact Or.inl ((hstep.pushedIff j).mpr ⟨b', h', hcb'⟩)
          · subst h'
            right
            rw [hcn] at hcb'
            omega
      · rw [List.nodup_append]
        refine ⟨hstep.pushedNodup, List.nodup_singleton cn, ?_⟩
        intro x hx hx2
        simp at hx2
        subst hx2
        exact hcn_not_pushed hx
      · intro j hj
        simp only [List.mem_append, List.mem_singleton] at hj
        push_neg at hj
        dsimp only
        rw [if_neg hj.2]
        exact hstep.failPres j hj.1
      · intro j hj
        simp only [List.mem_append, List.mem_singleton] at hj
        push_neg at hj
        dsimp only
        rw [pats_patset j hcn_lt_st, if_neg hj.2]
        exact hstep.patsPres j hj.1
      · intro j hj
        simp only [List.mem_append, List.mem_singleton] at hj
        rcases hj with hj' | hj'
        · have hjne : j ≠ cn := by
            intro he
            subst he
            exact hcn_not_pushed hj'
          obtain ⟨h1, h2, h3⟩ := hstep.pushedOK j hj'
          refine ⟨?_, ?_, ?_⟩
          · dsimp only
            rw [if_neg hjne]
            exact h1
          · exact FailOK_transfer (by dsimp only; rw [if_neg hjne]) h2
          · refine PatsOK_transfer ?_ h3
            dsimp only
            rw [pats_patset j hcn_lt_st, if_neg hjne]
        · have hj2 := hj'.symm
          clear hj'
          subst hj2
          refine ⟨by dsimp only; rw [if_pos rfl]; omega, ?_, ?_⟩
          · refine ⟨cfn, by dsimp only; rw [if_pos rfl], ?_⟩
            intro q hq
            have hq' := path_unique hc cn q (qp ++ [b]) hq hqcn
            subst hq'
            refine ⟨pr ++ [b], hqcf, suffix_append_single hprsuf, ?_, ?_⟩
            · intro he
              obtain ⟨h1, -⟩ := List.append_inj' he rfl
              exact hprne h1
            · intro r' k' hr' hrs hrne
              rcases suffix_snoc_structure hrs with rfl | ⟨r2, rfl, hr2⟩
              · simp
              · obtain ⟨k2, hk2, hck2⟩ := (walk_snoc hc.vals).mp hr'
                by_cases hr2qp : r2 = qp
                · exact absurd (by rw [hr2qp]) hrne
                · have hb2 : childOf nodes0 k2 b ≠ -1 := by
                    rw [hck2]
                    omega
                  have := hprmax r2 k2 hk2 hr2 hr2qp hb2
                  simp
                  omega
          · intro q hq x
            have hq' := path_unique hc cn q (qp ++ [b]) hq hqcn
            subst hq'
            dsimp only
            rw [pats_patset cn hcn_lt_st, if_pos rfl, List.mem_append,
              hstep.patsPres cn hcn_not_pushed, hcn_pats0,
              hpats0 cn (qp ++ [b]) hqcn x]
            constructor
            · rintro (⟨hx, he⟩ | hmem)
              · refine ⟨hx, ?_, by rw [he]⟩
                intro hxe
                subst hxe
                rw [encodeStr_nil] at he
                have := congrArg List.length he
                simp at this
              · obtain ⟨hx, hxne, hsuf⟩ := (hPcf (pr ++ [b]) hqcf x).mp hmem
                exact ⟨hx, hxne,
                  hsuf.trans (suffix_append_single hprsuf)⟩
            · rintro ⟨hx, hxne, hsuf⟩
              have hexne : encodeStr x ≠ [] := by
                intro h0
                exact hxne ((encodeStr_eq_nil_iff x).mp h0)
              rcases suffix_snoc_structure hsuf with he | ⟨r2, he, hr2⟩
              · exact absurd he hexne
              · by_cases hr2qp : r2 = qp
                · exact Or.inl ⟨hx, by rw [he, hr2qp]⟩
                · right
                  obtain ⟨jx, hjx⟩ := hreach0 x hx
                  rw [he] at hjx
                  obtain ⟨k2, hk2, hck2⟩ := (walk_snoc hc.vals).mp hjx
                  have hb2 : childOf nodes0 k2 b ≠ -1 := by
                    rw [hck2]
                    omega
                  have hlen2 := hprmax r2 k2 hk2 hr2 hr2qp hb2
                  have hr2pr : r2 <:+ pr :=
                    List.suffix_of_suffix_length_le hr2 hprsuf hlen2
                  refine (hPcf (pr ++ [b]) hqcf x).mpr ⟨hx, hxne, ?_⟩
                  rw [he]
                  exact suffix_append_single hr2pr

/-- The byte fold preserves the fold invariant over a duplicate-free byte
list. -/
theorem acStepFold_spec {nodes0 : List ACNode} {ps : List (List Char)}
    {done rest : List Nat} {parent : Nat} {entryNodes : List ACNode}
    {entryFail : Nat → Int} {qp : List Nat}
    (hc : TrieCore nodes0)
    (hreach0 : ∀ x ∈ ps, ∃ j, walk nodes0 0 (encodeStr x) = some j)
    (hpats0 : ∀ j q, walk nodes0 0 q = some j → ∀ x,
      x ∈ (nodes0.getD j ACNode.empty).patterns ↔ x ∈ ps ∧ encodeStr x = q)
    (hinv : BFSInv nodes0 ps done (parent :: rest) entryNodes entryFail)
    (hqp : walk nodes0 0 qp = some parent) :
    ∀ (bs : List Nat) (bl : List Nat)
      (st : List ACNode × (Nat → Int) × List Nat),
      (bl ++ bs).Nodup →
      StepInv nodes0 ps parent entryNodes entryFail bl st →
      StepInv nodes0 ps parent entryNodes entryFail (bl ++ bs)
        (bs.foldl (acStepByte parent) st) := by
  intro bs
  induction bs with
  | nil =>
    intro bl st _ hstep
    simpa using hstep
  | cons b bs' ih =>
    intro bl st hnd hstep
    have hbnew : b ∉ bl := by
      rw [List.nodup_append] at hnd
      intro hmem
      exact hnd.2.2 hmem (by simp)
    have h1 := acStepByte_spec hc hreach0 hpats0 hinv hqp hstep b hbnew
    have h2 := ih (bl ++ [b]) (acStepByte parent st b)
      (by simpa using hnd) h1
    simpa using h2

/-- One pop of the BFS queue (processing every byte edge of the popped
node) preserves the BFS invariant, moving the popped node to `done` and
appending its children to the queue. -/
theorem acBFS_pop {nodes0 : List ACNode} {ps : List (List Char)}
    {done rest : List Nat} {parent : Nat} {nodes : List ACNode}
    {fail : Nat → Int}
    (hc : TrieCore nodes0)
    (hreach0 : ∀ x ∈ ps, ∃ j, walk nodes0 0 (encodeStr x) = some j)
    (hpats0 : ∀ j q, walk nodes0 0 q = some j → ∀ x,
      x ∈ (nodes0.getD j ACNode.empty).patterns ↔ x ∈ ps ∧ encodeStr x = q)
    (hinv : BFSInv nodes0 ps done (parent :: rest) nodes fail) :
    BFSInv nodes0 ps (done ++ [parent])
      (rest ++ ((List.range 256).foldl (acStepByte parent)
        (nodes, fail, [])).2.2)
      ((List.range 256).foldl (acStepByte parent) (nodes, fail, [])).1
      ((List.range 256).foldl (acStepByte parent) (nodes, fail, [])).2.1 := by
  obtain ⟨qp, hqp⟩ := hinv.valid parent (by simp)
  have hstep0 : StepInv nodes0 ps parent nodes fail []
      (nodes, fail, []) := by
    refine ⟨hinv.sameCh, hinv.lenEq, ?_, List.nodup_nil, ?_, ?_, ?_⟩
    · intro j
      simp
    · intro j _
      rfl
    · intro j _
      rfl
    · intro j hj
      simp at hj
  have hS := acStepFold_spec hc hreach0 hpats0 hinv hqp (List.range 256)
    [] (nodes, fail, []) (by simpa using List.nodup_range 256) hstep0
  set S := (List.range 256).foldl (acStepByte parent) (nodes, fail, [])
    with hSdef
  rw [List.nil_append] at hS
  -- characterization of the pushed list
  have hP : ∀ j, j ∈ S.2.2 ↔ ∃ b, childOf nodes0 parent b = (j : Int) := by
    intro j
    rw [hS.pushedIff j]
    constructor
    · rintro ⟨b, -, hb⟩
      exact ⟨b, hb⟩
    · rintro ⟨b, hb⟩
      exact ⟨b, by simp [List.mem_range]; exact hc.bytesLt parent b j hb, hb⟩
  have hPdepth : ∀ j ∈ S.2.2, ∀ qj, walk nodes0 0 qj = some j →
      qj.length = qp.length + 1 := by
    intro j hj qj hqj
    obtain ⟨b, hb⟩ := (hP j).mp hj
    have hj' : walk nodes0 0 (qp ++ [b]) = some j :=
      (walk_snoc hc.vals).mpr ⟨parent, hqp, hb⟩
    have := path_unique hc j qj (qp ++ [b]) hqj hj'
    rw [this]
    simp
  have hPne0 : ∀ j ∈ S.2.2, j ≠ 0 := by
    intro j hj h0
    obtain ⟨b, hb⟩ := (hP j).mp hj
    rw [h0] at hb
    exact hc.root parent b hb
  have hparent_not_done : parent ∉ done := by
    have := hinv.nodup
    rw [List.nodup_append] at this
    intro hmem
    exact this.2.2 hmem (by simp)
  have hPundisc : ∀ j ∈ S.2.2, j ∉ done ++ parent :: rest := by
    intro j hj hmem
    obtain ⟨b, hb⟩ := (hP j).mp hj
    exact hparent_not_done ((hinv.discIff parent b j hb).mp hmem)
  have hmemEq : ∀ j : Nat, (j ∈ done ++ [parent] ++ (rest ++ S.2.2)) ↔
      (j ∈ done ++ parent :: rest ∨ j ∈ S.2.2) := by
    intro j
    have he2 : done ++ [parent] ++ (rest ++ S.2.2) =
        (done ++ parent :: rest) ++ S.2.2 := by simp
    rw [he2, List.mem_append]
  refine ⟨hS.sameCh, hS.lenEq, ?_, ?_, ?_, ?_, ?_, ?_, ?_, ?_, ?_, ?_, ?_⟩
  · -- nodup
    have heq : done ++ [parent] ++ (rest ++ S.2.2) =
        (done ++ parent :: rest) ++ S.2.2 := by
      simp
    rw [heq, List.nodup_append]
    exact ⟨hinv.nodup, hS.pushedNodup, fun x hx hx2 => hPundisc x hx2 hx⟩
  · -- valid
    intro j hj
    rcases (hmemEq j).mp hj with h' | h'
    · exact hinv.valid j h'
    · obtain ⟨b, hb⟩ := (hP j).mp h'
      exact ⟨qp ++ [b], (walk_snoc hc.vals).mpr ⟨parent, hqp, hb⟩⟩
  · -- rootDisc
    exact (hmemEq 0).mpr (Or.inl hinv.rootDisc)
  · -- failRoot
    have h0 : (0 : Nat) ∉ S.2.2 := fun h => hPne0 0 h rfl
    rw [hS.failPres 0 h0]
    exact hinv.failRoot
  · -- assignedIff
    intro j
    by_cases hj : j ∈ S.2.2
    · constructor
      · intro _
        exact ⟨hPne0 j hj, (hmemEq j).mpr (Or.inr hj)⟩
      · intro _
        exact (hS.pushedOK j hj).1
    · rw [hS.failPres j hj, hinv.assignedIff j]
      constructor
      · rintro ⟨h1, h2⟩
        exact ⟨h1, (hmemEq j).mpr (Or.inl h2)⟩
      · rintro ⟨h1, h2⟩
        rcases (hmemEq j).mp h2 with h' | h'
        · exact ⟨h1, h'⟩
        · exact absurd h' hj
  · -- discIff
    intro i b j hch
    constructor
    · intro hj
      rcases (hmemEq j).mp hj with h' | h'
      · have := (hinv.discIff i b j hch).mp h'
        simp [this]
      · obtain ⟨b', hb'⟩ := (hP j).mp h'
        obtain ⟨hpi, -⟩ := hc.uniq parent b' i b j hb' hch
        simp [← hpi]
    · intro hi
      have hi' : i ∈ done ∨ i = parent := by
        rcases List.mem_append.mp hi with h' | h'
        · exact Or.inl h'
        · simp at h'
          exact Or.inr h'
      rcases hi' with h' | h'
      · exact (hmemEq j).mpr (Or.inl ((hinv.discIff i b j hch).mpr h'))
      · subst h'
        exact (hmemEq j).mpr (Or.inr ((hP j).mpr ⟨b, hch⟩))
  · -- failOK
    intro j hj
    by_cases hmem : j ∈ S.2.2
    · exact (hS.pushedOK j hmem).2.1
    · rw [hS.failPres j hmem] at hj
      exact FailOK_transfer (hS.failPres j hmem) (hinv.failOK j hj)
  · -- patsOK
    intro j hj
    by_cases hmem : j ∈ S.2.2
    · exact (hS.pushedOK j hmem).2.2
    · rw [hS.failPres j hmem] at hj
      exact PatsOK_transfer (hS.patsPres j hmem) (hinv.patsOK j hj)
  · -- patsUn
    intro j hj
    by_cases hmem : j ∈ S.2.2
    · exact absurd hj (hS.pushedOK j hmem).1
    · rw [hS.failPres j hmem] at hj
      rw [hS.patsPres j hmem]
      exact hinv.patsUn j hj
  · -- sortQ
    rw [List.pairwise_append]
    refine ⟨hinv.sortQ.of_cons, ?_, ?_⟩
    · apply List.pairwise_of_forall_mem_list
      intro x hx y hy qx qy hqx hqy
      rw [hPdepth x hx qx hqx, hPdepth y hy qy hqy]
    · intro x hx y hy qx qy hqx hqy
      rw [hPdepth y hy qy hqy]
      have h9 := hinv.diam parent (by simp) x (by simp [hx]) qp qx hqp hqx
      omega
  · -- diam
    intro x hx y hy qx qy hqx hqy
    rcases List.mem_append.mp hx with hx' | hx' <;>
      rcases List.mem_append.mp hy with hy' | hy'
    · exact hinv.diam x (by simp [hx']) y (by simp [hy']) qx qy hqx hqy
    · rw [hPdepth y hy' qy hqy]
      have hdle := List.rel_of_pairwise_cons hinv.sortQ hx'
      have := hdle qp qx hqp hqx
      omega
    · rw [hPdepth x hx' qx hqx]
      have := hinv.diam parent (by simp) y (by simp [hy']) qp qy hqp hqy
      omega
    · rw [hPdepth x hx' qx hqx, hPdepth y hy' qy hqy]
      omega

theorem nodup_lt_length_le {l : List Nat} {n : Nat} (hnd : l.Nodup)
    (hlt : ∀ x ∈ l, x < n) : l.length ≤ n := by
  have h1 : l.toFinset.card = l.length := List.toFinset_card_of_nodup hnd
  have h2 : l.toFinset ⊆ Finset.range n := by
    intro x hx
    rw [List.mem_toFinset] at hx
    rw [Finset.mem_range]
    exact hlt x hx
  have h3 := Finset.card_le_card h2
  rw [h1, Finset.card_range] at h3
  exact h3

/-- The BFS runs to completion (the popped count is bounded by the arena
size, so arena-size fuel suffices) and its result satisfies the invariant
with an empty queue. -/
theorem acBFS_run {nodes0 : List ACNode} {ps : List (List Char)}
    (hc : TrieCore nodes0)
    (hreach0 : ∀ x ∈ ps, ∃ j, walk nodes0 0 (encodeStr x) = some j)
    (hpats0 : ∀ j q, walk nodes0 0 q = some j → ∀ x,
      x ∈ (nodes0.getD j ACNode.empty).patterns ↔ x ∈ ps ∧ encodeStr x = q) :
    ∀ (fuel : Nat) (done queue : List Nat) (nodes : List ACNode)
      (fail : Nat → Int),
      BFSInv nodes0 ps done queue nodes fail →
      nodes0.length ≤ done.length + fuel →
      ∃ done', BFSInv nodes0 ps done' []
        (acBFS fuel queue nodes fail).1 (acBFS fuel queue nodes fail).2 := by
  intro fuel
  induction fuel with
  | zero =>
    intro done queue nodes fail hinv hfuel
    match queue with
    | [] => exact ⟨done, hinv⟩
    | parent :: rest =>
      exfalso
      have hcard : (done ++ parent :: rest).length ≤ nodes0.length := by
        apply nodup_lt_length_le hinv.nodup
        intro x hx
        obtain ⟨q, hq⟩ := hinv.valid x hx
        rcases eq_nil_or_append q with rfl | ⟨q', b, rfl⟩
        · cases hq
          exact hc.ne
        · exact (walk_le hc (q' ++ [b]) 0 x hq).2 (by simp)
      simp at hcard
      omega
  | succ fuel ih =>
    intro done queue nodes fail hinv hfuel
    match queue with
    | [] => exact ⟨done, hinv⟩
    | parent :: rest =>
      have hred : acBFS (fuel + 1) (parent :: rest) nodes fail =
          acBFS fuel
            (rest ++ ((List.range 256).foldl (acStepByte parent)
              (nodes, fail, [])).2.2)
            ((List.range 256).foldl (acStepByte parent) (nodes, fail, [])).1
            ((List.range 256).foldl (acStepByte parent)
              (nodes, fail, [])).2.1 := rfl
      rw [hred]
      have hpop := acBFS_pop hc hreach0 hpats0 hinv
      exact ih (done ++ [parent]) _ _ _ hpop (by simp; omega)

/-- The BFS invariant at entry (`queue = [0]`, all failure links
unassigned). -/
theorem bfsInv_init {nodes0 : List ACNode} {ps : List (List Char)}
    (hc : TrieCore nodes0) :
    BFSInv nodes0 ps [] [0] nodes0 (fun _ => (-1 : Int)) := by
  refine ⟨fun i b => rfl, rfl, by simp, ?_, by simp, rfl, ?_, ?_, ?_, ?_,
    ?_, ?_, ?_⟩
  · intro j hj
    simp at hj
    subst hj
    exact ⟨[], rfl⟩
  · intro j
    constructor
    · intro h
      exact absurd rfl h
    · rintro ⟨h1, h2⟩
      simp at h2
      exact absurd h2 h1
  · intro i b j hch
    constructor
    · intro hj
      exfalso
      have hj0 : j = 0 := by simpa using hj
      rw [hj0] at hch
      exact (hc.root i b) (by exact_mod_cast hch)
    · intro hi
      simp at hi
  · intro j hj
    exact absurd rfl hj
  · intro j hj
    exact absurd rfl hj
  · intro j _
    rfl
  · simp
  · intro x hx y hy qx qy hqx hqy
    simp at hx hy
    subst hx
    subst hy
    have := path_unique hc 0 qx qy hqx hqy
    rw [this]
    omega

/-- Full specification of `calculate_fail` over the trie built by the
constructor: children and arena size are untouched, the root's failure
link is `0`, every other reachable node gets a `FailOK` failure link
(node of the longest proper trie-suffix of its path), and — when no
pattern is the empty string — every reachable node's pattern list is
output-closed (`PatsOK`). -/
theorem acCalculateFail_spec (ps : List (List Char)) :
    (∀ i b, childOf (acCalculateFail (acTrie ps)).1 i b =
      childOf (acTrie ps) i b) ∧
    (acCalculateFail (acTrie ps)).1.length = (acTrie ps).length ∧
    (acCalculateFail (acTrie ps)).2 0 = 0 ∧
    (∀ j q, walk (acTrie ps) 0 q = some j → j ≠ 0 →
      FailOK (acTrie ps) (acCalculateFail (acTrie ps)).2 j) ∧
    (∀ j q, walk (acTrie ps) 0 q = some j → (∀ x ∈ ps, x ≠ []) →
      PatsOK (acTrie ps) ps (acCalculateFail (acTrie ps)).1 j) := by
  obtain ⟨hc, hreach0, hpaths, hpats0⟩ := acTrie_spec ps
  obtain ⟨done', hfin⟩ := acBFS_run hc hreach0 hpats0 (acTrie ps).length
    [] [0] (acTrie ps) (fun _ => (-1 : Int)) (bfsInv_init hc) (by simp)
  have hclosed : ∀ (n : Nat) (q : List Nat) (j : Nat), q.length ≤ n →
      walk (acTrie ps) 0 q = some j → j ∈ done' := by
    intro n
    induction n with
    | zero =>
      intro q j hlen hj
      have hq0 : q = [] := List.eq_nil_of_length_eq_zero (by omega)
      subst hq0
      cases hj
      simpa using hfin.rootDisc
    | succ n ihn =>
      intro q j hlen hj
      rcases eq_nil_or_append q with rfl | ⟨q', b, rfl⟩
      · cases hj
        simpa using hfin.rootDisc
      · obtain ⟨i, hi, hch⟩ := (walk_snoc hc.vals).mp hj
        have hlen2 : q'.length ≤ n := by
          have h8 : (q' ++ [b]).length = q'.length + 1 := by simp
          omega
        have hidone := ihn q' i hlen2 hi
        have h9 := (hfin.discIff i b j hch).mpr hidone
        simpa using h9
  have hass : ∀ j q, walk (acTrie ps) 0 q = some j → j ≠ 0 →
      (acBFS (acTrie ps).length [0] (acTrie ps) (fun _ => (-1 : Int))).2 j
        ≠ -1 := by
    intro j q hq hj0
    exact (hfin.assignedIff j).mpr
      ⟨hj0, by simpa using hclosed q.length q j (le_refl _) hq⟩
  refine ⟨hfin.sameCh, hfin.lenEq, ?_, ?_, ?_⟩
  · show (if (0 : Nat) = 0 then (0 : Int) else
      (acBFS (acTrie ps).length [0] (acTrie ps) (fun _ => (-1 : Int))).2 0) = 0
    rw [if_pos rfl]
  · intro j q hq hj0
    refine FailOK_transfer ?_ (hfin.failOK j (hass j q hq hj0))
    show (if j = 0 then (0 : Int) else
        (acBFS (acTrie ps).length [0] (acTrie ps) (fun _ => (-1 : Int))).2 j) =
      (acBFS (acTrie ps).length [0] (acTrie ps) (fun _ => (-1 : Int))).2 j
    rw [if_neg hj0]
  · intro j q hq hne
    by_cases hj0 : j = 0
    · subst hj0
      have hq0 : q = [] := path_unique hc 0 q [] hq rfl
      subst hq0
      intro q' hq' x
      have hq'0 : q' = [] := path_unique hc 0 q' [] hq' rfl
      subst hq'0
      have hfr : (acBFS (acTrie ps).length [0] (acTrie ps)
          (fun _ => (-1 : Int))).2 0 = -1 := hfin.failRoot
      have hpun := hfin.patsUn 0 hfr
      rw [show (acCalculateFail (acTrie ps)).1 =
          (acBFS (acTrie ps).length [0] (acTrie ps)
            (fun _ => (-1 : Int))).1 from rfl]
      rw [hpun, hpats0 0 [] rfl x]
      constructor
      · rintro ⟨hx, he⟩
        exact absurd ((encodeStr_eq_nil_iff x).mp he) (hne x hx)
      · rintro ⟨hx, -, hsuf⟩
        have h7 := List.suffix_nil.mp hsuf
        exact absurd ((encodeStr_eq_nil_iff x).mp h7) (hne x hx)
    · exact hfin.patsOK j (hass j q hq hj0)

/-- C3: after construction, the root's failure link is the root itself,
and every non-root trie node's failure link is the node whose byte path
is the longest proper suffix of the node's byte path that is also a
prefix of some inserted pattern (the root — empty path — if no such
non-empty suffix exists in the trie). -/
theorem C3_fail_links (ps : List (List Char)) (a : ACData)
    (ha : ac_init ps = some a) (j : Nat) (q : List Nat)
    (hq : walk (acTrie ps) 0 q = some j) (hj0 : j ≠ 0) :
    a.fail 0 = 0 ∧
    ∃ fj : Nat, a.fail j = (fj : Int) ∧
      ∃ r, walk (acTrie ps) 0 r = some fj ∧ r <:+ q ∧ r ≠ q ∧
        (r = [] ∨ ∃ x ∈ ps, r <+: encodeStr x) ∧
        ∀ r', r' <:+ q → r' ≠ q → (∃ x ∈ ps, r' <+: encodeStr x) →
          r'.length ≤ r.length := by
  rw [ac_init, Option.some.injEq] at ha
  subst ha
  obtain ⟨hc, hreach0, hpaths, -⟩ := acTrie_spec ps
  obtain ⟨-, -, hroot, hfailOK, -⟩ := acCalculateFail_spec ps
  refine ⟨hroot, ?_⟩
  obtain ⟨fj, hfj, hspec⟩ := hfailOK j q hq hj0
  obtain ⟨r, hr, hrsuf, hrne, hrmax⟩ := hspec q hq
  refine ⟨fj, hfj, r, hr, hrsuf, hrne, hpaths r fj hr, ?_⟩
  intro r' hsuf' hne' hpre'
  obtain ⟨x, hx, hpre⟩ := hpre'
  obtain ⟨jx, hjx⟩ := hreach0 x hx
  obtain ⟨t, ht⟩ := hpre
  rw [← ht] at hjx
  obtain ⟨k, hk, -⟩ := (walk_append hc.vals r' t 0 jx).mp hjx
  exact hrmax r' k hk hsuf' hne'

theorem C3_witness :
    walk (acTrie [['a', 'b'], ['b']]) 0 [97, 98] = some 2 ∧
    (2 : Nat) ≠ 0 ∧
    (((ac_init [['a', 'b'], ['b']]).getD ⟨[], fun _ => -1⟩).fail 0 = 0 ∧
      ∃ fj : Nat,
        ((ac_init [['a', 'b'], ['b']]).getD ⟨[], fun _ => -1⟩).fail 2 =
          (fj : Int) ∧
        ∃ r, walk (acTrie [['a', 'b'], ['b']]) 0 r = some fj ∧
          r <:+ [97, 98] ∧ r ≠ [97, 98] ∧
          (r = [] ∨ ∃ x ∈ [['a', 'b'], ['b']], r <+: encodeStr x) ∧
          ∀ r', r' <:+ [97, 98] → r' ≠ [97, 98] →
            (∃ x ∈ [['a', 'b'], ['b']], r' <+: encodeStr x) →
            r'.length ≤ r.length) :=
  ⟨by decide, by decide,
    C3_fail_links [['a', 'b'], ['b']]
      ((ac_init [['a', 'b'], ['b']]).getD ⟨[], fun _ => -1⟩) rfl 2 [97, 98]
      (by decide) (by decide)⟩

/-! ## AC match phase

The scan invariant: the current node is the node of the longest suffix of
the processed byte prefix that is a path in the trie. -/

def MaxSuffix (nodes0 : List ACNode) (T q : List Nat) (j : Nat) : Prop :=
  walk nodes0 0 q = some j ∧ q <:+ T ∧
    ∀ r k, walk nodes0 0 r = some k → r <:+ T → r.length ≤ q.length

/-- The failure-following loop of `AC.match` lands on the node of the
longest suffix of the current path whose node has a `b`-child (or on the
root). -/
theorem acFollow_correct {nodes0 : List ACNode} {a : ACData}
    (hc : TrieCore nodes0)
    (hch : ∀ i b, childOf a.nodes i b = childOf nodes0 i b)
    (hfailOK : ∀ j q, walk nodes0 0 q = some j → j ≠ 0 →
      FailOK nodes0 a.fail j) :
    ∀ (fuel : Nat) (cur : Nat) (q : List Nat),
      walk nodes0 0 q = some cur → q.length < fuel → ∀ b,
      ∃ q1, walk nodes0 0 q1 = some (acFollow a fuel cur b) ∧
        q1 <:+ q ∧
        (childOf nodes0 (acFollow a fuel cur b) b ≠ -1 ∨
          acFollow a fuel cur b = 0) ∧
        ∀ r k, walk nodes0 0 r = some k → r <:+ q →
          childOf nodes0 k b ≠ -1 → r.length ≤ q1.length := by
  intro fuel
  induction fuel with
  | zero =>
    intro cur q hq hlt b
    exact absurd hlt (Nat.not_lt_zero _)
  | succ fuel ih =>
    intro cur q hq hlt b
    by_cases hcur0 : cur = 0
    · subst hcur0
      have hq0 : q = [] := path_unique hc 0 q [] hq rfl
      subst hq0
      have hred : acFollow a (fuel + 1) 0 b = 0 := by
        rw [acFollow, if_neg (fun h => h.1 rfl)]
      rw [hred]
      refine ⟨[], rfl, List.nil_suffix, Or.inr rfl, ?_⟩
      intro r k hr hrs _
      simp [List.suffix_nil.mp hrs]
    · by_cases hchb : childOf nodes0 cur b = -1
      · have hcc : (a.nodes.getD cur ACNode.empty).children b = -1 := by
          have h1 : (a.nodes.getD cur ACNode.empty).children b =
              childOf nodes0 cur b := hch cur b
          rw [h1]
          exact hchb
        have hred : acFollow a (fuel + 1) cur b =
            acFollow a fuel (a.fail cur).toNat b := by
          rw [acFollow, if_pos ⟨hcur0, hcc⟩]
        obtain ⟨fj, hfj, hspec⟩ := hfailOK cur q hq hcur0
        obtain ⟨p1, hp1, hp1suf, hp1ne, hp1max⟩ := hspec q hq
        have htn : (a.fail cur).toNat = fj := by
          rw [hfj]
          simp
        have hp1lt : p1.length < q.length := by
          have h1 := List.IsSuffix.length_le hp1suf
          rcases eq_or_ne p1.length q.length with he | hne2
          · exact absurd (List.IsSuffix.eq_of_length hp1suf he) hp1ne
          · omega
        obtain ⟨q1, hw1, hs1, hopt1, hmax1⟩ := ih fj p1 hp1 (by omega) b
        rw [hred, htn]
        refine ⟨q1, hw1, hs1.trans hp1suf, hopt1, ?_⟩
        intro r k hr hrs hrb
        by_cases hrq : r = q
        · exfalso
          subst hrq
          have hkc : k = cur := by
            rw [hq] at hr
            exact (Option.some.inj hr).symm
          rw [hkc] at hrb
          exact hrb hchb
        · have hle := hp1max r k hr hrs hrq
          have hrp1 : r <:+ p1 :=
            List.suffix_of_suffix_length_le hrs hp1suf hle
          exact hmax1 r k hr hrp1 hrb
      · have hcc : ¬ ((a.nodes.getD cur ACNode.empty).children b = -1) := by
          have h1 : (a.nodes.getD cur ACNode.empty).children b =
              childOf nodes0 cur b := hch cur b
          rw [h1]
          exact hchb
        have hred : acFollow a (fuel + 1) cur b = cur := by
          rw [acFollow, if_neg]
          rintro ⟨-, h2⟩
          exact hcc h2
        rw [hred]
        refine ⟨q, hq, List.suffix_rfl, Or.inl hchb, ?_⟩
        intro r k hr hrs _
        exact List.IsSuffix.length_le hrs

/-- Processing one byte keeps the longest-trie-suffix invariant, both
when the follow loop dead-ends at the root and when a child edge is
taken. -/
theorem maxSuffix_extend {nodes0 : List ACNode} (hc : TrieCore nodes0)
    {T q : List Nat} {cur : Nat} (hms : MaxSuffix nodes0 T q cur)
    {b : Nat} {q1 : List Nat} {cur1 : Nat}
    (hw1 : walk nodes0 0 q1 = some cur1) (hs1 : q1 <:+ q)
    (hmax1 : ∀ r k, walk nodes0 0 r = some k → r <:+ q →
      childOf nodes0 k b ≠ -1 → r.length ≤ q1.length) :
    (childOf nodes0 cur1 b = -1 → cur1 = 0 →
      MaxSuffix nodes0 (T ++ [b]) [] 0) ∧
    (∀ cn : Nat, childOf nodes0 cur1 b = (cn : Int) →
      MaxSuffix nodes0 (T ++ [b]) (q1 ++ [b]) cn) := by
  constructor
  · intro hnone h0
    refine ⟨rfl, List.nil_suffix, ?_⟩
    intro r k hr hrs
    rcases suffix_snoc_structure hrs with rfl | ⟨r2, rfl, hr2⟩
    · simp
    · exfalso
      obtain ⟨k2, hk2, hck2⟩ := (walk_snoc hc.vals).mp hr
      have hle : r2.length ≤ q.length := hms.2.2 r2 k2 hk2 hr2
      have hr2q : r2 <:+ q :=
        List.suffix_of_suffix_length_le hr2 hms.2.1 hle
      have hb2 : childOf nodes0 k2 b ≠ -1 := by
        rw [hck2]
        omega
      have hlen1 := hmax1 r2 k2 hk2 hr2q hb2
      have hq1nil : q1 = [] := by
        rw [h0] at hw1
        exact path_unique hc 0 q1 [] hw1 rfl
      rw [hq1nil] at hlen1
      have hr2nil : r2 = [] := by
        simpa using hlen1
      subst hr2nil
      have hk20 : k2 = 0 := (Option.some.inj hk2).symm
      rw [hk20] at hck2
      rw [h0] at hnone
      rw [hnone] at hck2
      omega
  · intro cn hcn
    refine ⟨(walk_snoc hc.vals).mpr ⟨cur1, hw1, hcn⟩,
      suffix_append_single (hs1.trans hms.2.1), ?_⟩
    intro r k hr hrs
    rcases suffix_snoc_structure hrs with rfl | ⟨r2, rfl, hr2⟩
    · simp
    · obtain ⟨k2, hk2, hck2⟩ := (walk_snoc hc.vals).mp hr
      have hle : r2.length ≤ q.length := hms.2.2 r2 k2 hk2 hr2
      have hr2q : r2 <:+ q :=
        List.suffix_of_suffix_length_le hr2 hms.2.1 hle
      have hb2 : childOf nodes0 k2 b ≠ -1 := by
        rw [hck2]
        omega
      have hlen1 := hmax1 r2 k2 hk2 hr2q hb2
      simp
      omega

theorem acRun_cons (a : ACData) (tb : List Nat) (b : Nat) (rest : List Nat)
    (pos cur : Nat) :
    acRun a tb (b :: rest) pos cur =
      if (a.nodes.getD (acFollow a a.nodes.length cur b)
          ACNode.empty).children b = -1
      then acRun a tb rest (pos + 1) (acFollow a a.nodes.length cur b)
      else ((a.nodes.getD ((a.nodes.getD (acFollow a a.nodes.length cur b)
          ACNode.empty).children b).toNat ACNode.empty).patterns.map
          (fun p => (byte_pos_to_char_pos (pos : Int) tb (encodeStr p), p)))
        ++ acRun a tb rest (pos + 1)
          ((a.nodes.getD (acFollow a a.nodes.length cur b)
            ACNode.empty).children b).toNat := rfl

theorem take_append_len_succ (T : List Nat) (b : Nat) (r : List Nat) :
    (T ++ b :: r).take (T.length + 1) = T ++ [b] := by
  induction T with
  | nil => simp
  | cons x xs ih => simp [ih]

/-- Characterization of the byte scan of `AC.match`: the pairs emitted on
the remaining bytes are exactly the patterns whose encoding ends at some
remaining byte position, paired with the byte→character translation of
that end position. -/
theorem acRun_chr {nodes0 : List ACNode} {ps : List (List Char)}
    {a : ACData} (hc : TrieCore nodes0)
    (hch : ∀ i b, childOf a.nodes i b = childOf nodes0 i b)
    (hlen : a.nodes.length = nodes0.length)
    (hfailOK : ∀ j q, walk nodes0 0 q = some j → j ≠ 0 →
      FailOK nodes0 a.fail j)
    (hpatsOK : ∀ j q, walk nodes0 0 q = some j →
      PatsOK nodes0 ps a.nodes j)
    (hreach0 : ∀ x ∈ ps, ∃ j, walk nodes0 0 (encodeStr x) = some j)
    (hne : ∀ x ∈ ps, x ≠ []) (tb : List Nat) :
    ∀ (rest T q : List Nat) (cur : Nat), tb = T ++ rest →
      MaxSuffix nodes0 T q cur →
      ∀ (o : Option Nat) (p : List Char),
        (o, p) ∈ acRun a tb rest T.length cur ↔
          p ∈ ps ∧ ∃ e, T.length ≤ e ∧ e < tb.length ∧
            encodeStr p <:+ tb.take (e + 1) ∧
            o = byte_pos_to_char_pos (e : Int) tb (encodeStr p) := by
  intro rest
  induction rest with
  | nil =>
    intro T q cur htb hms o p
    rw [acRun]
    simp only [List.not_mem_nil, false_iff]
    rintro ⟨-, e, he1, he2, -, -⟩
    rw [htb] at he2
    simp at he2
    omega
  | cons b rest' ih =>
    intro T q cur htb hms o p
    have hqlen : q.length < a.nodes.length := by
      rw [hlen]
      rcases eq_nil_or_append q with rfl | ⟨q', b', rfl⟩
      · simpa using hc.ne
      · have h1 := walk_le hc (q' ++ [b']) 0 cur hms.1
        have h2 := h1.2 (by simp)
        have h3 := h1.1
        omega
    obtain ⟨q1, hw1, hs1, hopt1, hmax1⟩ :=
      acFollow_correct hc hch hfailOK a.nodes.length cur q hms.1 hqlen b
    have hext := maxSuffix_extend hc hms hw1 hs1 hmax1
    have htake : tb.take (T.length + 1) = T ++ [b] := by
      rw [htb]
      exact take_append_len_succ T b rest'
    have htblen : tb.length = T.length + 1 + rest'.length := by
      rw [htb]
      simp
      omega
    set cur1 := acFollow a a.nodes.length cur b with hcur1
    rcases hc.vals cur1 b with hnone | ⟨cn, hcn⟩
    · have hcur10 : cur1 = 0 := by
        rcases hopt1 with h' | h'
        · exact absurd hnone h'
        · exact h'
      have hccn : (a.nodes.getD cur1 ACNode.empty).children b = -1 := by
        have h1 : (a.nodes.getD cur1 ACNode.empty).children b =
            childOf nodes0 cur1 b := hch cur1 b
        rw [h1]
        exact hnone
      have hrun : acRun a tb (b :: rest') T.length cur =
          acRun a tb rest' (T.length + 1) cur1 := by
        rw [acRun_cons, if_pos hccn]
      have hms' : MaxSuffix nodes0 (T ++ [b]) [] 0 := hext.1 hnone hcur10
      have hih := ih (T ++ [b]) [] 0 (by rw [htb]; simp) hms' o p
      rw [show (T ++ [b]).length = T.length + 1 from by simp] at hih
      rw [hrun, hcur10, hih]
      constructor
      · rintro ⟨hp, e, he1, he2, he3, he4⟩
        exact ⟨hp, e, by omega, he2, he3, he4⟩
      · rintro ⟨hp, e, he1, he2, he3, he4⟩
        refine ⟨hp, e, ?_, he2, he3, he4⟩
        rcases eq_or_ne e T.length with rfl | hnee
        · exfalso
          rw [htake] at he3
          obtain ⟨jx, hjx⟩ := hreach0 p hp
          have hlen0 : (encodeStr p).length ≤ 0 :=
            hms'.2.2 (encodeStr p) jx hjx he3
          have hnil : encodeStr p = [] :=
            List.eq_nil_of_length_eq_zero (by omega)
          exact hne p hp ((encodeStr_eq_nil_iff p).mp hnil)
        · omega
    · have hccn : (a.nodes.getD cur1 ACNode.empty).children b = (cn : Int) := by
        have h1 : (a.nodes.getD cur1 ACNode.empty).children b =
            childOf nodes0 cur1 b := hch cur1 b
        rw [h1]
        exact hcn
      have hrun : acRun a tb (b :: rest') T.length cur =
          ((a.nodes.getD cn ACNode.empty).patterns.map
            (fun p => (byte_pos_to_char_pos (T.length : Int) tb
              (encodeStr p), p)))
          ++ acRun a tb rest' (T.length + 1) cn := by
        rw [acRun_cons, if_neg (by rw [hccn]; omega), hccn]
        simp
      have hms' : MaxSuffix nodes0 (T ++ [b]) (q1 ++ [b]) cn :=
        hext.2 cn hcn
      have hih := ih (T ++ [b]) (q1 ++ [b]) cn (by rw [htb]; simp) hms' o p
      rw [show (T ++ [b]).length = T.length + 1 from by simp] at hih
      rw [hrun, List.mem_append, hih]
      have hwalkcn : walk nodes0 0 (q1 ++ [b]) = some cn := hms'.1
      have hpats := hpatsOK cn (q1 ++ [b]) hwalkcn (q1 ++ [b]) hwalkcn
      constructor
      · rintro (hmem | ⟨hp, e, he1, he2, he3, he4⟩)
        · rw [List.mem_map] at hmem
          obtain ⟨p', hp', heq⟩ := hmem
          rw [Prod.mk.injEq] at heq
          obtain ⟨ho, hpp⟩ := heq
          subst hpp
          obtain ⟨hpps, hpne, hpsuf⟩ := (hpats p').mp hp'
          refine ⟨hpps, T.length, le_refl _, by omega, ?_, ho.symm⟩
          rw [htake]
          exact hpsuf.trans hms'.2.1
        · exact ⟨hp, e, by omega, he2, he3, he4⟩
      · rintro ⟨hp, e, he1, he2, he3, he4⟩
        rcases eq_or_ne e T.length with rfl | hnee
        · left
          rw [List.mem_map]
          refine ⟨p, ?_, ?_⟩
          · rw [hpats p]
            refine ⟨hp, hne p hp, ?_⟩
            rw [htake] at he3
            obtain ⟨jx, hjx⟩ := hreach0 p hp
            have hlen2 := hms'.2.2 (encodeStr p) jx hjx he3
            exact List.suffix_of_suffix_length_le he3 hms'.2.1 hlen2
          · rw [he4]
        · right
          exact ⟨hp, e, by omega, he2, he3, he4⟩

theorem take_len_append (L1 L2 : List Nat) :
    (L1 ++ L2).take L1.length = L1 := by
  induction L1 with
  | nil => simp
  | cons x xs ih => simp [ih]

theorem encodeStr_len_pos {p : List Char} (hp : p ≠ []) :
    1 ≤ (encodeStr p).length := by
  match p with
  | [] => exact absurd rfl hp
  | c :: p' =>
    rw [encodeStr_cons]
    have h1 := List.length_pos.mpr (encodeChar_ne_nil c)
    simp
    omega

/-- Membership in `AC.match`'s result (patterns all non-empty): exactly
the pairs `(some i, p)` with `p` an inserted pattern occurring in the
text at character offset `i`. -/
theorem ac_match_mem {ps : List (List Char)} {a : ACData}
    (ha : ac_init ps = some a) (hne : ∀ x ∈ ps, x ≠ [])
    (t : List Char) (o : Option Nat) (p : List Char) :
    (o, p) ∈ ac_match a t ↔
      p ∈ ps ∧ ∃ i, occursAt t p i ∧ o = some i := by
  rw [ac_init, Option.some.injEq] at ha
  subst ha
  obtain ⟨hc, hreach0, hpaths, -⟩ := acTrie_spec ps
  obtain ⟨hch, hlen, -, hfailOK, hpatsOK⟩ := acCalculateFail_spec ps
  rw [ac_match]
  split
  · rename_i ht
    subst ht
    simp only [List.not_mem_nil, false_iff]
    rintro ⟨hp, i, ⟨hocc1, -⟩, -⟩
    have hp1 : 1 ≤ p.length := List.length_pos.mpr (hne p hp)
    have h0 : i + p.length ≤ 0 := hocc1
    omega
  · rename_i ht
    have hms0 : MaxSuffix (acTrie ps) [] [] 0 := by
      refine ⟨rfl, List.suffix_rfl, ?_⟩
      intro r k hr hrs
      simp [List.suffix_nil.mp hrs]
    have hchr := @acRun_chr (acTrie ps) ps
      ⟨(acCalculateFail (acTrie ps)).1, (acCalculateFail (acTrie ps)).2⟩
      hc hch hlen hfailOK
      (fun j q hq => hpatsOK j q hq hne) hreach0 hne (encodeStr t)
      (encodeStr t) [] [] 0 (by simp) hms0 o p
    simp only [List.length_nil] at hchr
    rw [hchr]
    constructor
    · rintro ⟨hp, e, -, he2, he3, he4⟩
      have hpnil := hne p hp
      refine ⟨hp, ?_⟩
      obtain ⟨b1, hb1⟩ := he3
      have hsplit : encodeStr t =
          b1 ++ (encodeStr p ++ (encodeStr t).drop (e + 1)) := by
        conv_lhs => rw [← List.take_append_drop (e + 1) (encodeStr t)]
        rw [← hb1]
        simp
      have htklen : ((encodeStr t).take (e + 1)).length = e + 1 := by
        rw [List.length_take]
        omega
      have hlensum : b1.length + (encodeStr p).length = e + 1 := by
        have h5 := congrArg List.length hb1
        simp at h5
        omega
      have hp1 := encodeStr_len_pos hpnil
      obtain ⟨pre, suf, hts, hpre, hbp⟩ :=
        byte_pos_correct t p b1 ((encodeStr t).drop (e + 1))
          (e : Int) hpnil hsplit (by push_cast; omega)
      refine ⟨pre.length, ?_, ?_⟩
      · rw [occursAt_iff]
        exact ⟨pre, suf, hts, rfl⟩
      · rw [he4, hbp]
    · rintro ⟨hp, i, hocc, ho⟩
      have hpnil := hne p hp
      have hp1 := encodeStr_len_pos hpnil
      obtain ⟨pre, suf, hts, hilen⟩ := (occursAt_iff t p i).mp hocc
      have hsplit : encodeStr t =
          encodeStr pre ++ (encodeStr p ++ encodeStr suf) := by
        rw [hts, encodeStr_append, encodeStr_append]
        simp
      have htlen : (encodeStr t).length =
          (encodeStr pre).length + (encodeStr p).length +
            (encodeStr suf).length := by
        rw [hsplit]
        simp
        omega
      refine ⟨hp, (encodeStr pre).length + (encodeStr p).length - 1,
        by omega, by omega, ?_, ?_⟩
      · have htk : (encodeStr t).take
            ((encodeStr pre).length + (encodeStr p).length - 1 + 1) =
            encodeStr pre ++ encodeStr p := by
          have h1 : (encodeStr pre).length + (encodeStr p).length - 1 + 1 =
              (encodeStr pre ++ encodeStr p).length := by
            simp
            omega
          rw [h1, hsplit, ← List.append_assoc, take_len_append]
        rw [htk]
        exact List.suffix_append _ _
      · obtain ⟨pre2, suf2, hts2, hpre2, hbp2⟩ :=
          byte_pos_correct t p (encodeStr pre) (encodeStr suf)
            (((encodeStr pre).length + (encodeStr p).length - 1 : Nat) : Int)
            hpnil hsplit (by push_cast; omega)
        have hpp : pre2 = pre := encodeStr_inj hpre2
        rw [hbp2, hpp, hilen, ho]

/-- C7 (counterexample): `AC` construction does **not** fail on an empty
pattern set, nor on a set containing the empty string — the Python
constructor runs to completion and yields a usable matcher (which then
finds nothing in any text). -/
theorem C7_counterexample :
    (ac_init []).isSome = true ∧ (ac_init [[]]).isSome = true ∧
      ac_match ((ac_init []).getD ⟨[], fun _ => -1⟩) ['x'] = [] := by
  refine ⟨rfl, rfl, ?_⟩
  rw [List.eq_nil_iff_forall_not_mem]
  intro x hx
  obtain ⟨o, p⟩ := x
  obtain ⟨hp, -⟩ := (@ac_match_mem []
    ((ac_init []).getD ⟨[], fun _ => -1⟩) rfl (by simp) ['x'] o p).mp hx
  simp at hp

/-- C10: soundness of reported matches — every pair in the result of
`AC.match` or `WM.match` is a true occurrence: the offset `i` satisfies
`i + |pattern| ≤ |text|` (in characters) and the text's substring at `i`
of the pattern's length equals the pattern (`occursAt`). -/
theorem C10_soundness {ps : List (List Char)} {B : Nat} {a : ACData}
    {w : WMData} (ha : ac_init ps = some a) (hw : wm_init ps B = some w)
    (hB1 : 1 ≤ B) (hne : ∀ x ∈ ps, x ≠ [])
    (t : List Char) (o : Option Nat) (p : List Char) :
    ((o, p) ∈ ac_match a t →
      p ∈ ps ∧ ∃ i, o = some i ∧ occursAt t p i) ∧
    ((o, p) ∈ wm_match w t →
      p ∈ ps ∧ ∃ i, o = some i ∧ occursAt t p i) := by
  constructor
  · intro h
    obtain ⟨hp, i, hocc, ho⟩ := (ac_match_mem ha hne t o p).mp h
    exact ⟨hp, i, ho, hocc⟩
  · intro h
    obtain ⟨hp, pre, suf, hts, ho⟩ := wm_match_sound hw hB1 h
    refine ⟨hp, pre.length, ho, ?_⟩
    rw [occursAt_iff]
    exact ⟨pre, suf, hts, rfl⟩

theorem C10_witness :
    (some 0, ['a']) ∈
      ac_match ((ac_init [['a']]).getD ⟨[], fun _ => -1⟩) ['a'] ∧
    (1 ≤ 1) ∧ (∀ x ∈ [['a']], x ≠ ([] : List Char)) ∧
    (['a'] ∈ [['a']] ∧
      ∃ i, (some 0 : Option Nat) = some i ∧ occursAt ['a'] ['a'] i) :=
  ⟨(@ac_match_mem [['a']] ((ac_init [['a']]).getD ⟨[], fun _ => -1⟩)
      rfl (by decide) ['a'] (some 0) ['a']).mpr
      ⟨by decide, 0, by decide, rfl⟩,
   by decide, by decide,
    (@C10_soundness [['a']] 1 ((ac_init [['a']]).getD ⟨[], fun _ => -1⟩)
      ((wm_init [['a']] 1).getD ⟨1, 1, fun _ => none, fun _ => [],
        fun _ => []⟩)
      rfl rfl (by decide) (by decide) ['a'] (some 0) ['a']).1
      ((@ac_match_mem [['a']] ((ac_init [['a']]).getD ⟨[], fun _ => -1⟩)
        rfl (by decide) ['a'] (some 0) ['a']).mpr
        ⟨by decide, 0, by decide, rfl⟩)⟩

/-- C1 (amended): for every non-empty pattern set of non-empty patterns
accepted by both constructors and every non-empty text, `BruteForce.match`,
`AC.match` and `WM.match` return the same (character-offset, pattern)
pairs (AC/WM offsets carried as `some`); `Native.match`'s pairs are a
subset of `BruteForce.match`'s, but not conversely (`C1_counterexample`:
`Native` skips overlapping occurrences of the same pattern). -/
theorem C1_equivalence {ps : List (List Char)} {B : Nat} {a : ACData}
    {w : WMData} (ha : ac_init ps = some a) (hw : wm_init ps B = some w)
    (hB1 : 1 ≤ B) (hne : ∀ x ∈ ps, x ≠ [])
    (t : List Char) (ht : t ≠ []) (i : Nat) (p : List Char) :
    ((some i, p) ∈ ac_match a t ↔ (i, p) ∈ bruteForce_match ps t) ∧
    ((some i, p) ∈ wm_match w t ↔ (i, p) ∈ bruteForce_match ps t) ∧
    ((i, p) ∈ native_match ps t → (i, p) ∈ bruteForce_match ps t) := by
  have hBF : (i, p) ∈ bruteForce_match ps t ↔ p ∈ ps ∧ occursAt t p i := by
    rw [bruteForce_match_mem ps t ht i p]
    constructor
    · rintro ⟨h1, -, h3⟩
      exact ⟨h1, h3⟩
    · rintro ⟨h1, h3⟩
      refine ⟨h1, ?_, h3⟩
      have h4 := h3.1
      have hp1 : 1 ≤ p.length := List.length_pos.mpr (hne p h1)
      omega
  refine ⟨?_, ?_, ?_⟩
  · rw [ac_match_mem ha hne t (some i) p, hBF]
    constructor
    · rintro ⟨hp, j, hocc, hj⟩
      have hji : i = j := Option.some.inj hj
      rw [hji]
      exact ⟨hp, hocc⟩
    · rintro ⟨hp, hocc⟩
      exact ⟨hp, i, hocc, rfl⟩
  · rw [hBF]
    constructor
    · intro h
      obtain ⟨hp, pre, suf, hts, ho⟩ := wm_match_sound hw hB1 h
      have hip : i = pre.length := Option.some.inj ho
      refine ⟨hp, ?_⟩
      rw [occursAt_iff]
      exact ⟨pre, suf, hts, hip.symm⟩
    · rintro ⟨hp, hocc⟩
      obtain ⟨pre, suf, hts, hlen⟩ := (occursAt_iff t p i).mp hocc
      subst hts
      rw [← hlen]
      exact wm_complete hw hB1 hp
  · intro h
    obtain ⟨hp, hocc⟩ := native_match_sound h
    exact hBF.mpr ⟨hp, hocc⟩

theorem C1_witness :
    (1 ≤ 1) ∧ (∀ x ∈ [['a']], x ≠ ([] : List Char)) ∧
    (['a', 'a'] ≠ ([] : List Char)) ∧
    (((some 1, ['a']) ∈
        ac_match ((ac_init [['a']]).getD ⟨[], fun _ => -1⟩) ['a', 'a'] ↔
      (1, ['a']) ∈ bruteForce_match [['a']] ['a', 'a']) ∧
     ((some 1, ['a']) ∈
        wm_match ((wm_init [['a']] 1).getD ⟨1, 1, fun _ => none,
          fun _ => [], fun _ => []⟩) ['a', 'a'] ↔
      (1, ['a']) ∈ bruteForce_match [['a']] ['a', 'a']) ∧
     ((1, ['a']) ∈ native_match [['a']] ['a', 'a'] →
      (1, ['a']) ∈ bruteForce_match [['a']] ['a', 'a'])) :=
  ⟨by decide, by decide, by decide,
    @C1_equivalence [['a']] 1 ((ac_init [['a']]).getD ⟨[], fun _ => -1⟩)
      ((wm_init [['a']] 1).getD ⟨1, 1, fun _ => none, fun _ => [],
        fun _ => []⟩)
      rfl rfl (by decide) (by decide) ['a', 'a'] (by decide) 1 ['a']⟩

set_option maxRecDepth 100000 in
/-- C5: on patterns `["他","她","他的","她的"]` and text `"他和她的"`, all
four exact matchers return exactly the set
`{(0,"他"), (2,"她"), (2,"她的")}` (AC and WM offsets carry the
successful `some` of the byte→char translation).  The first, second and
fourth matchers are evaluated outright; the AC result is obtained from
the proven occurrence characterization of `ac_match`, since the arena
fold of `calculate_fail` is too deep for in-kernel evaluation. -/
theorem C5_concrete_scenario :
    (bruteForce_match [['他'], ['她'], ['他', '的'], ['她', '的']]
      ['他', '和', '她', '的']).toFinset =
      ({(0, ['他']), (2, ['她']), (2, ['她', '的'])} :
        Finset (Nat × List Char)) ∧
    (native_match [['他'], ['她'], ['他', '的'], ['她', '的']]
      ['他', '和', '她', '的']).toFinset =
      ({(0, ['他']), (2, ['她']), (2, ['她', '的'])} :
        Finset (Nat × List Char)) ∧
    (ac_match ((ac_init [['他'], ['她'], ['他', '的'], ['她', '的']]).getD
        ⟨[], fun _ => -1⟩) ['他', '和', '她', '的']).toFinset =
      ({(some 0, ['他']), (some 2, ['她']), (some 2, ['她', '的'])} :
        Finset (Option Nat × List Char)) ∧
    (wm_match ((wm_init [['他'], ['她'], ['他', '的'], ['她', '的']] 2).getD
        ⟨2, 3, fun _ => none, fun _ => [], fun _ => []⟩) ['他', '和', '她', '的']).toFinset =
      ({(some 0, ['他']), (some 2, ['她']), (some 2, ['她', '的'])} :
        Finset (Option Nat × List Char)) := by
  refine ⟨by decide, by decide, ?_, by decide⟩
  apply Finset.ext
  intro x
  rw [List.mem_toFinset]
  obtain ⟨o, p⟩ := x
  have hmem := @ac_match_mem [['他'], ['她'], ['他', '的'], ['她', '的']]
    ((ac_init [['他'], ['她'], ['他', '的'], ['她', '的']]).getD
      ⟨[], fun _ => -1⟩)
    rfl (by decide) ['他', '和', '她', '的'] o p
  rw [hmem]
  constructor
  · rintro ⟨hp, i, hocc, ho⟩
    subst ho
    have hi : i ≤ 4 := by
      have h1 := hocc.1
      simp at h1
      omega
    simp only [List.mem_cons, List.not_mem_nil, or_false] at hp
    interval_cases i <;>
      rcases hp with rfl | rfl | rfl | rfl <;>
      revert hocc <;> decide
  · intro hx
    simp only [Finset.mem_insert, Finset.mem_singleton, Prod.mk.injEq] at hx
    rcases hx with ⟨rfl, rfl⟩ | ⟨rfl, rfl⟩ | ⟨rfl, rfl⟩
    · exact ⟨by decide, 0, by decide, rfl⟩
    · exact ⟨by decide, 2, by decide, rfl⟩
    · exact ⟨by decide, 2, by decide, rfl⟩
